import Mathlib

/-!
# NativeVision: a verification development

Shallow embedding of `src/NativeVision/NativeVision.cpp` (gradient engine,
pose scorer, Hough voter) and theorems about it.

Conventions of the embedding

* C `int` values are modelled by `Int` (or `Nat` where the source only uses
  them as non-negative sizes and indices); no claim treated here depends on
  32-bit wrap-around.
* IEEE values that the code only compares and copies (`double score`,
  candidate angles and centres) are elements of an arbitrary linearly ordered
  type, respectively of an arbitrary type `R`.
* A `for` loop is a `List.foldl` over the list of values its control variable
  takes; `continue` leaves the loop state unchanged.
* An OpenMP work-sharing loop is modelled by an explicit schedule: the list of
  workers, each with the list of loop indices it executes, in execution order.
-/

namespace NativeVision

/-! ## Definitions -/

/-- Values taken by `v` in `for (int v = lo; v <= hi; v++)`. -/
def loopRange (lo hi : Int) : List Int :=
  (List.range (hi + 1 - lo).toNat).map (fun (k : Nat) => lo + (k : Int))

/-- Generic "keep the first strict maximum" scan: the loop body
`if (val c > key st) st = mk c;` run over the candidates `cs`. -/
def scanBest {σ γ α : Type} [LinearOrder α] (key : σ → α) (val : γ → α) (mk : γ → σ)
    (init : σ) (cs : List γ) : σ :=
  cs.foldl (fun st c => if val c > key st then mk c else st) init

/-! ### Pose scorer: `EvaluateBatchNative` -/

/-- Loop state of `EvaluateBatchNative`: `bestScore`, `bestDx`, `bestDy`. -/
structure BatchResult (α : Type) where
  bestScore : α
  bestDx : Int
  bestDy : Int
deriving DecidableEq, Repr

/-- Body of the inner `dx` loop of `EvaluateBatchNative` (lines 262-279). -/
def batchInner {α : Type} [LinearOrder α] (score : Int → Int → α)
    (baseCx imgW margin py dy : Int) (st : BatchResult α) (dx : Int) : BatchResult α :=
  let px := baseCx + dx
  if px < margin ∨ px ≥ imgW - margin then st
  else
    let s := score px py
    if s > st.bestScore then ⟨s, dx, dy⟩ else st

/-- Body of the outer `dy` loop of `EvaluateBatchNative` (lines 257-280). -/
def batchOuter {α : Type} [LinearOrder α] (score : Int → Int → α)
    (baseCx baseCy refRadius imgW imgH margin : Int) (st : BatchResult α) (dy : Int) :
    BatchResult α :=
  let py := baseCy + dy
  if py < margin ∨ py ≥ imgH - margin then st
  else (loopRange (-refRadius) refRadius).foldl (batchInner score baseCx imgW margin py dy) st

/-- The function `EvaluateBatchNative` (lines 235-286) on the path where the
scratch allocation succeeds. `score px py` stands for the value of
`EvaluateNativeInternal(px, py, offsets, …)`, whose other arguments are the same
at every grid position. The result carries the return value and the two
out-parameters `*outDx`, `*outDy`. -/
def EvaluateBatchNative {α : Type} [LinearOrder α] [Zero α] (score : Int → Int → α)
    (baseCx baseCy refRadius imgW imgH margin : Int) : BatchResult α :=
  (loopRange (-refRadius) refRadius).foldl
    (batchOuter score baseCx baseCy refRadius imgW imgH margin) ⟨0, 0, 0⟩

/-- A lattice point `(dx, dy)` of `[-refRadius, refRadius]²` whose centre
`(baseCx + dx, baseCy + dy)` is in bounds. -/
def IsCandidate (baseCx baseCy refRadius imgW imgH margin dx dy : Int) : Prop :=
  (-refRadius ≤ dx ∧ dx ≤ refRadius) ∧ (-refRadius ≤ dy ∧ dy ≤ refRadius) ∧
  (margin ≤ baseCx + dx ∧ baseCx + dx < imgW - margin) ∧
  (margin ≤ baseCy + dy ∧ baseCy + dy < imgH - margin)

instance (baseCx baseCy refRadius imgW imgH margin dx dy : Int) :
    Decidable (IsCandidate baseCx baseCy refRadius imgW imgH margin dx dy) := by
  unfold IsCandidate; infer_instance

/-- The value `m` is the maximum of `score` over the in-bounds lattice points. -/
def IsGridMax {α : Type} [LinearOrder α] (score : Int → Int → α)
    (baseCx baseCy refRadius imgW imgH margin : Int) (m : α) : Prop :=
  (∃ dx dy, IsCandidate baseCx baseCy refRadius imgW imgH margin dx dy ∧
      score (baseCx + dx) (baseCy + dy) = m) ∧
  ∀ dx dy, IsCandidate baseCx baseCy refRadius imgW imgH margin dx dy →
      score (baseCx + dx) (baseCy + dy) ≤ m

/-- The in-bounds lattice points `(dx, dy)` in the order the two loops of
`EvaluateBatchNative` visit them: rows `dy` ascending, `dx` ascending in a row. -/
def gridCands (baseCx baseCy refRadius imgW imgH margin : Int) : List (Int × Int) :=
  (loopRange (-refRadius) refRadius).flatMap (fun dy =>
    if baseCy + dy < margin ∨ baseCy + dy ≥ imgH - margin then []
    else ((loopRange (-refRadius) refRadius).filter
            (fun dx => ¬ (baseCx + dx < margin ∨ baseCx + dx ≥ imgW - margin))).map
          (fun dx => (dx, dy)))

/-- Row-major order on lattice points: `(dy, dx)` lexicographic, strict. -/
def rowMajorLt (a b : Int × Int) : Prop := a.2 < b.2 ∨ (a.2 = b.2 ∧ a.1 < b.1)

/-! ### Pose scorer: `EvaluateAllPosesNative` -/

/-- Per-thread and global state of `EvaluateAllPosesNative`: best score, its
offset `(dx, dy)` and its pose index. -/
structure PoseResult (α : Type) where
  bestScore : α
  bestDx : Int
  bestDy : Int
  bestPose : Nat
deriving DecidableEq, Repr

/-- Body of the inner `dx` loop of `EvaluateAllPosesNative` (lines 608-626). -/
def posesInner {α : Type} [LinearOrder α] (score : Nat → Int → Int → α) (pi : Nat)
    (baseCx imgW margin py dy : Int) (st : PoseResult α) (dx : Int) : PoseResult α :=
  let px := baseCx + dx
  if px < margin ∨ px ≥ imgW - margin then st
  else
    let s := score pi px py
    if s > st.bestScore then ⟨s, dx, dy, pi⟩ else st

/-- Body of the `dy` loop of `EvaluateAllPosesNative` (lines 603-627). -/
def posesOuter {α : Type} [LinearOrder α] (score : Nat → Int → Int → α) (pi : Nat)
    (baseCx baseCy refRadius imgW imgH margin : Int) (st : PoseResult α) (dy : Int) :
    PoseResult α :=
  let py := baseCy + dy
  if py < margin ∨ py ≥ imgH - margin then st
  else (loopRange (-refRadius) refRadius).foldl (posesInner score pi baseCx imgW margin py dy) st

/-- Body of the work-shared `pi` loop (lines 590-628): the lattice search of
pose `pi` with `margin = margins[pi]`, continuing from the thread's local best.
`score pi px py` stands for `EvaluateNativeInternal` on the model slice of
pose `pi`. -/
def posesBody {α : Type} [LinearOrder α] (score : Nat → Int → Int → α) (margins : Nat → Int)
    (baseCx baseCy refRadius imgW imgH : Int) (st : PoseResult α) (pi : Nat) : PoseResult α :=
  (loopRange (-refRadius) refRadius).foldl
    (posesOuter score pi baseCx baseCy refRadius imgW imgH (margins pi)) st

/-- What one worker thread holds when it reaches the critical section, after
having executed the iterations `poses` of the `pi` loop in that order. -/
def workerLocal {α : Type} [LinearOrder α] [Zero α] (score : Nat → Int → Int → α)
    (margins : Nat → Int) (baseCx baseCy refRadius imgW imgH : Int) (poses : List Nat) :
    PoseResult α :=
  poses.foldl (posesBody score margins baseCx baseCy refRadius imgW imgH) ⟨0, 0, 0, 0⟩

/-- The critical section (lines 632-641): one worker's local best is merged
into the global best. -/
def mergeLocal {α : Type} [LinearOrder α] (g l : PoseResult α) : PoseResult α :=
  if l.bestScore > g.bestScore then l else g

/-- The function `EvaluateAllPosesNative` (lines 566-648) under the schedule
`sched`: one entry per worker thread, in the order in which the workers enter
the critical section; each entry lists the pose indices that worker executes,
in execution order. -/
def EvaluateAllPosesNative {α : Type} [LinearOrder α] [Zero α] (score : Nat → Int → Int → α)
    (margins : Nat → Int) (baseCx baseCy refRadius imgW imgH : Int) (sched : List (List Nat)) :
    PoseResult α :=
  (sched.map (workerLocal score margins baseCx baseCy refRadius imgW imgH)).foldl
    mergeLocal ⟨0, 0, 0, 0⟩

/-- A schedule of the loop `for (pi = 0; pi < poseCount; pi++)`: every index
is executed by exactly one worker and every worker takes its indices in
ascending order. -/
def IsSchedule (n : Nat) (sched : List (List Nat)) : Prop :=
  sched.flatten.Perm (List.range n) ∧ ∀ w ∈ sched, w.Pairwise (· < ·)

/-- The serial reference of the specification: enumerate `(poseIdx, dy, dx)` in
ascending lexicographic order over all poses and their in-bounds lattice
points and keep the first maximum, starting from score `0` at `(0, 0)`, pose `0`. -/
def serialAllPoses {α : Type} [LinearOrder α] [Zero α] (score : Nat → Int → Int → α)
    (margins : Nat → Int) (poseCount : Nat) (baseCx baseCy refRadius imgW imgH : Int) :
    PoseResult α :=
  scanBest PoseResult.bestScore
    (fun t : Nat × Int × Int => score t.1 (baseCx + t.2.1) (baseCy + t.2.2))
    (fun t => ⟨score t.1 (baseCx + t.2.1) (baseCy + t.2.2), t.2.1, t.2.2, t.1⟩)
    ⟨0, 0, 0, 0⟩
    ((List.range poseCount).flatMap (fun p =>
      (gridCands baseCx baseCy refRadius imgW imgH (margins p)).map (fun c => (p, c.1, c.2))))

/-! ### Hough voter: candidates and the top-K list -/

/-- The local `struct Candidate` of `HoughVotingNative` (lines 317-320). The
three `double` fields are only stored and copied; `R` is their type. -/
structure Candidate (R : Type) where
  angle : R
  cx : R
  cy : R
  votes : Int
deriving DecidableEq, Repr

/-- The zero-vote placeholder every slot is initialised with (lines 323-328
and 333-338). -/
def Candidate.zero {R : Type} [Zero R] : Candidate R := ⟨0, 0, 0, 0⟩

/-- The bubble-up loop
`for (k = topK - 1; k > 0 && a[k].votes > a[k-1].votes; k--) swap(a[k], a[k-1])`
(lines 405-410 and 428-433), started at index `k`. -/
def bubbleUp {R : Type} : Nat → List (Candidate R) → List (Candidate R)
  | 0, xs => xs
  | k + 1, xs =>
    match xs[k + 1]?, xs[k]? with
    | some a, some b =>
      if a.votes > b.votes then bubbleUp k ((xs.set (k + 1) b).set k a) else xs
    | _, _ => xs

/-- The insertion policy of lines 398-411 (thread-local list) and 425-434
(merge): if the new entry beats last place it replaces it and bubbles up. -/
def topKInsert {R : Type} (topK : Nat) (xs : List (Candidate R)) (c : Candidate R) :
    List (Candidate R) :=
  match xs[topK - 1]? with
  | some last =>
    if c.votes > last.votes then bubbleUp (topK - 1) (xs.set (topK - 1) c) else xs
  | none => xs

/-- The thread-local list `myBest` of a worker after it has handled the
per-angle results `seq` in that order, starting from `topK` placeholders. -/
def topKOfSeq {R : Type} [Zero R] (topK : Nat) (seq : List (Candidate R)) : List (Candidate R) :=
  seq.foldl (topKInsert topK) (List.replicate topK Candidate.zero)

/-- The order "at least as many votes as". -/
def votesGE {R : Type} (a b : Candidate R) : Prop := b.votes ≤ a.votes

instance {R : Type} : DecidableRel (votesGE : Candidate R → Candidate R → Prop) :=
  fun a b => inferInstanceAs (Decidable (b.votes ≤ a.votes))

instance {R : Type} : IsTotal (Candidate R) votesGE := ⟨fun a b => le_total b.votes a.votes⟩

instance {R : Type} : IsTrans (Candidate R) votesGE := ⟨fun _ _ _ hab hbc => le_trans hbc hab⟩

/-- Insert `c` into a list sorted by votes descending, behind every entry that
has at least as many votes. -/
def insertAfterGE {R : Type} (c : Candidate R) : List (Candidate R) → List (Candidate R)
  | [] => [c]
  | b :: l => if c.votes ≤ b.votes then b :: insertAfterGE c l else c :: b :: l

/-- The specification of the top-K list: the positive-vote results sorted by
votes descending by a stable sort (equal votes keep the order in which they
were found), truncated to `topK` entries and padded with placeholders. -/
def topKStable {R : Type} [Zero R] (topK : Nat) (seq : List (Candidate R)) : List (Candidate R) :=
  ((seq.filter (fun c => 0 < c.votes)).insertionSort votesGE).take topK
    ++ List.replicate (topK - (seq.filter (fun c => 0 < c.votes)).length) Candidate.zero

/-! ### Hough voter: final selection -/

/-- The read `a[i].votes`; outside the array (which the loops below never
reach) the model returns `0`. -/
def votesAt {R : Type} (a : List (Candidate R)) (i : Nat) : Int :=
  match a[i]? with
  | some c => c.votes
  | none => 0

/-- The loop of lines 536-541: `bestIdx` after scanning `fineResults[1 ..]`. -/
def fineBestIdx {R : Type} (fine : List (Candidate R)) : Nat :=
  (List.range' 1 (fine.length - 1)).foldl
    (fun bestIdx i => if votesAt fine i > votesAt fine bestIdx then i else bestIdx) 0

/-- The final selection of `HoughVotingNative` (lines 535-557). The result is
the candidate whose fields are written to `*outBestCx`, `*outBestCy`,
`*outBestAngle` and `*outBestVotes`; `none` stands for a read outside an
array. -/
def houghSelect {R : Type} (fine candidates : List (Candidate R)) : Option (Candidate R) :=
  match fine[fineBestIdx fine]? with
  | some f => if f.votes > 0 then some f else candidates[0]?
  | none => none

/-! ### Gradient engine: `ComputeGradientNative`

The source image is a map from byte offsets to bytes. Every value the Sobel
sums pass through is an integer of magnitude at most `4 * 255`, and the
radicand `gx² + gy²` is an integer below `2²⁴`, so the single-precision
operations of the source are exact on them: `Dx` and `Dy` hold integers. The
magnitude is `sqrtf` of that integer; `sqrtf : Int → R` is a parameter, `R`
stands for the values of `float`, and `((n : Nat) : R)` is the float holding
the natural number `n`. -/

/-- The read `(float) p[i]` of a source byte. -/
def pix (gray : Nat → Fin 256) (i : Nat) : Int := ((gray i).val : Int)

/-- One store `dx[i] = gx; dy[i] = gy; mg[i] = mag`: the source always writes
the three outputs at the same index together. -/
structure Store (R : Type) where
  idx : Nat
  gx : Int
  gy : Int
  mag : R

/-- The three output rasters `outDx`, `outDy`, `outMag`. -/
structure GradBuffers (R : Type) where
  Dx : Nat → Int
  Dy : Nat → Int
  Mag : Nat → R

/-- Effect of one store on the output rasters. -/
def GradBuffers.write {R : Type} (b : GradBuffers R) (s : Store R) : GradBuffers R :=
  ⟨Function.update b.Dx s.idx s.gx, Function.update b.Dy s.idx s.gy,
   Function.update b.Mag s.idx s.mag⟩

/-- The store `dx[i] = dy[i] = mg[i] = 0.0f`. -/
def zeroStore {R : Type} [NatCast R] (i : Nat) : Store R := ⟨i, 0, 0, ((0 : Nat) : R)⟩

/-- The calls `memset(out + off, 0, width * sizeof(float))` on the three
outputs (lines 33-38). -/
def memsetRow {R : Type} [NatCast R] (off width : Nat) : List (Store R) :=
  (List.range' off width).map zeroStore

/-- Lane `l` of the 8-wide block at column `x` of row `y` (lines 61-96): the
loads start at `r + x - 1`, `r + x`, `r + x + 1`, lane `l` reads `l` bytes
further and is stored at `dx + x + l`. -/
def blockLane {R : Type} (gray : Nat → Fin 256) (sqrtf : Int → R) (W S y x l : Nat) : Store R :=
  let r0 := (y - 1) * S
  let r1 := y * S
  let r2 := (y + 1) * S
  let r0_m1 := pix gray (r0 + x - 1 + l)
  let r0_0 := pix gray (r0 + x + l)
  let r0_p1 := pix gray (r0 + x + 1 + l)
  let r1_m1 := pix gray (r1 + x - 1 + l)
  let r1_p1 := pix gray (r1 + x + 1 + l)
  let r2_m1 := pix gray (r2 + x - 1 + l)
  let r2_0 := pix gray (r2 + x + l)
  let r2_p1 := pix gray (r2 + x + 1 + l)
  let gx := r0_p1 - r0_m1
  let gx := 2 * (r1_p1 - r1_m1) + gx
  let gx := gx + (r2_p1 - r2_m1)
  let gy := r2_m1 - r0_m1
  let gy := 2 * (r2_0 - r0_0) + gy
  let gy := gy + (r2_p1 - r0_p1)
  ⟨y * W + x + l, gx, gy, sqrtf (gx * gx + gy * gy)⟩

/-- One iteration of the scalar remainder loop at column `x` of row `y`
(lines 102-109). -/
def scalarPixel {R : Type} (gray : Nat → Fin 256) (sqrtf : Int → R) (W S y x : Nat) : Store R :=
  let r0 := (y - 1) * S
  let r1 := y * S
  let r2 := (y + 1) * S
  let gx := -pix gray (r0 + (x - 1)) + pix gray (r0 + (x + 1))
            - 2 * pix gray (r1 + (x - 1)) + 2 * pix gray (r1 + (x + 1))
            - pix gray (r2 + (x - 1)) + pix gray (r2 + (x + 1))
  let gy := -pix gray (r0 + (x - 1)) - 2 * pix gray (r0 + x) - pix gray (r0 + (x + 1))
            + pix gray (r2 + (x - 1)) + 2 * pix gray (r2 + x) + pix gray (r2 + (x + 1))
  ⟨y * W + x, gx, gy, sqrtf (gx * gx + gy * gy)⟩

/-- The block loop `for (; x + 8 < width - 1; x += 8)` (lines 56-97) started
at column `x`, with a bound `fuel` on the number of iterations: the stores it
performs and the value of `x` when it stops. -/
def blockLoop {R : Type} (gray : Nat → Fin 256) (sqrtf : Int → R) (W S y : Nat) :
    Nat → Nat → List (Store R) × Nat
  | 0, x => ([], x)
  | fuel + 1, x =>
    if x + 8 < W - 1 then
      ((List.range 8).map (blockLane gray sqrtf W S y x)
          ++ (blockLoop gray sqrtf W S y fuel (x + 8)).1,
        (blockLoop gray sqrtf W S y fuel (x + 8)).2)
    else ([], x)

/-- The stores of one iteration `y` of the row loop (lines 43-110): the two
border columns, the block loop from `x = 1` (which `width` iterations always
exhaust), then the scalar loop from where the block loop stopped. -/
def rowStores {R : Type} [NatCast R] (gray : Nat → Fin 256) (sqrtf : Int → R) (W S y : Nat) :
    List (Store R) :=
  [zeroStore (y * W + 0), zeroStore (y * W + (W - 1))]
    ++ (blockLoop gray sqrtf W S y W 1).1
    ++ (List.range' (blockLoop gray sqrtf W S y W 1).2
          (W - 1 - (blockLoop gray sqrtf W S y W 1).2)).map (scalarPixel gray sqrtf W S y)

/-- All stores of `ComputeGradientNative`, in program order with the rows
taken in ascending order: the two border rows, then rows `1 .. height - 2`. -/
def gradientStores {R : Type} [NatCast R] (gray : Nat → Fin 256) (sqrtf : Int → R)
    (W H S : Nat) : List (Store R) :=
  memsetRow 0 W ++ memsetRow ((H - 1) * W) W
    ++ (List.range' 1 (H - 2)).flatMap (rowStores gray sqrtf W S)

/-- The function `ComputeGradientNative` (lines 20-112): the output rasters
after the call, given their content `init` before it. -/
def ComputeGradientNative {R : Type} [NatCast R] (gray : Nat → Fin 256) (sqrtf : Int → R)
    (W H S : Nat) (init : GradBuffers R) : GradBuffers R :=
  (gradientStores gray sqrtf W H S).foldl GradBuffers.write init

/-- The source pixel `s(x, y) = src[y * S + x]`. -/
def srcAt (gray : Nat → Fin 256) (S x y : Nat) : Int := pix gray (y * S + x)

/-- The horizontal Sobel response of the specification at pixel `(x, y)`:
`(s(x+1,y-1) - s(x-1,y-1)) + 2 (s(x+1,y) - s(x-1,y)) + (s(x+1,y+1) - s(x-1,y+1))`. -/
def sobelX (gray : Nat → Fin 256) (S x y : Nat) : Int :=
  (srcAt gray S (x + 1) (y - 1) - srcAt gray S (x - 1) (y - 1))
    + 2 * (srcAt gray S (x + 1) y - srcAt gray S (x - 1) y)
    + (srcAt gray S (x + 1) (y + 1) - srcAt gray S (x - 1) (y + 1))

/-- The vertical Sobel response of the specification at pixel `(x, y)`:
`(s(x-1,y+1) - s(x-1,y-1)) + 2 (s(x,y+1) - s(x,y-1)) + (s(x+1,y+1) - s(x+1,y-1))`. -/
def sobelY (gray : Nat → Fin 256) (S x y : Nat) : Int :=
  (srcAt gray S (x - 1) (y + 1) - srcAt gray S (x - 1) (y - 1))
    + 2 * (srcAt gray S x (y + 1) - srcAt gray S x (y - 1))
    + (srcAt gray S (x + 1) (y + 1) - srcAt gray S (x + 1) (y - 1))

/-- Output rasters holding `0` everywhere. -/
def zeroBuffers : GradBuffers Nat := ⟨fun _ => 0, fun _ => 0, fun _ => 0⟩

/-- A square root on the naturals, exact on perfect squares; it instantiates
`sqrtf` in closed examples. -/
def natSqrt (n : Int) : Nat := Nat.sqrt n.toNat

/-- The image of scenario G1: pixel `(2, 2)` of a 5×5 image with stride 5 is
255, all other pixels are 0. -/
def imageG1 (i : Nat) : Fin 256 := if i = 2 * 5 + 2 then 255 else 0

/-- A 3×3 image (stride 3) whose only non-zero pixel is `(2, 1)`, with value 1. -/
def imageDot3 (i : Nat) : Fin 256 := if i = 1 * 3 + 2 then 1 else 0

/-- A ramp image: the byte at offset `i` is `i mod 256`. -/
def imageRamp (i : Nat) : Fin 256 := Fin.ofNat i

/-! ### Hough voter: coarse pass under a schedule -/

/-- The thread-local list `myBest` of one worker at the end of the coarse
sweep (lines 343-412), when it has executed the angle indices `angles` in
that order; `peak ai` is the per-angle result `(angle, peakCx, peakCy, maxVote)`
of angle index `ai`. -/
def houghWorker {R : Type} [Zero R] (peak : Nat → Candidate R) (topK : Nat)
    (angles : List Nat) : List (Candidate R) :=
  angles.foldl (fun myBest ai => topKInsert topK myBest (peak ai))
    (List.replicate topK Candidate.zero)

/-- The merge of lines 420-436: the thread-local lists are taken in thread-id
order and their entries in index order, each offered to the global list. -/
def houghMerge {R : Type} [Zero R] (topK : Nat) (threadBest : List (List (Candidate R))) :
    List (Candidate R) :=
  threadBest.foldl (fun candidates tb => tb.foldl (topKInsert topK) candidates)
    (List.replicate topK Candidate.zero)

/-- The global list `candidates` after the coarse pass under the schedule
`sched`: entry `t` of `sched` lists the angle indices thread `t` executes, in
execution order. -/
def houghCoarse {R : Type} [Zero R] (peak : Nat → Candidate R) (topK : Nat)
    (sched : List (List Nat)) : List (Candidate R) :=
  houghMerge topK (sched.map (houghWorker peak topK))

/-- Insert the entries of `B` one after another, each behind the entries with
at least as many votes. -/
def insertAll {R : Type} (S B : List (Candidate R)) : List (Candidate R) :=
  B.foldl (fun S c => insertAfterGE c S) S

/-- Strictly more votes, or the same candidate: on lists whose entries have
pairwise different votes this is the order `votesGE`, and it is antisymmetric. -/
def votesGTOrEq {R : Type} (a b : Candidate R) : Prop := b.votes < a.votes ∨ a = b

instance {R : Type} : IsAntisymm (Candidate R) votesGTOrEq :=
  ⟨fun a b hab hba => by
    rcases hab with h₁ | h₁
    · rcases hba with h₂ | h₂
      · exact absurd h₁ (by omega)
      · exact h₂.symm
    · exact h₁⟩

/-- The per-angle results used in the closed examples on the coarse pass:
angle index `i` yields the candidate with angle `i`, centre `(0, 0)` and
`votes i` votes. -/
def peakOfVotes (votes : Nat → Int) (i : Nat) : Candidate Int := ⟨(i : Int), 0, 0, votes i⟩

/-! ### Hough voter: orientation bins and the peak scan -/

/-- The expression `((sb - binShift + db) % numGradBins + numGradBins) % numGradBins`
of lines 373 and 499; `%` of C is the truncating remainder `Int.tmod`. -/
def modelBin (sb binShift db numGradBins : Int) : Int :=
  Int.tmod (Int.tmod (sb - binShift + db) numGradBins + numGradBins) numGradBins

/-- State of the peak scan: `maxVote` and `maxIdx`. An accumulator cell is a
counter that starts at `0` and is only incremented, so cells and `maxVote` are
natural numbers. -/
structure Peak where
  maxVote : Nat
  maxIdx : Nat
deriving DecidableEq, Repr

/-- The peak scan of lines 388-392 and 513-517 over the accumulator `acc` of
length `accLen`. -/
def peakScan (acc : Nat → Nat) (accLen : Nat) : Peak :=
  (List.range accLen).foldl
    (fun p i => if acc i > p.maxVote then ⟨acc i, i⟩ else p) ⟨0, 0⟩

/-! ### Hough voter: rotated model coordinates

The rotation is computed in `double`; the model below takes the arithmetic as
exact, over an ordered field with a floor function (the rationals in closed
examples). -/

/-- The conversion `(int) x` of a `double` that fits in an `int`: truncation
toward zero. -/
def cTrunc {α : Type} [LinearOrderedField α] [FloorRing α] (x : α) : Int :=
  if 0 ≤ x then ⌊x⌋ else ⌈x⌉

/-- The assignment `rotXBuf[i] = (int)((mx * cosA - my * sinA) * invScale + 0.5)` of
lines 361 and 487. -/
def rotXCoord {α : Type} [LinearOrderedField α] [FloorRing α]
    (mx my cosA sinA invScale : α) : Int :=
  cTrunc ((mx * cosA - my * sinA) * invScale + 1 / 2)

/-- The assignment `rotYBuf[i] = (int)((mx * sinA + my * cosA) * invScale + 0.5)` of
lines 362 and 488. -/
def rotYCoord {α : Type} [LinearOrderedField α] [FloorRing α]
    (mx my cosA sinA invScale : α) : Int :=
  cTrunc ((mx * sinA + my * cosA) * invScale + 1 / 2)

/-- Rounding to the nearest integer with halves away from zero, as the
specification writes it: `trunc(v + sign(v) * 0.5)`. -/
def roundHalfAway {α : Type} [LinearOrderedField α] [FloorRing α] (v : α) : Int :=
  cTrunc (v + (if 0 ≤ v then 1 / 2 else -(1 / 2)))

/-- The sign-aware rounding that the same function applies to the bin shift:
`(int)(x + (angle >= 0 ? 0.5 : -0.5))` with `x = angle / binWidthDeg` (lines
366 and 492). -/
def binShiftOf {α : Type} [LinearOrderedField α] [FloorRing α] (angle binWidthDeg : α) : Int :=
  cTrunc (angle / binWidthDeg + (if 0 ≤ angle then 1 / 2 else -(1 / 2)))

/-! ### Pose scorer: `EvaluateNativeInternal`

The model computes in exact arithmetic over an ordered field `α` (the
rationals in closed examples): the reciprocal approximation `_mm256_rcp_ps` is
the exact reciprocal and sums are exact. Images are maps from linear indices
to values. -/

/-- The constant `0.001f` below which a magnitude counts as zero. -/
def magEps {α : Type} [LinearOrderedField α] : α := 1 / 1000

/-- Lane `i` of the SIMD block (lines 141-162): gather at `base + offsets[i]`,
`dot = rdx*dx + rdy*dy`, `invMag = rcp(mag) & (mag > eps)`, `val = dot * invMag`,
absolute value in contrast-invariant mode. -/
def laneVal {α : Type} [LinearOrderedField α] (offsets : Nat → Int) (rdx rdy : Nat → α)
    (dxImg dyImg magImg : Int → α) (base : Int) (contrastInvariant : Bool) (i : Nat) : α :=
  let idx := offsets i + base
  let dot := rdx i * dxImg idx + rdy i * dyImg idx
  let invMag := if magImg idx > magEps then 1 / magImg idx else 0
  let val := dot * invMag
  if contrastInvariant then |val| else val

/-- The horizontal sum of the eight lanes (lines 169-174 and 181-186):
`lo + hi`, then `movehl`, then `shuffle` and `add_ss`. -/
def hsum {α : Type} [LinearOrderedField α] (v : Fin 8 → α) : α :=
  ((v 0 + v 4) + (v 2 + v 6)) + ((v 1 + v 5) + (v 3 + v 7))

/-- One iteration of the SIMD loop at block start `i` (lines 138-177): `none`
stands for the early `return 0.0`. -/
def vecBlock {α : Type} [LinearOrderedField α] (offsets : Nat → Int) (rdx rdy : Nat → α)
    (dxImg dyImg magImg : Int → α) (base : Int) (contrastInvariant : Bool)
    (earlyN vecN : Nat) (earlyThresh : α) (vsum : Fin 8 → α) (i : Nat) : Option (Fin 8 → α) :=
  let vsum' : Fin 8 → α := fun l =>
    vsum l + laneVal offsets rdx rdy dxImg dyImg magImg base contrastInvariant (i + l.val)
  if i + 8 ≥ earlyN ∧ i + 8 < vecN then
    if hsum vsum' / ((i + 8 : Nat) : α) < earlyThresh then none else some vsum'
  else some vsum'

/-- The SIMD loop `for (i = 0; i < vecN; i += 8)` over the remaining block
starts. -/
def vecLoop {α : Type} [LinearOrderedField α] (offsets : Nat → Int) (rdx rdy : Nat → α)
    (dxImg dyImg magImg : Int → α) (base : Int) (contrastInvariant : Bool)
    (earlyN vecN : Nat) (earlyThresh : α) : List Nat → (Fin 8 → α) → Option (Fin 8 → α)
  | [], vsum => some vsum
  | i :: rest, vsum =>
    match vecBlock offsets rdx rdy dxImg dyImg magImg base contrastInvariant
        earlyN vecN earlyThresh vsum i with
    | none => none
    | some vsum' =>
      vecLoop offsets rdx rdy dxImg dyImg magImg base contrastInvariant
        earlyN vecN earlyThresh rest vsum'

/-- One iteration of the scalar remainder loop (lines 190-199). -/
def scalarStep {α : Type} [LinearOrderedField α] (offsets : Nat → Int) (rdx rdy : Nat → α)
    (dxImg dyImg magImg : Int → α) (base : Int) (contrastInvariant : Bool)
    (sum : α) (i : Nat) : α :=
  let idx := base + offsets i
  let m := magImg idx
  if m > magEps then
    let contrib := (rdx i * dxImg idx + rdy i * dyImg idx) / m
    sum + (if contrastInvariant then |contrib| else contrib)
  else sum

/-- The function `EvaluateNativeInternal` (lines 117-202) for `N ≥ 0`;
`vecN = N & ~7` is `N / 8 * 8`. -/
def EvaluateNativeInternal {α : Type} [LinearOrderedField α] (px py : Int)
    (offsets : Nat → Int) (rdx rdy : Nat → α) (dxImg dyImg magImg : Int → α)
    (imgW : Int) (N : Nat) (thresh greedy : α) (contrastInvariant : Bool) : α :=
  let earlyN := N / 5
  let earlyThresh := thresh * (1 - greedy)
  let base := py * imgW + px
  let vecN := N / 8 * 8
  match vecLoop offsets rdx rdy dxImg dyImg magImg base contrastInvariant
      earlyN vecN earlyThresh ((List.range (N / 8)).map (fun k => 8 * k)) (fun _ => 0) with
  | none => 0
  | some vsum =>
    (List.range' vecN (N - vecN)).foldl
        (scalarStep offsets rdx rdy dxImg dyImg magImg base contrastInvariant) (hsum vsum)
      / (N : α)

/-- The per-point contribution of the specification: the normalized dot
product, signed or absolute, counted as `0` when `Mag ≤ 0.001`. -/
def contribution {α : Type} [LinearOrderedField α] (offsets : Nat → Int) (rdx rdy : Nat → α)
    (dxImg dyImg magImg : Int → α) (base : Int) (contrastInvariant : Bool) (i : Nat) : α :=
  if magImg (base + offsets i) > magEps then
    (if contrastInvariant then
      |(rdx i * dxImg (base + offsets i) + rdy i * dyImg (base + offsets i))
        / magImg (base + offsets i)|
     else (rdx i * dxImg (base + offsets i) + rdy i * dyImg (base + offsets i))
        / magImg (base + offsets i))
  else 0

/-- Sum of the first `n` values of `c`. -/
def partialSum {α : Type} [LinearOrderedField α] (c : Nat → α) : Nat → α
  | 0 => 0
  | n + 1 => partialSum c n + c n

/-- The early-out fires at the end of block `k`: the boundary `8k + 8` has
reached `N / 5`, is not the last one, and the partial sum divided by `8k + 8`
is below the threshold. -/
def earlyOutAt {α : Type} [LinearOrderedField α] (c : Nat → α) (N : Nat) (earlyThresh : α)
    (k : Nat) : Prop :=
  8 * k + 8 ≥ N / 5 ∧ 8 * k + 8 < N / 8 * 8 ∧
    partialSum c (8 * k + 8) / ((8 * k + 8 : Nat) : α) < earlyThresh

/-- Offsets used in the closed examples on `EvaluateNativeInternal`: model
point `i` reads cell `base + i`. -/
def exampleOffsets (i : Nat) : Int := (i : Int)

/-- A horizontal-derivative image that is `-1` at cell 0 and `1` elsewhere. -/
def dipImage (k : Int) : ℚ := if k = 0 then -1 else 1

/-! ### Hough voter: the voting loop

Per angle, the rotated model `rotX`, `rotY` and the bin shift are results of
floating-point computations; the voting loop takes them as given. A search
edge is the triple `(ex, ey, sb)` read from `searchX`, `searchY`, `searchBin`
at one index, and the three arrays are the list of these triples. -/

/-- The conversion `(unsigned) x` of a 32-bit `int`. -/
def toUnsigned (x : Int) : Int := x % 2 ^ 32

/-- One pass through the body of the innermost loop (lines 378-382) for the
model point `j`: the accumulator after the conditional increment. -/
def castVote (rotX rotY : Nat → Int) (shift : Nat) (bW bH ex ey : Int) (acc : Nat → Nat)
    (j : Nat) : Nat → Nat :=
  let cx := (ex - rotX j) >>> shift
  let cy := (ey - rotY j) >>> shift
  if toUnsigned cx < toUnsigned bW ∧ toUnsigned cy < toUnsigned bH then
    Function.update acc (cy * bW + cx).toNat (acc (cy * bW + cx).toNat + 1)
  else acc

/-- The body of the `db` loop (lines 373-383) for one search edge. -/
def voteBin (binOffsets binIndices : Nat → Nat) (numGradBins : Int) (rotX rotY : Nat → Int)
    (shift : Nat) (bW bH binShift ex ey sb : Int) (acc : Nat → Nat) (db : Int) : Nat → Nat :=
  let mb := modelBin sb binShift db numGradBins
  let bStart := binOffsets mb.toNat
  let bEnd := binOffsets (mb + 1).toNat
  (List.range' bStart (bEnd - bStart)).foldl
    (fun acc bi => castVote rotX rotY shift bW bH ex ey acc (binIndices bi)) acc

/-- The body of the loop over search edges (lines 370-384): `db = -1, 0, 1`. -/
def voteEdge (binOffsets binIndices : Nat → Nat) (numGradBins : Int) (rotX rotY : Nat → Int)
    (shift : Nat) (bW bH binShift : Int) (acc : Nat → Nat) (e : Int × Int × Int) : Nat → Nat :=
  (loopRange (-1) 1).foldl
    (voteBin binOffsets binIndices numGradBins rotX rotY shift bW bH binShift e.1 e.2.1 e.2.2)
    acc

/-- The accumulator after `memset(acc, 0, …)` and the voting loop (lines
365-385 and 491-511). -/
def voteAcc (binOffsets binIndices : Nat → Nat) (numGradBins : Int) (rotX rotY : Nat → Int)
    (shift : Nat) (bW bH binShift : Int) (edges : List (Int × Int × Int)) : Nat → Nat :=
  edges.foldl (voteEdge binOffsets binIndices numGradBins rotX rotY shift bW bH binShift)
    (fun _ => 0)

/-- The pair (search edge `(ex, ey)`, model point `j`) votes for cell `c`: the
code's test on `(cx, cy)` passes and `cy * bW + cx` is `c`. -/
def votesCell (rotX rotY : Nat → Int) (shift : Nat) (bW bH ex ey : Int) (j c : Nat) : Bool :=
  decide (toUnsigned ((ex - rotX j) >>> shift) < toUnsigned bW ∧
          toUnsigned ((ey - rotY j) >>> shift) < toUnsigned bH) &&
    decide ((((ey - rotY j) >>> shift) * bW + ((ex - rotX j) >>> shift)).toNat = c)

/-- Number of votes one search edge casts for cell `c` while `db` has one value:
one per position `bi` of the bin `modelBin` that votes for `c`. -/
def binVotes (binOffsets binIndices : Nat → Nat) (numGradBins : Int) (rotX rotY : Nat → Int)
    (shift : Nat) (bW bH binShift : Int) (e : Int × Int × Int) (c : Nat) (db : Int) : Nat :=
  (List.range' (binOffsets (modelBin e.2.2 binShift db numGradBins).toNat)
      (binOffsets (modelBin e.2.2 binShift db numGradBins + 1).toNat
        - binOffsets (modelBin e.2.2 binShift db numGradBins).toNat)).countP
    (fun bi => votesCell rotX rotY shift bW bH e.1 e.2.1 (binIndices bi) c)

/-- Number of votes one search edge casts for cell `c`: the triples
`(edge, db, bi)` with `db ∈ {-1, 0, 1}`. -/
def edgeVotes (binOffsets binIndices : Nat → Nat) (numGradBins : Int) (rotX rotY : Nat → Int)
    (shift : Nat) (bW bH binShift : Int) (e : Int × Int × Int) (c : Nat) : Nat :=
  ((loopRange (-1) 1).map
    (binVotes binOffsets binIndices numGradBins rotX rotY shift bW bH binShift e c)).sum

/-! ### Hough voter: the whole of `HoughVotingNative` -/

/-- The floating-point computations of `HoughVotingNative`, taken as given:
`ofInt` converts an `int` to `double`; `rotXOf angle`, `rotYOf angle` are the
rotated model of lines 359-363 and 485-489; `binShiftAt angle` is line 366;
`coarseAngle ai = angleStart + ai * coarseAngleStep`; `fineAngle center fi =
center - coarseAngleStep + fi * fineAngleStep`; `outside angle` is the window
test of line 476; `numFine` is `(int)(2.0 * coarseAngleStep / fineAngleStep) + 1`. -/
structure HoughFloat (R : Type) where
  ofInt : Int → R
  rotXOf : R → Nat → Int
  rotYOf : R → Nat → Int
  binShiftAt : R → Int
  coarseAngle : Nat → R
  fineAngle : R → Nat → R
  outside : R → Bool
  numFine : Nat

/-- The work for one angle (lines 353-395 and 481-525): vote, scan for the
peak, and convert the peak cell to its centre in image coordinates. -/
def anglePeak {R : Type} (F : HoughFloat R) (binOffsets binIndices : Nat → Nat)
    (numGradBins : Int) (shift : Nat) (bW bH : Int) (edges : List (Int × Int × Int))
    (angle : R) : Candidate R :=
  let acc := voteAcc binOffsets binIndices numGradBins (F.rotXOf angle) (F.rotYOf angle)
    shift bW bH (F.binShiftAt angle) edges
  let p := peakScan acc (bW * bH).toNat
  ⟨angle,
   F.ofInt (Int.tmod p.maxIdx bW * 2 ^ shift + Int.tdiv (2 ^ shift) 2),
   F.ofInt (Int.tdiv p.maxIdx bW * 2 ^ shift + Int.tdiv (2 ^ shift) 2),
   (p.maxVote : Int)⟩

/-- The function `HoughVotingNative` (lines 290-561) under the schedule `sched`
of the coarse sweep. The fields of a skipped fine slot are never initialised;
`junk` stands for their content. The result carries the four outputs; `none`
stands for a read outside an array. -/
def HoughVotingNative {R : Type} [Zero R] (F : HoughFloat R) (binOffsets binIndices : Nat → Nat)
    (numGradBins : Int) (edges : List (Int × Int × Int)) (voteWidth voteHeight : Int)
    (topK shift : Nat) (junk : Candidate R) (sched : List (List Nat)) : Option (Candidate R) :=
  let bW := (voteWidth >>> shift) + 1
  let bH := (voteHeight >>> shift) + 1
  let candidates :=
    houghCoarse (fun ai => anglePeak F binOffsets binIndices numGradBins shift bW bH edges
      (F.coarseAngle ai)) topK sched
  let validK :=
    if candidates.countP (fun c => 0 < c.votes) = 0 then 1
    else candidates.countP (fun c => 0 < c.votes)
  let fineResults := (List.range validK).flatMap (fun ci =>
    (List.range F.numFine).map (fun fi =>
      if F.outside (F.fineAngle (candidates.getD ci junk).angle fi) then
        ⟨junk.angle, junk.cx, junk.cy, 0⟩
      else anglePeak F binOffsets binIndices numGradBins shift bW bH edges
        (F.fineAngle (candidates.getD ci junk).angle fi)))
  houghSelect fineResults candidates

/-- The floating-point side of a closed example: every angle rotates the model
by zero and has bin shift zero. -/
def exampleFloat : HoughFloat Int :=
  { ofInt := fun n => n, rotXOf := fun _ _ => 0, rotYOf := fun _ _ => 0, binShiftAt := fun _ => 0,
    coarseAngle := fun ai => (ai : Int), fineAngle := fun c fi => c - 1 + (fi : Int),
    outside := fun a => decide (a < 0), numFine := 3 }

/-- The pair (search edge `(ex, ey)`, model point `j`) lies in cell `c` in the
sense of the specification: `cx = (ex - rotX[j]) >> shift` and
`cy = (ey - rotY[j]) >> shift` satisfy `0 ≤ cx < bW`, `0 ≤ cy < bH`, and
`cy * bW + cx = c`. -/
def inCell (rotX rotY : Nat → Int) (shift : Nat) (bW bH ex ey : Int) (j c : Nat) : Bool :=
  decide (0 ≤ (ex - rotX j) >>> shift ∧ (ex - rotX j) >>> shift < bW ∧
          0 ≤ (ey - rotY j) >>> shift ∧ (ey - rotY j) >>> shift < bH ∧
          ((ey - rotY j) >>> shift) * bW + ((ex - rotX j) >>> shift) = (c : Int))

/-- Position `bi` of `binIndices` lies in the bin `(sb - binShift + db) mod
numGradBins` (mathematical modulus). -/
def inBinOf (binOffsets : Nat → Nat) (numGradBins binShift sb : Int) (bi : Nat) (db : Int) :
    Bool :=
  decide (binOffsets ((sb - binShift + db) % numGradBins).toNat ≤ bi ∧
          bi < binOffsets (((sb - binShift + db) % numGradBins).toNat + 1))

/-- The bin containing position `bi` is within `±1`, cyclically, of
`sb - binShift`. -/
def nearBin (binOffsets : Nat → Nat) (numGradBins binShift sb : Int) (bi : Nat) : Bool :=
  inBinOf binOffsets numGradBins binShift sb bi (-1)
    || (inBinOf binOffsets numGradBins binShift sb bi 0
      || inBinOf binOffsets numGradBins binShift sb bi 1)

/-- The count of the specification for cell `c`: the number of pairs (search
edge, position `bi` among the `binOffsets[numGradBins]` positions) whose bin
is near and whose cell is `c`. -/
def pairCount (binOffsets binIndices : Nat → Nat) (numGradBins : Int) (rotX rotY : Nat → Int)
    (shift : Nat) (bW bH binShift : Int) (edges : List (Int × Int × Int)) (c : Nat) : Nat :=
  (edges.map (fun e =>
    (List.range (binOffsets numGradBins.toNat)).countP (fun bi =>
      nearBin binOffsets numGradBins binShift e.2.2 bi
        && inCell rotX rotY shift bW bH e.1 e.2.1 (binIndices bi) c))).sum

/-- The count with multiplicity for cell `c`: the number of triples (search
edge, `db ∈ {-1, 0, 1}`, position `bi` among the `binOffsets[numGradBins]`
positions) such that `bi` lies in the bin `(sb - binShift + db) mod numGradBins`
and the cell is `c`. -/
def tripleCount (binOffsets binIndices : Nat → Nat) (numGradBins : Int) (rotX rotY : Nat → Int)
    (shift : Nat) (bW bH binShift : Int) (edges : List (Int × Int × Int)) (c : Nat) : Nat :=
  (edges.map (fun e =>
    (([-1, 0, 1] : List Int).map (fun db =>
      (List.range (binOffsets numGradBins.toNat)).countP (fun bi =>
        inBinOf binOffsets numGradBins binShift e.2.2 bi db
          && inCell rotX rotY shift bW bH e.1 e.2.1 (binIndices bi) c))).sum)).sum

/-! ### Pose scorer: the image reads of `EvaluateBatchNative`

A read is recorded as the pair (position `i` of `offsets` used, linear index
at which `dxImg`, `dyImg`, `magImg` are read), in program order. -/

/-- The scratch array `offsets` of lines 245-250: `ry[i] * imgW + rx[i]` at the
positions `i < N`, zero padding from position `N` on. -/
def buildOffsets (rx ry : Nat → Int) (imgW : Int) (N : Nat) (i : Nat) : Int :=
  if i < N then ry i * imgW + rx i else 0

/-- The gathers of the SIMD block at start `i` (lines 141-146): lane `l` uses
`offsets[i + l]` and reads the three images at `offsets[i + l] + base`. -/
def readsOfBlock (offsets : Nat → Int) (base : Int) (i : Nat) : List (Nat × Int) :=
  (List.range 8).map (fun l => (i + l, offsets (i + l) + base))

/-- The reads of the SIMD loop over the remaining block starts: the loop stops
after the block at which the early `return 0.0` is taken. -/
def readsOfVecLoop {α : Type} [LinearOrderedField α] (offsets : Nat → Int) (rdx rdy : Nat → α)
    (dxImg dyImg magImg : Int → α) (base : Int) (contrastInvariant : Bool)
    (earlyN vecN : Nat) (earlyThresh : α) : List Nat → (Fin 8 → α) → List (Nat × Int)
  | [], _ => []
  | i :: rest, vsum =>
    readsOfBlock offsets base i ++
      match vecBlock offsets rdx rdy dxImg dyImg magImg base contrastInvariant
          earlyN vecN earlyThresh vsum i with
      | none => []
      | some vsum' =>
        readsOfVecLoop offsets rdx rdy dxImg dyImg magImg base contrastInvariant
          earlyN vecN earlyThresh rest vsum'

/-- The reads of one call of `EvaluateNativeInternal` (lines 117-202): those of
the SIMD loop and, unless the early return was taken, those of the scalar
remainder loop at `base + offsets[i]` for `vecN ≤ i < N`. -/
def readsOfInternal {α : Type} [LinearOrderedField α] (px py : Int)
    (offsets : Nat → Int) (rdx rdy : Nat → α) (dxImg dyImg magImg : Int → α)
    (imgW : Int) (N : Nat) (thresh greedy : α) (contrastInvariant : Bool) : List (Nat × Int) :=
  let earlyN := N / 5
  let earlyThresh := thresh * (1 - greedy)
  let base := py * imgW + px
  let vecN := N / 8 * 8
  readsOfVecLoop offsets rdx rdy dxImg dyImg magImg base contrastInvariant
      earlyN vecN earlyThresh ((List.range (N / 8)).map (fun k => 8 * k)) (fun _ => 0) ++
    match vecLoop offsets rdx rdy dxImg dyImg magImg base contrastInvariant
        earlyN vecN earlyThresh ((List.range (N / 8)).map (fun k => 8 * k)) (fun _ => 0) with
    | none => []
    | some _ => (List.range' vecN (N - vecN)).map (fun i => (i, base + offsets i))

/-- The reads of one call of `EvaluateBatchNative` (lines 257-280): the two
loops with their `continue` tests, and at every centre that passes them the
reads of `EvaluateNativeInternal` with the offsets built at lines 245-250. -/
def readsOfBatch {α : Type} [LinearOrderedField α] (baseCx baseCy refRadius : Int)
    (rx ry : Nat → Int) (rdx rdy : Nat → α) (dxImg dyImg magImg : Int → α)
    (imgW imgH : Int) (N : Nat) (margin : Int) (thresh greedy : α)
    (contrastInvariant : Bool) : List (Nat × Int) :=
  (loopRange (-refRadius) refRadius).flatMap (fun dy =>
    if baseCy + dy < margin ∨ baseCy + dy ≥ imgH - margin then []
    else (loopRange (-refRadius) refRadius).flatMap (fun dx =>
      if baseCx + dx < margin ∨ baseCx + dx ≥ imgW - margin then []
      else readsOfInternal (baseCx + dx) (baseCy + dy) (buildOffsets rx ry imgW N) rdx rdy
        dxImg dyImg magImg imgW N thresh greedy contrastInvariant))

/-- Model offsets used in the closed example on the image reads: `rx`
alternates between `1` and `-1`. -/
def exampleRx (i : Nat) : Int := if i % 2 = 0 then 1 else -1

/-! ## Theorems -/

/-! ### The scan that keeps the first strict maximum -/

theorem scanBest_nil {σ γ α : Type} [LinearOrder α] (key : σ → α) (val : γ → α) (mk : γ → σ)
    (init : σ) : scanBest key val mk init [] = init := rfl

theorem scanBest_cons {σ γ α : Type} [LinearOrder α] (key : σ → α) (val : γ → α) (mk : γ → σ)
    (init : σ) (c : γ) (cs : List γ) :
    scanBest key val mk init (c :: cs)
      = scanBest key val mk (if val c > key init then mk c else init) cs := rfl

theorem scanBest_append {σ γ α : Type} [LinearOrder α] (key : σ → α) (val : γ → α) (mk : γ → σ)
    (init : σ) (l₁ l₂ : List γ) :
    scanBest key val mk init (l₁ ++ l₂)
      = scanBest key val mk (scanBest key val mk init l₁) l₂ := by
  simp [scanBest, List.foldl_append]

/-- Either nothing beat the initial state, or the result is the first
candidate that reaches the largest value, and that value beats the initial one. -/
theorem scanBest_cases {σ γ α : Type} [LinearOrder α] (key : σ → α) (val : γ → α) (mk : γ → σ)
    (hk : ∀ c, key (mk c) = val c) (cs : List γ) (init : σ) :
    (scanBest key val mk init cs = init ∧ ∀ c ∈ cs, val c ≤ key init) ∨
    (∃ l₁ c l₂, cs = l₁ ++ c :: l₂ ∧ scanBest key val mk init cs = mk c ∧
        key init < val c ∧ (∀ c' ∈ l₁, val c' < val c) ∧ ∀ c' ∈ l₂, val c' ≤ val c) := by
  induction cs generalizing init with
  | nil => left; exact ⟨rfl, by simp⟩
  | cons a cs ih =>
    rw [scanBest_cons]
    by_cases h : val a > key init
    · rw [if_pos h]
      rcases ih (mk a) with ⟨hr, hall⟩ | ⟨l₁, c, l₂, hcs, hr, hlt, h₁, h₂⟩
      · right
        refine ⟨[], a, cs, rfl, hr, h, by simp, ?_⟩
        intro c' hc'
        simpa [hk] using hall c' hc'
      · right
        rw [hk] at hlt
        refine ⟨a :: l₁, c, l₂, by simp [hcs], hr, lt_trans h hlt, ?_, h₂⟩
        intro c' hc'
        rcases List.mem_cons.mp hc' with rfl | hc'
        · exact hlt
        · exact h₁ c' hc'
    · rw [if_neg h]
      have hle : val a ≤ key init := not_lt.mp h
      rcases ih init with ⟨hr, hall⟩ | ⟨l₁, c, l₂, hcs, hr, hlt, h₁, h₂⟩
      · left
        refine ⟨hr, ?_⟩
        intro c' hc'
        rcases List.mem_cons.mp hc' with rfl | hc'
        · exact hle
        · exact hall c' hc'
      · right
        refine ⟨a :: l₁, c, l₂, by simp [hcs], hr, hlt, ?_, h₂⟩
        intro c' hc'
        rcases List.mem_cons.mp hc' with rfl | hc'
        · exact lt_of_le_of_lt hle hlt
        · exact h₁ c' hc'

/-! ### `loopRange` -/

theorem mem_loopRange (lo hi x : Int) : x ∈ loopRange lo hi ↔ lo ≤ x ∧ x ≤ hi := by
  unfold loopRange
  simp only [List.mem_map, List.mem_range]
  constructor
  · rintro ⟨k, hk, rfl⟩
    omega
  · rintro ⟨h₁, h₂⟩
    exact ⟨(x - lo).toNat, by omega, by omega⟩

theorem loopRange_pairwise (lo hi : Int) : (loopRange lo hi).Pairwise (· < ·) := by
  unfold loopRange
  rw [List.pairwise_map]
  refine List.Pairwise.imp ?_ (List.pairwise_lt_range _)
  intro a b hab
  omega

/-! ### `EvaluateBatchNative` as a scan over the in-bounds lattice points -/

theorem batchInner_fold {α : Type} [LinearOrder α] (score : Int → Int → α)
    (baseCx baseCy imgW margin dy : Int) (xs : List Int) (st : BatchResult α) :
    xs.foldl (batchInner score baseCx imgW margin (baseCy + dy) dy) st
      = scanBest BatchResult.bestScore
          (fun c : Int × Int => score (baseCx + c.1) (baseCy + c.2))
          (fun c => ⟨score (baseCx + c.1) (baseCy + c.2), c.1, c.2⟩) st
          ((xs.filter (fun dx => ¬ (baseCx + dx < margin ∨ baseCx + dx ≥ imgW - margin))).map
            (fun dx => (dx, dy))) := by
  induction xs generalizing st with
  | nil => rfl
  | cons x xs ih =>
    rw [List.foldl_cons, ih]
    by_cases h : baseCx + x < margin ∨ baseCx + x ≥ imgW - margin
    · rw [List.filter_cons_of_neg (by simp only [decide_eq_true_eq, not_not]; exact h)]
      simp only [batchInner, if_pos h]
    · rw [List.filter_cons_of_pos (by simp only [decide_eq_true_eq]; exact h), List.map_cons,
        scanBest_cons]
      simp only [batchInner, if_neg h]

theorem batchOuter_fold {α : Type} [LinearOrder α] (score : Int → Int → α)
    (baseCx baseCy refRadius imgW imgH margin : Int) (ys : List Int) (st : BatchResult α) :
    ys.foldl (batchOuter score baseCx baseCy refRadius imgW imgH margin) st
      = scanBest BatchResult.bestScore
          (fun c : Int × Int => score (baseCx + c.1) (baseCy + c.2))
          (fun c => ⟨score (baseCx + c.1) (baseCy + c.2), c.1, c.2⟩) st
          (ys.flatMap (fun dy =>
            if baseCy + dy < margin ∨ baseCy + dy ≥ imgH - margin then []
            else ((loopRange (-refRadius) refRadius).filter
                    (fun dx => ¬ (baseCx + dx < margin ∨ baseCx + dx ≥ imgW - margin))).map
                  (fun dx => (dx, dy)))) := by
  induction ys generalizing st with
  | nil => rfl
  | cons y ys ih =>
    rw [List.foldl_cons, ih, List.flatMap_cons, scanBest_append]
    congr 1
    by_cases h : baseCy + y < margin ∨ baseCy + y ≥ imgH - margin
    · simp only [batchOuter, if_pos h, scanBest_nil]
    · simp only [batchOuter, if_neg h]
      exact batchInner_fold score baseCx baseCy imgW margin y _ st

theorem EvaluateBatchNative_eq_scan {α : Type} [LinearOrder α] [Zero α] (score : Int → Int → α)
    (baseCx baseCy refRadius imgW imgH margin : Int) :
    EvaluateBatchNative score baseCx baseCy refRadius imgW imgH margin
      = scanBest BatchResult.bestScore
          (fun c : Int × Int => score (baseCx + c.1) (baseCy + c.2))
          (fun c => ⟨score (baseCx + c.1) (baseCy + c.2), c.1, c.2⟩) ⟨0, 0, 0⟩
          (gridCands baseCx baseCy refRadius imgW imgH margin) :=
  batchOuter_fold score baseCx baseCy refRadius imgW imgH margin _ _

theorem mem_gridCands (baseCx baseCy refRadius imgW imgH margin : Int) (c : Int × Int) :
    c ∈ gridCands baseCx baseCy refRadius imgW imgH margin
      ↔ IsCandidate baseCx baseCy refRadius imgW imgH margin c.1 c.2 := by
  obtain ⟨dx, dy⟩ := c
  unfold gridCands IsCandidate
  simp only [List.mem_flatMap, mem_loopRange]
  constructor
  · rintro ⟨y, hy, hmem⟩
    by_cases h : baseCy + y < margin ∨ baseCy + y ≥ imgH - margin
    · rw [if_pos h] at hmem
      exact absurd hmem (List.not_mem_nil _)
    · rw [if_neg h] at hmem
      simp only [List.mem_map, List.mem_filter, mem_loopRange, Prod.mk.injEq] at hmem
      obtain ⟨x, ⟨hx, hxb⟩, rfl, rfl⟩ := hmem
      simp only [decide_eq_true_eq] at hxb
      refine ⟨hx, hy, ?_, ?_⟩ <;> omega
  · rintro ⟨hx, hy, hbx, hby⟩
    refine ⟨dy, hy, ?_⟩
    have h : ¬ (baseCy + dy < margin ∨ baseCy + dy ≥ imgH - margin) := by omega
    rw [if_neg h]
    simp only [List.mem_map, List.mem_filter, mem_loopRange, Prod.mk.injEq]
    refine ⟨dx, ⟨hx, ?_⟩, ?_⟩
    · simp only [decide_eq_true_eq]
      omega
    · simp

theorem gridCands_pairwise (baseCx baseCy refRadius imgW imgH margin : Int) :
    (gridCands baseCx baseCy refRadius imgW imgH margin).Pairwise rowMajorLt := by
  unfold gridCands
  rw [List.pairwise_flatMap]
  constructor
  · intro dy _
    by_cases h : baseCy + dy < margin ∨ baseCy + dy ≥ imgH - margin
    · rw [if_pos h]
      exact List.Pairwise.nil
    · rw [if_neg h, List.pairwise_map]
      refine List.Pairwise.imp ?_ ((loopRange_pairwise _ _).filter _)
      intro a b hab
      exact Or.inr ⟨rfl, hab⟩
  · refine List.Pairwise.imp ?_ (loopRange_pairwise _ _)
    intro y₁ y₂ hy a ha b hb
    have ha2 : a.2 = y₁ := by
      by_cases h : baseCy + y₁ < margin ∨ baseCy + y₁ ≥ imgH - margin
      · rw [if_pos h] at ha
        exact absurd ha (List.not_mem_nil _)
      · rw [if_neg h] at ha
        simp only [List.mem_map] at ha
        obtain ⟨x, _, rfl⟩ := ha
        rfl
    have hb2 : b.2 = y₂ := by
      by_cases h : baseCy + y₂ < margin ∨ baseCy + y₂ ≥ imgH - margin
      · rw [if_pos h] at hb
        exact absurd hb (List.not_mem_nil _)
      · rw [if_neg h] at hb
        simp only [List.mem_map] at hb
        obtain ⟨x, _, rfl⟩ := hb
        rfl
    exact Or.inl (by rw [ha2, hb2]; exact hy)

/-! ### Claims on `EvaluateBatchNative` -/

/-- C1, as stated, fails: on the 1×1 image with the single in-bounds lattice
point `(0, 0)` scoring `-1`, the maximum over the in-bounds lattice points is
`-1` but `EvaluateBatchNative` returns `0`. -/
theorem evaluate_batch_max_counterexample :
    (∃ dx dy, IsCandidate 0 0 0 1 1 0 dx dy) ∧
    (EvaluateBatchNative (fun _ _ => (-1 : Int)) 0 0 0 1 1 0).bestScore = 0 ∧
    ¬ IsGridMax (fun _ _ => (-1 : Int)) 0 0 0 1 1 0
        (EvaluateBatchNative (fun _ _ => (-1 : Int)) 0 0 0 1 1 0).bestScore := by
  refine ⟨⟨0, 0, by decide⟩, by decide, ?_⟩
  rintro ⟨⟨dx, dy, -, h⟩, -⟩
  have h0 : (EvaluateBatchNative (fun _ _ => (-1 : Int)) 0 0 0 1 1 0).bestScore = 0 := by decide
  rw [h0] at h
  exact absurd h (by decide : ¬ ((-1 : Int) = 0))

/-- C1 (amended): the returned `bestScore` is the maximum of `0` and the scores
of all in-bounds lattice points: it is at least `0`, at least every such score,
and it is `0` or the score of some in-bounds lattice point. -/
theorem evaluate_batch_bestScore_max_with_zero {α : Type} [LinearOrder α] [Zero α]
    (score : Int → Int → α) (baseCx baseCy refRadius imgW imgH margin : Int) :
    0 ≤ (EvaluateBatchNative score baseCx baseCy refRadius imgW imgH margin).bestScore ∧
    (∀ dx dy, IsCandidate baseCx baseCy refRadius imgW imgH margin dx dy →
      score (baseCx + dx) (baseCy + dy)
        ≤ (EvaluateBatchNative score baseCx baseCy refRadius imgW imgH margin).bestScore) ∧
    ((EvaluateBatchNative score baseCx baseCy refRadius imgW imgH margin).bestScore = 0 ∨
      ∃ dx dy, IsCandidate baseCx baseCy refRadius imgW imgH margin dx dy ∧
        score (baseCx + dx) (baseCy + dy)
          = (EvaluateBatchNative score baseCx baseCy refRadius imgW imgH margin).bestScore) := by
  rw [EvaluateBatchNative_eq_scan]
  rcases scanBest_cases BatchResult.bestScore
      (fun c : Int × Int => score (baseCx + c.1) (baseCy + c.2))
      (fun c => ⟨score (baseCx + c.1) (baseCy + c.2), c.1, c.2⟩) (fun _ => rfl)
      (gridCands baseCx baseCy refRadius imgW imgH margin) ⟨0, 0, 0⟩
    with ⟨hr, hall⟩ | ⟨l₁, c, l₂, hcs, hr, hlt, h₁, h₂⟩
  · rw [hr]
    refine ⟨le_refl _, ?_, Or.inl rfl⟩
    intro dx dy hc
    exact hall (dx, dy) ((mem_gridCands _ _ _ _ _ _ (dx, dy)).mpr hc)
  · rw [hr]
    have hmem : c ∈ gridCands baseCx baseCy refRadius imgW imgH margin := by
      rw [hcs]; simp
    refine ⟨le_of_lt hlt, ?_, Or.inr ⟨c.1, c.2, (mem_gridCands _ _ _ _ _ _ c).mp hmem, rfl⟩⟩
    intro dx dy hc
    have hm : (dx, dy) ∈ gridCands baseCx baseCy refRadius imgW imgH margin :=
      (mem_gridCands _ _ _ _ _ _ (dx, dy)).mpr hc
    rw [hcs] at hm
    rcases List.mem_append.mp hm with hm | hm
    · exact le_of_lt (h₁ _ hm)
    · rcases List.mem_cons.mp hm with hm | hm
      · rw [← hm]
      · exact h₂ _ hm

/-- C2: when the returned `bestScore` is positive, `(bestDx, bestDy)` is an
in-bounds lattice point whose score is `bestScore`, and every in-bounds lattice
point with that score is `(bestDx, bestDy)` itself or comes later in the
row-major `(dy, dx)` order. -/
theorem evaluate_batch_argmax_first {α : Type} [LinearOrder α] [Zero α]
    (score : Int → Int → α) (baseCx baseCy refRadius imgW imgH margin : Int)
    (hpos : 0 < (EvaluateBatchNative score baseCx baseCy refRadius imgW imgH margin).bestScore) :
    IsCandidate baseCx baseCy refRadius imgW imgH margin
      (EvaluateBatchNative score baseCx baseCy refRadius imgW imgH margin).bestDx
      (EvaluateBatchNative score baseCx baseCy refRadius imgW imgH margin).bestDy ∧
    score (baseCx + (EvaluateBatchNative score baseCx baseCy refRadius imgW imgH margin).bestDx)
          (baseCy + (EvaluateBatchNative score baseCx baseCy refRadius imgW imgH margin).bestDy)
      = (EvaluateBatchNative score baseCx baseCy refRadius imgW imgH margin).bestScore ∧
    ∀ dx dy, IsCandidate baseCx baseCy refRadius imgW imgH margin dx dy →
      score (baseCx + dx) (baseCy + dy)
        = (EvaluateBatchNative score baseCx baseCy refRadius imgW imgH margin).bestScore →
      (dx, dy) = ((EvaluateBatchNative score baseCx baseCy refRadius imgW imgH margin).bestDx,
                  (EvaluateBatchNative score baseCx baseCy refRadius imgW imgH margin).bestDy) ∨
      rowMajorLt ((EvaluateBatchNative score baseCx baseCy refRadius imgW imgH margin).bestDx,
                  (EvaluateBatchNative score baseCx baseCy refRadius imgW imgH margin).bestDy)
                 (dx, dy) := by
  rw [EvaluateBatchNative_eq_scan] at hpos ⊢
  rcases scanBest_cases BatchResult.bestScore
      (fun c : Int × Int => score (baseCx + c.1) (baseCy + c.2))
      (fun c => ⟨score (baseCx + c.1) (baseCy + c.2), c.1, c.2⟩) (fun _ => rfl)
      (gridCands baseCx baseCy refRadius imgW imgH margin) ⟨0, 0, 0⟩
    with ⟨hr, -⟩ | ⟨l₁, c, l₂, hcs, hr, -, h₁, -⟩
  · rw [hr] at hpos
    exact absurd hpos (lt_irrefl _)
  · rw [hr]
    have hmem : c ∈ gridCands baseCx baseCy refRadius imgW imgH margin := by
      rw [hcs]; simp
    refine ⟨(mem_gridCands _ _ _ _ _ _ c).mp hmem, rfl, ?_⟩
    intro dx dy hc hs
    have hm : (dx, dy) ∈ gridCands baseCx baseCy refRadius imgW imgH margin :=
      (mem_gridCands _ _ _ _ _ _ (dx, dy)).mpr hc
    have hpw := gridCands_pairwise baseCx baseCy refRadius imgW imgH margin
    rw [hcs] at hm hpw
    rcases List.mem_append.mp hm with hm | hm
    · exact absurd hs (ne_of_lt (h₁ _ hm))
    · rcases List.mem_cons.mp hm with hm | hm
      · left; rw [hm]
      · right
        exact List.rel_of_pairwise_cons (List.pairwise_append.mp hpw).2.1 hm

/-- Witness for C2: on a 3×3 image where every centre with `px = 1` scores `1`
and all others `0`, the tie between `(1, 0)` and `(1, 1)` goes to `(1, 0)`. -/
theorem evaluate_batch_argmax_first_witness :
    EvaluateBatchNative (fun px _ => if px = 1 then (1 : Int) else 0) 0 0 1 3 3 0 = ⟨1, 1, 0⟩ ∧
    ∀ dx dy, IsCandidate 0 0 1 3 3 0 dx dy →
      (fun px (_ : Int) => if px = 1 then (1 : Int) else 0) (0 + dx) (0 + dy)
        = (EvaluateBatchNative (fun px _ => if px = 1 then (1 : Int) else 0) 0 0 1 3 3 0).bestScore →
      (dx, dy) = ((EvaluateBatchNative (fun px _ => if px = 1 then (1 : Int) else 0) 0 0 1 3 3 0).bestDx,
                  (EvaluateBatchNative (fun px _ => if px = 1 then (1 : Int) else 0) 0 0 1 3 3 0).bestDy) ∨
      rowMajorLt ((EvaluateBatchNative (fun px _ => if px = 1 then (1 : Int) else 0) 0 0 1 3 3 0).bestDx,
                  (EvaluateBatchNative (fun px _ => if px = 1 then (1 : Int) else 0) 0 0 1 3 3 0).bestDy)
                 (dx, dy) :=
  ⟨by decide,
   (evaluate_batch_argmax_first (fun px _ => if px = 1 then (1 : Int) else 0) 0 0 1 3 3 0
      (by decide)).2.2⟩

/-! ### More on the scan: monotonicity and restarting from a smaller state -/

theorem scanBest_key_le {σ γ α : Type} [LinearOrder α] (key : σ → α) (val : γ → α) (mk : γ → σ)
    (hk : ∀ c, key (mk c) = val c) (cs : List γ) (init : σ) :
    key init ≤ key (scanBest key val mk init cs) := by
  rcases scanBest_cases key val mk hk cs init with ⟨hr, -⟩ | ⟨l₁, c, l₂, -, hr, hlt, -, -⟩
  · rw [hr]
  · rw [hr, hk]; exact le_of_lt hlt

theorem scanBest_val_le {σ γ α : Type} [LinearOrder α] (key : σ → α) (val : γ → α) (mk : γ → σ)
    (hk : ∀ c, key (mk c) = val c) (cs : List γ) (init : σ) (c : γ) (hc : c ∈ cs) :
    val c ≤ key (scanBest key val mk init cs) := by
  rcases scanBest_cases key val mk hk cs init with ⟨hr, hall⟩ | ⟨l₁, d, l₂, hcs, hr, hlt, h₁, h₂⟩
  · rw [hr]; exact hall c hc
  · rw [hr, hk]
    rw [hcs] at hc
    rcases List.mem_append.mp hc with hm | hm
    · exact le_of_lt (h₁ _ hm)
    · rcases List.mem_cons.mp hm with hm | hm
      · rw [hm]
      · exact h₂ _ hm

/-- A scan started from `st` is the scan started from any state `st₀` that is
not better than `st`, merged into `st` afterwards. -/
theorem scanBest_restart {σ γ α : Type} [LinearOrder α] (key : σ → α) (val : γ → α) (mk : γ → σ)
    (hk : ∀ c, key (mk c) = val c) (cs : List γ) (st st₀ : σ) (h : key st₀ ≤ key st) :
    scanBest key val mk st cs
      = if key (scanBest key val mk st₀ cs) > key st then scanBest key val mk st₀ cs else st := by
  induction cs generalizing st st₀ with
  | nil => rw [scanBest_nil, scanBest_nil, if_neg (not_lt.mpr h)]
  | cons a cs ih =>
    rw [scanBest_cons, scanBest_cons]
    by_cases h₁ : val a > key st
    · have h₀ : val a > key st₀ := lt_of_le_of_lt h h₁
      rw [if_pos h₁, if_pos h₀]
      have hm := scanBest_key_le key val mk hk cs (mk a)
      rw [hk] at hm
      rw [if_pos (lt_of_lt_of_le h₁ hm)]
    · rw [if_neg h₁]
      by_cases h₀ : val a > key st₀
      · rw [if_pos h₀]
        exact ih st (mk a) (by rw [hk]; exact not_lt.mp h₁)
      · rw [if_neg h₀]
        exact ih st st₀ h

/-- Two scans over lists with the same elements agree as soon as a positive
largest key is carried by one element only. -/
theorem scanBest_id_perm {σ α : Type} [LinearOrder α] (key : σ → α) (init : σ)
    (X Y : List σ) (hperm : X.Perm Y)
    (huniq : ∀ a ∈ X, ∀ b ∈ X, key init < key a → key b = key a →
      (∀ x ∈ X, key x ≤ key a) → a = b) :
    scanBest key key id init X = scanBest key key id init Y := by
  rcases scanBest_cases key key id (fun _ => rfl) X init
    with ⟨hx, hallx⟩ | ⟨l₁, c, l₂, hcs, hx, hlt, h₁, h₂⟩
  · rcases scanBest_cases key key id (fun _ => rfl) Y init
      with ⟨hy, -⟩ | ⟨m₁, d, m₂, hds, -, hltd, -, -⟩
    · rw [hx, hy]
    · have hd : d ∈ X := hperm.mem_iff.mpr (by rw [hds]; simp)
      exact absurd (hallx d hd) (not_le.mpr hltd)
  · have hcX : c ∈ X := by rw [hcs]; simp
    have hmaxc : ∀ x ∈ X, key x ≤ key c := by
      intro x hxm
      have := scanBest_val_le key key id (fun _ => rfl) X init x hxm
      rw [hx] at this
      exact this
    rcases scanBest_cases key key id (fun _ => rfl) Y init
      with ⟨-, hally⟩ | ⟨m₁, d, m₂, hds, hy, hltd, -, -⟩
    · exact absurd (hally c (hperm.mem_iff.mp hcX)) (not_le.mpr hlt)
    · have hdY : d ∈ Y := by rw [hds]; simp
      have hdX : d ∈ X := hperm.mem_iff.mpr hdY
      have hmaxd : ∀ x ∈ Y, key x ≤ key d := by
        intro x hxm
        have := scanBest_val_le key key id (fun _ => rfl) Y init x hxm
        rw [hy] at this
        exact this
      have hkey : key d = key c :=
        le_antisymm (hmaxc d hdX) (hmaxd c (hperm.mem_iff.mp hcX))
      rw [hx, hy]
      exact huniq c hcX d hdX hlt hkey hmaxc

/-! ### `EvaluateAllPosesNative` as a tournament of per-pose scans -/

theorem posesInner_fold {α : Type} [LinearOrder α] (score : Nat → Int → Int → α) (pi : Nat)
    (baseCx baseCy imgW margin dy : Int) (xs : List Int) (st : PoseResult α) :
    xs.foldl (posesInner score pi baseCx imgW margin (baseCy + dy) dy) st
      = scanBest PoseResult.bestScore
          (fun c : Int × Int => score pi (baseCx + c.1) (baseCy + c.2))
          (fun c => ⟨score pi (baseCx + c.1) (baseCy + c.2), c.1, c.2, pi⟩) st
          ((xs.filter (fun dx => ¬ (baseCx + dx < margin ∨ baseCx + dx ≥ imgW - margin))).map
            (fun dx => (dx, dy))) := by
  induction xs generalizing st with
  | nil => rfl
  | cons x xs ih =>
    rw [List.foldl_cons, ih]
    by_cases h : baseCx + x < margin ∨ baseCx + x ≥ imgW - margin
    · rw [List.filter_cons_of_neg (by simp only [decide_eq_true_eq, not_not]; exact h)]
      simp only [posesInner, if_pos h]
    · rw [List.filter_cons_of_pos (by simp only [decide_eq_true_eq]; exact h), List.map_cons,
        scanBest_cons]
      simp only [posesInner, if_neg h]

theorem posesOuter_fold {α : Type} [LinearOrder α] (score : Nat → Int → Int → α) (pi : Nat)
    (baseCx baseCy refRadius imgW imgH margin : Int) (ys : List Int) (st : PoseResult α) :
    ys.foldl (posesOuter score pi baseCx baseCy refRadius imgW imgH margin) st
      = scanBest PoseResult.bestScore
          (fun c : Int × Int => score pi (baseCx + c.1) (baseCy + c.2))
          (fun c => ⟨score pi (baseCx + c.1) (baseCy + c.2), c.1, c.2, pi⟩) st
          (ys.flatMap (fun dy =>
            if baseCy + dy < margin ∨ baseCy + dy ≥ imgH - margin then []
            else ((loopRange (-refRadius) refRadius).filter
                    (fun dx => ¬ (baseCx + dx < margin ∨ baseCx + dx ≥ imgW - margin))).map
                  (fun dx => (dx, dy)))) := by
  induction ys generalizing st with
  | nil => rfl
  | cons y ys ih =>
    rw [List.foldl_cons, ih, List.flatMap_cons, scanBest_append]
    congr 1
    by_cases h : baseCy + y < margin ∨ baseCy + y ≥ imgH - margin
    · simp only [posesOuter, if_pos h, scanBest_nil]
    · simp only [posesOuter, if_neg h]
      exact posesInner_fold score pi baseCx baseCy imgW margin y _ st

/-- The lattice search of one pose is a scan over that pose's in-bounds lattice points. -/
theorem posesBody_eq_scan {α : Type} [LinearOrder α] (score : Nat → Int → Int → α)
    (margins : Nat → Int) (baseCx baseCy refRadius imgW imgH : Int) (st : PoseResult α)
    (pi : Nat) :
    posesBody score margins baseCx baseCy refRadius imgW imgH st pi
      = scanBest PoseResult.bestScore
          (fun c : Int × Int => score pi (baseCx + c.1) (baseCy + c.2))
          (fun c => ⟨score pi (baseCx + c.1) (baseCy + c.2), c.1, c.2, pi⟩) st
          (gridCands baseCx baseCy refRadius imgW imgH (margins pi)) :=
  posesOuter_fold score pi baseCx baseCy refRadius imgW imgH (margins pi) _ st

theorem scanBest_map {σ γ δ α : Type} [LinearOrder α] (key : σ → α) (val : γ → α) (mk : γ → σ)
    (f : δ → γ) (init : σ) (l : List δ) :
    scanBest key val mk init (l.map f)
      = scanBest key (fun d => val (f d)) (fun d => mk (f d)) init l := by
  simp [scanBest, List.foldl_map]

/-- Scanning the winners of several scans (each started from `z`) is the scan
of the concatenated lists. -/
theorem scanBest_tournament {σ α : Type} [LinearOrder α] (key : σ → α) (z : σ)
    (L : List (List σ)) (st : σ) (h : key z ≤ key st) :
    scanBest key key id st (L.map (fun l => scanBest key key id z l))
      = scanBest key key id st L.flatten := by
  induction L generalizing st with
  | nil => rfl
  | cons l ls ih =>
    have hre := scanBest_restart key key id (fun _ => rfl) l st z h
    have hle := scanBest_key_le key key id (fun _ => rfl) l st
    rw [List.map_cons, scanBest_cons, List.flatten_cons, scanBest_append]
    simp only [id_eq]
    rw [← hre]
    exact ih _ (le_trans h hle)

theorem mergeLocal_fold {α : Type} [LinearOrder α] (st : PoseResult α)
    (ls : List (PoseResult α)) :
    ls.foldl mergeLocal st = scanBest PoseResult.bestScore PoseResult.bestScore id st ls := rfl

theorem posesBody_merge {α : Type} [LinearOrder α] [Zero α] (score : Nat → Int → Int → α)
    (margins : Nat → Int) (baseCx baseCy refRadius imgW imgH : Int) (st : PoseResult α)
    (h : 0 ≤ st.bestScore) (pi : Nat) :
    posesBody score margins baseCx baseCy refRadius imgW imgH st pi
      = mergeLocal st
          (posesBody score margins baseCx baseCy refRadius imgW imgH ⟨0, 0, 0, 0⟩ pi) := by
  rw [posesBody_eq_scan, posesBody_eq_scan]
  exact scanBest_restart PoseResult.bestScore
    (fun c : Int × Int => score pi (baseCx + c.1) (baseCy + c.2))
    (fun c => ⟨score pi (baseCx + c.1) (baseCy + c.2), c.1, c.2, pi⟩) (fun _ => rfl)
    _ st ⟨0, 0, 0, 0⟩ h

theorem posesBody_fold {α : Type} [LinearOrder α] [Zero α] (score : Nat → Int → Int → α)
    (margins : Nat → Int) (baseCx baseCy refRadius imgW imgH : Int) (poses : List Nat)
    (st : PoseResult α) (h : 0 ≤ st.bestScore) :
    poses.foldl (posesBody score margins baseCx baseCy refRadius imgW imgH) st
      = scanBest PoseResult.bestScore PoseResult.bestScore id st
          (poses.map (posesBody score margins baseCx baseCy refRadius imgW imgH ⟨0, 0, 0, 0⟩)) := by
  induction poses generalizing st with
  | nil => rfl
  | cons q qs ih =>
    rw [List.foldl_cons, List.map_cons, scanBest_cons,
      posesBody_merge score margins baseCx baseCy refRadius imgW imgH st h q]
    refine ih _ ?_
    rw [← posesBody_merge score margins baseCx baseCy refRadius imgW imgH st h q,
      posesBody_eq_scan]
    exact le_trans h (scanBest_key_le PoseResult.bestScore
      (fun c : Int × Int => score q (baseCx + c.1) (baseCy + c.2))
      (fun c => ⟨score q (baseCx + c.1) (baseCy + c.2), c.1, c.2, q⟩) (fun _ => rfl) _ st)

/-- The result under a schedule is the scan of the per-pose results, taken in
the order: first worker's poses, second worker's poses, and so on. -/
theorem EvaluateAllPosesNative_eq_scan {α : Type} [LinearOrder α] [Zero α]
    (score : Nat → Int → Int → α) (margins : Nat → Int)
    (baseCx baseCy refRadius imgW imgH : Int) (sched : List (List Nat)) :
    EvaluateAllPosesNative score margins baseCx baseCy refRadius imgW imgH sched
      = scanBest PoseResult.bestScore PoseResult.bestScore id ⟨0, 0, 0, 0⟩
          (sched.flatten.map
            (posesBody score margins baseCx baseCy refRadius imgW imgH ⟨0, 0, 0, 0⟩)) := by
  unfold EvaluateAllPosesNative
  rw [mergeLocal_fold]
  have hw : workerLocal score margins baseCx baseCy refRadius imgW imgH
      = fun w => scanBest PoseResult.bestScore PoseResult.bestScore id ⟨0, 0, 0, 0⟩
          (w.map (posesBody score margins baseCx baseCy refRadius imgW imgH ⟨0, 0, 0, 0⟩)) := by
    funext w
    exact posesBody_fold score margins baseCx baseCy refRadius imgW imgH w _ (le_refl _)
  rw [hw, List.map_flatten]
  have := scanBest_tournament PoseResult.bestScore (⟨0, 0, 0, 0⟩ : PoseResult α)
    (sched.map (List.map
      (posesBody score margins baseCx baseCy refRadius imgW imgH ⟨0, 0, 0, 0⟩)))
    ⟨0, 0, 0, 0⟩ (le_refl _)
  rw [← this, List.map_map]
  rfl

/-- The serial reference is what a single worker executing every pose in
ascending order holds at the end of its loop. -/
theorem serialAllPoses_eq_workerLocal {α : Type} [LinearOrder α] [Zero α]
    (score : Nat → Int → Int → α) (margins : Nat → Int) (poseCount : Nat)
    (baseCx baseCy refRadius imgW imgH : Int) :
    serialAllPoses score margins poseCount baseCx baseCy refRadius imgW imgH
      = workerLocal score margins baseCx baseCy refRadius imgW imgH (List.range poseCount) := by
  unfold serialAllPoses workerLocal
  generalize (⟨0, 0, 0, 0⟩ : PoseResult α) = st
  generalize List.range poseCount = ps
  induction ps generalizing st with
  | nil => rfl
  | cons q qs ih =>
    rw [List.flatMap_cons, scanBest_append, List.foldl_cons, scanBest_map, ih,
      posesBody_eq_scan]

theorem serialAllPoses_eq_scan {α : Type} [LinearOrder α] [Zero α]
    (score : Nat → Int → Int → α) (margins : Nat → Int) (poseCount : Nat)
    (baseCx baseCy refRadius imgW imgH : Int) :
    serialAllPoses score margins poseCount baseCx baseCy refRadius imgW imgH
      = scanBest PoseResult.bestScore PoseResult.bestScore id ⟨0, 0, 0, 0⟩
          ((List.range poseCount).map
            (posesBody score margins baseCx baseCy refRadius imgW imgH ⟨0, 0, 0, 0⟩)) := by
  rw [serialAllPoses_eq_workerLocal]
  exact posesBody_fold score margins baseCx baseCy refRadius imgW imgH _ _ (le_refl _)

/-- The search of one pose alone returns score `0`, or the score of one of
that pose's in-bounds lattice points together with that pose's index. -/
theorem posesBody_zero_cases {α : Type} [LinearOrder α] [Zero α] (score : Nat → Int → Int → α)
    (margins : Nat → Int) (baseCx baseCy refRadius imgW imgH : Int) (pi : Nat) :
    (posesBody score margins baseCx baseCy refRadius imgW imgH ⟨0, 0, 0, 0⟩ pi).bestScore = 0 ∨
    ∃ dx dy, IsCandidate baseCx baseCy refRadius imgW imgH (margins pi) dx dy ∧
      (posesBody score margins baseCx baseCy refRadius imgW imgH ⟨0, 0, 0, 0⟩ pi).bestScore
        = score pi (baseCx + dx) (baseCy + dy) ∧
      (posesBody score margins baseCx baseCy refRadius imgW imgH ⟨0, 0, 0, 0⟩ pi).bestPose = pi := by
  rw [posesBody_eq_scan]
  rcases scanBest_cases PoseResult.bestScore
      (fun c : Int × Int => score pi (baseCx + c.1) (baseCy + c.2))
      (fun c => ⟨score pi (baseCx + c.1) (baseCy + c.2), c.1, c.2, pi⟩) (fun _ => rfl)
      (gridCands baseCx baseCy refRadius imgW imgH (margins pi)) ⟨0, 0, 0, 0⟩
    with ⟨hr, -⟩ | ⟨l₁, c, l₂, hcs, hr, -, -, -⟩
  · left; rw [hr]
  · right
    rw [hr]
    have hmem : c ∈ gridCands baseCx baseCy refRadius imgW imgH (margins pi) := by
      rw [hcs]; simp
    exact ⟨c.1, c.2, (mem_gridCands _ _ _ _ _ _ c).mp hmem, rfl, rfl⟩

theorem posesBody_zero_ge {α : Type} [LinearOrder α] [Zero α] (score : Nat → Int → Int → α)
    (margins : Nat → Int) (baseCx baseCy refRadius imgW imgH : Int) (pi : Nat) (dx dy : Int)
    (hc : IsCandidate baseCx baseCy refRadius imgW imgH (margins pi) dx dy) :
    score pi (baseCx + dx) (baseCy + dy)
      ≤ (posesBody score margins baseCx baseCy refRadius imgW imgH ⟨0, 0, 0, 0⟩ pi).bestScore := by
  rw [posesBody_eq_scan]
  exact scanBest_val_le PoseResult.bestScore
    (fun c : Int × Int => score pi (baseCx + c.1) (baseCy + c.2))
    (fun c => ⟨score pi (baseCx + c.1) (baseCy + c.2), c.1, c.2, pi⟩) (fun _ => rfl)
    _ _ (dx, dy) ((mem_gridCands _ _ _ _ _ _ (dx, dy)).mpr hc)

/-! ### Claims on `EvaluateAllPosesNative` -/

/-- C3, as stated, fails: with two poses that both score `1` at their single
in-bounds lattice point, the schedule in which the worker holding pose `1`
enters the critical section first returns pose `1`, while the other schedule
and the serial reference return pose `0`. -/
theorem evaluate_all_poses_tie_counterexample :
    IsSchedule 2 [[1], [0]] ∧ IsSchedule 2 [[0], [1]] ∧
    EvaluateAllPosesNative (fun _ _ _ => (1 : Int)) (fun _ => 0) 0 0 0 1 1 [[1], [0]]
      = ⟨1, 0, 0, 1⟩ ∧
    EvaluateAllPosesNative (fun _ _ _ => (1 : Int)) (fun _ => 0) 0 0 0 1 1 [[0], [1]]
      = ⟨1, 0, 0, 0⟩ ∧
    serialAllPoses (fun _ _ _ => (1 : Int)) (fun _ => 0) 2 0 0 0 1 1 = ⟨1, 0, 0, 0⟩ ∧
    EvaluateAllPosesNative (fun _ _ _ => (1 : Int)) (fun _ => 0) 0 0 0 1 1 [[1], [0]]
      ≠ serialAllPoses (fun _ _ _ => (1 : Int)) (fun _ => 0) 2 0 0 0 1 1 := by
  refine ⟨⟨List.Perm.swap 0 1 [], by decide⟩, ⟨List.Perm.refl _, by decide⟩,
    by decide, by decide, by decide, by decide⟩

/-- C3 (amended): for every schedule (every index given to exactly one worker,
every worker ascending, any order of the critical sections),
`EvaluateAllPosesNative` returns the same `(bestScore, bestDx, bestDy,
bestPoseIdx)` as the serial `(poseIdx, dy, dx)` enumeration that keeps the
first maximum, provided that a positive maximal score is not attained at two
different poses. -/
theorem evaluate_all_poses_eq_serial_of_unique_max {α : Type} [LinearOrder α] [Zero α]
    (score : Nat → Int → Int → α) (margins : Nat → Int) (poseCount : Nat)
    (baseCx baseCy refRadius imgW imgH : Int) (sched : List (List Nat))
    (hs : IsSchedule poseCount sched)
    (hU : ∀ p q dx dy dx' dy', p < poseCount → q < poseCount →
      IsCandidate baseCx baseCy refRadius imgW imgH (margins p) dx dy →
      IsCandidate baseCx baseCy refRadius imgW imgH (margins q) dx' dy' →
      0 < score p (baseCx + dx) (baseCy + dy) →
      score q (baseCx + dx') (baseCy + dy') = score p (baseCx + dx) (baseCy + dy) →
      (∀ p' ex ey, p' < poseCount →
        IsCandidate baseCx baseCy refRadius imgW imgH (margins p') ex ey →
        score p' (baseCx + ex) (baseCy + ey) ≤ score p (baseCx + dx) (baseCy + dy)) →
      p = q) :
    EvaluateAllPosesNative score margins baseCx baseCy refRadius imgW imgH sched
      = serialAllPoses score margins poseCount baseCx baseCy refRadius imgW imgH := by
  rw [EvaluateAllPosesNative_eq_scan, serialAllPoses_eq_scan]
  refine scanBest_id_perm PoseResult.bestScore _ _ _ (hs.1.map _) ?_
  intro a ha b hb hpos hkey hmax
  obtain ⟨p, hp, rfl⟩ := List.mem_map.mp ha
  obtain ⟨q, hq, rfl⟩ := List.mem_map.mp hb
  have hpn : p < poseCount := List.mem_range.mp (hs.1.mem_iff.mp hp)
  have hqn : q < poseCount := List.mem_range.mp (hs.1.mem_iff.mp hq)
  have hpos' : (0 : α)
      < (posesBody score margins baseCx baseCy refRadius imgW imgH ⟨0, 0, 0, 0⟩ p).bestScore :=
    hpos
  rcases posesBody_zero_cases score margins baseCx baseCy refRadius imgW imgH p
    with h0 | ⟨dx, dy, hc, hsc, -⟩
  · rw [h0] at hpos'
    exact absurd hpos' (lt_irrefl _)
  rcases posesBody_zero_cases score margins baseCx baseCy refRadius imgW imgH q
    with h0 | ⟨dx', dy', hc', hsc', -⟩
  · rw [← hkey, h0] at hpos'
    exact absurd hpos' (lt_irrefl _)
  have hpq : p = q := by
    refine hU p q dx dy dx' dy' hpn hqn hc hc' (by rw [← hsc]; exact hpos')
      (by rw [← hsc, ← hsc']; exact hkey) ?_
    intro p' ex ey hp' hc''
    rw [← hsc]
    refine le_trans
      (posesBody_zero_ge score margins baseCx baseCy refRadius imgW imgH p' ex ey hc'') ?_
    exact hmax _ (List.mem_map.mpr ⟨p', hs.1.mem_iff.mpr (List.mem_range.mpr hp'), rfl⟩)
  rw [hpq]

/-- Witness for C3 (amended): two poses scoring `1` and `2`; the schedule that
merges pose `1` first agrees with the serial reference, which returns pose `1`. -/
theorem evaluate_all_poses_eq_serial_of_unique_max_witness :
    EvaluateAllPosesNative (fun p _ _ => if p = 1 then (2 : Int) else 1) (fun _ => 0)
        0 0 0 1 1 [[1], [0]]
      = serialAllPoses (fun p _ _ => if p = 1 then (2 : Int) else 1) (fun _ => 0) 2 0 0 0 1 1 ∧
    serialAllPoses (fun p _ _ => if p = 1 then (2 : Int) else 1) (fun _ => 0) 2 0 0 0 1 1
      = ⟨2, 0, 0, 1⟩ :=
  ⟨evaluate_all_poses_eq_serial_of_unique_max
      (fun p _ _ => if p = 1 then (2 : Int) else 1) (fun _ => 0) 2 0 0 0 1 1 [[1], [0]]
      ⟨List.Perm.swap 0 1 [], by decide⟩
      (by
        intro p q dx dy dx' dy' _ _ _ _ _ heq hmax
        have h1 := hmax 1 0 0 (by decide) (by decide)
        simp only [if_true] at h1 heq
        by_cases hp : p = 1
        · by_cases hq : q = 1
          · rw [hp, hq]
          · rw [if_pos hp, if_neg hq] at heq
            exact absurd heq (by decide)
        · rw [if_neg hp] at h1
          exact absurd h1 (by decide)),
   by decide⟩

/-! ### The top-K insertion policy -/

theorem insertAfterGE_nil {R : Type} (c : Candidate R) : insertAfterGE c [] = [c] := rfl

theorem insertAfterGE_cons {R : Type} (c b : Candidate R) (l : List (Candidate R)) :
    insertAfterGE c (b :: l)
      = if c.votes ≤ b.votes then b :: insertAfterGE c l else c :: b :: l := rfl

theorem insertAfterGE_length {R : Type} (c : Candidate R) (l : List (Candidate R)) :
    (insertAfterGE c l).length = l.length + 1 := by
  induction l with
  | nil => rfl
  | cons b l ih =>
    rw [insertAfterGE_cons]
    split_ifs
    · simp [ih]
    · simp

theorem insertAfterGE_perm {R : Type} (c : Candidate R) (l : List (Candidate R)) :
    (insertAfterGE c l).Perm (c :: l) := by
  induction l with
  | nil => exact List.Perm.refl _
  | cons b l ih =>
    rw [insertAfterGE_cons]
    split_ifs
    · exact (List.Perm.cons b ih).trans (List.Perm.swap c b l)
    · exact List.Perm.refl _

/-- A new entry with more votes than everything in `t` is inserted before `t`. -/
theorem insertAfterGE_append_lt {R : Type} (c : Candidate R) (l t : List (Candidate R))
    (ht : ∀ x ∈ t, x.votes < c.votes) :
    insertAfterGE c (l ++ t) = insertAfterGE c l ++ t := by
  induction l with
  | nil =>
    cases t with
    | nil => rfl
    | cons b t =>
      have hb := ht b (List.mem_cons_self _ _)
      rw [List.nil_append, insertAfterGE_cons, if_neg (by omega)]
      rfl
  | cons a l ih =>
    rw [List.cons_append, insertAfterGE_cons, insertAfterGE_cons]
    split_ifs
    · rw [ih, List.cons_append]
    · rfl

/-- A new entry with no more votes than anything in `l` is inserted behind `l`. -/
theorem insertAfterGE_append_ge {R : Type} (c : Candidate R) (l t : List (Candidate R))
    (hl : ∀ x ∈ l, c.votes ≤ x.votes) :
    insertAfterGE c (l ++ t) = l ++ insertAfterGE c t := by
  induction l with
  | nil => rfl
  | cons a l ih =>
    rw [List.cons_append, insertAfterGE_cons, if_pos (hl a (List.mem_cons_self _ _)),
      ih (fun x hx => hl x (List.mem_cons_of_mem _ hx)), List.cons_append]

theorem insertAfterGE_sorted {R : Type} (c : Candidate R) (l : List (Candidate R))
    (hl : l.Pairwise votesGE) : (insertAfterGE c l).Pairwise votesGE := by
  induction l with
  | nil => exact List.pairwise_singleton _ _
  | cons b l ih =>
    rw [insertAfterGE_cons]
    obtain ⟨hb, hl'⟩ := List.pairwise_cons.mp hl
    split_ifs with h
    · refine List.pairwise_cons.mpr ⟨?_, ih hl'⟩
      intro x hx
      rcases List.mem_cons.mp ((insertAfterGE_perm c l).mem_iff.mp hx) with rfl | hx
      · exact h
      · exact hb x hx
    · refine List.pairwise_cons.mpr ⟨?_, hl⟩
      intro x hx
      have hcb : b.votes ≤ c.votes := by omega
      rcases List.mem_cons.mp hx with rfl | hx
      · exact hcb
      · exact le_trans (hb x hx) hcb

/-- Inserting from the left (as insertion sort does) and inserting a later
element from the right commute. -/
theorem orderedInsert_insertAfterGE {R : Type} (a c : Candidate R) (l : List (Candidate R)) :
    List.orderedInsert votesGE a (insertAfterGE c l)
      = insertAfterGE c (List.orderedInsert votesGE a l) := by
  induction l with
  | nil =>
    simp only [insertAfterGE_nil, List.orderedInsert, insertAfterGE_cons, votesGE]
  | cons b l ih =>
    simp only [List.orderedInsert, insertAfterGE_cons, votesGE] at ih ⊢
    by_cases h₁ : c.votes ≤ b.votes
    · by_cases h₂ : b.votes ≤ a.votes
      · have h₃ : c.votes ≤ a.votes := le_trans h₁ h₂
        simp only [if_pos h₁, if_pos h₂, List.orderedInsert, votesGE, insertAfterGE_cons, if_pos h₃]
      · simp only [if_pos h₁, if_neg h₂, List.orderedInsert, votesGE, insertAfterGE_cons, ih]
    · by_cases h₂ : b.votes ≤ a.votes
      · by_cases h₃ : c.votes ≤ a.votes
        · simp only [if_neg h₁, if_pos h₂, List.orderedInsert, votesGE, insertAfterGE_cons,
            if_pos h₃]
        · simp only [if_neg h₁, if_pos h₂, List.orderedInsert, votesGE, insertAfterGE_cons,
            if_neg h₃]
      · have h₃ : ¬ c.votes ≤ a.votes := by omega
        simp only [if_neg h₁, if_neg h₂, List.orderedInsert, votesGE, insertAfterGE_cons,
          if_neg h₃]

/-- Stable insertion sort of a list extended at the end. -/
theorem insertionSort_append_singleton {R : Type} (l : List (Candidate R)) (c : Candidate R) :
    (l ++ [c]).insertionSort votesGE = insertAfterGE c (l.insertionSort votesGE) := by
  induction l with
  | nil => rfl
  | cons a l ih =>
    rw [List.cons_append, List.insertionSort, ih, orderedInsert_insertAfterGE]
    rfl

/-- One iteration of the bubble-up loop on an array seen as `A ++ b :: c :: B`,
with the moving entry `c` at index `A.length + 1`. -/
theorem bubbleUp_step {R : Type} (A B : List (Candidate R)) (b c : Candidate R) :
    bubbleUp (A.length + 1) (A ++ b :: c :: B)
      = if c.votes > b.votes then bubbleUp A.length (A ++ c :: b :: B)
        else A ++ b :: c :: B := by
  have h₁ : (A ++ b :: c :: B)[A.length + 1]? = some c := by
    rw [List.getElem?_append_right (by omega)]
    simp
  have h₂ : (A ++ b :: c :: B)[A.length]? = some b := by
    rw [List.getElem?_append_right (le_refl _)]
    simp
  have h₃ : ((A ++ b :: c :: B).set (A.length + 1) b).set A.length c = A ++ c :: b :: B := by
    rw [List.set_append_right _ _ (by omega), List.set_append_right _ _ (by simp)]
    simp
  rw [bubbleUp, h₁, h₂]
  simp only [h₃]

/-- On a sorted prefix, the bubble-up loop places the moving entry behind
every entry with at least as many votes. -/
theorem bubbleUp_sorted {R : Type} (A : List (Candidate R)) (c : Candidate R)
    (B : List (Candidate R)) (hA : A.Pairwise votesGE) :
    bubbleUp A.length (A ++ c :: B) = insertAfterGE c A ++ B := by
  induction A using List.reverseRecOn generalizing B with
  | nil => rfl
  | append_singleton A b ih =>
    have hA' : A.Pairwise votesGE := (List.pairwise_append.mp hA).1
    have hAb : ∀ x ∈ A, b.votes ≤ x.votes := fun x hx =>
      (List.pairwise_append.mp hA).2.2 x hx b (List.mem_singleton_self b)
    rw [List.length_append, List.length_singleton, List.append_assoc, List.singleton_append,
      bubbleUp_step]
    by_cases h : c.votes > b.votes
    · rw [if_pos h, ih _ hA', insertAfterGE_append_lt c A [b] (by simpa using h)]
      simp
    · rw [if_neg h]
      have hc : ∀ x ∈ A ++ [b], c.votes ≤ x.votes := by
        intro x hx
        rcases List.mem_append.mp hx with hx | hx
        · exact le_trans (not_lt.mp h) (hAb x hx)
        · rw [List.mem_singleton.mp hx]; exact not_lt.mp h
      have := insertAfterGE_append_ge c (A ++ [b]) [] hc
      rw [List.append_nil, insertAfterGE_nil] at this
      rw [this]
      simp

/-- On a sorted array of length `topK ≥ 1`, the insertion policy is "insert
behind the entries with at least as many votes, then drop what falls off the
end". -/
theorem topKInsert_sorted {R : Type} (topK : Nat) (hK : 1 ≤ topK) (xs : List (Candidate R))
    (hlen : xs.length = topK) (hxs : xs.Pairwise votesGE) (c : Candidate R) :
    topKInsert topK xs c = (insertAfterGE c xs).take topK := by
  obtain ⟨A, l, rfl⟩ : ∃ A l, xs = A ++ [l] := by
    rcases List.eq_nil_or_concat xs with h | ⟨A, l, h⟩
    · rw [h] at hlen; simp at hlen; omega
    · exact ⟨A, l, by rw [h]; simp⟩
  have hAlen : A.length = topK - 1 := by
    rw [List.length_append, List.length_singleton] at hlen; omega
  have hA' : A.Pairwise votesGE := (List.pairwise_append.mp hxs).1
  have hAl : ∀ x ∈ A, l.votes ≤ x.votes := fun x hx =>
    (List.pairwise_append.mp hxs).2.2 x hx l (List.mem_singleton_self l)
  have hlast : (A ++ [l])[topK - 1]? = some l := by
    rw [← hAlen, List.getElem?_append_right (le_refl _)]
    simp
  rw [topKInsert, hlast]
  by_cases h : c.votes > l.votes
  · have hset : (A ++ [l]).set (topK - 1) c = A ++ c :: [] := by
      rw [← hAlen, List.set_append_right _ _ (le_refl _)]
      simp
    simp only [if_pos h, hset]
    rw [← hAlen, bubbleUp_sorted A c [] hA', insertAfterGE_append_lt c A [l] (by simpa using h),
      List.append_nil]
    rw [List.take_left' (by rw [insertAfterGE_length]; omega)]
  · simp only [if_neg h]
    have hc : ∀ x ∈ A ++ [l], c.votes ≤ x.votes := by
      intro x hx
      rcases List.mem_append.mp hx with hx | hx
      · exact le_trans (not_lt.mp h) (hAl x hx)
      · rw [List.mem_singleton.mp hx]; exact not_lt.mp h
    have := insertAfterGE_append_ge c (A ++ [l]) [] hc
    rw [List.append_nil, insertAfterGE_nil] at this
    rw [this, List.take_left' hlen]

/-- Only the first `k` entries matter for the first `k` entries after an insertion. -/
theorem take_insertAfterGE_take {R : Type} (c : Candidate R) (k : Nat) (l : List (Candidate R)) :
    (insertAfterGE c (l.take k)).take k = (insertAfterGE c l).take k := by
  induction l generalizing k with
  | nil => simp
  | cons b l ih =>
    cases k with
    | zero => simp
    | succ k =>
      rw [List.take_succ_cons, insertAfterGE_cons, insertAfterGE_cons]
      split_ifs
      · rw [List.take_succ_cons, List.take_succ_cons, ih]
      · rw [List.take_succ_cons, List.take_succ_cons]
        congr 1
        cases k with
        | zero => simp
        | succ k => rw [List.take_succ_cons, List.take_succ_cons, List.take_take]; simp

theorem sorted_insertionSort_votesGE {R : Type} (l : List (Candidate R)) :
    (l.insertionSort votesGE).Pairwise votesGE :=
  List.sorted_insertionSort votesGE l

/-- The sort used by `topKStable` is stable: two entries with equal votes keep
their order. -/
theorem insertionSort_votesGE_stable {R : Type} (l : List (Candidate R)) (a b : Candidate R)
    (hab : a.votes = b.votes) (h : [a, b].Sublist l) :
    [a, b].Sublist (l.insertionSort votesGE) :=
  List.pair_sublist_insertionSort (show votesGE a b from le_of_eq hab.symm) h

/-- One insertion into the first `topK` entries of a sorted list. -/
theorem topKInsert_take_insertionSort {R : Type} (topK : Nat) (hK : 1 ≤ topK)
    (S : List (Candidate R)) (hS : topK ≤ S.length) (c : Candidate R) :
    topKInsert topK ((S.insertionSort votesGE).take topK) c
      = ((S ++ [c]).insertionSort votesGE).take topK := by
  rw [topKInsert_sorted topK hK _ (by rw [List.length_take, List.length_insertionSort]; omega)
      ((sorted_insertionSort_votesGE S).sublist (List.take_sublist _ _)),
    take_insertAfterGE_take, insertionSort_append_singleton]

theorem foldl_topKInsert_take_insertionSort {R : Type} (topK : Nat) (hK : 1 ≤ topK)
    (seq S : List (Candidate R)) (hS : topK ≤ S.length) :
    seq.foldl (topKInsert topK) ((S.insertionSort votesGE).take topK)
      = ((S ++ seq).insertionSort votesGE).take topK := by
  induction seq generalizing S with
  | nil => rw [List.append_nil]; rfl
  | cons c seq ih =>
    rw [List.foldl_cons, topKInsert_take_insertionSort topK hK S hS c,
      ih (S ++ [c]) (by rw [List.length_append]; omega), List.append_assoc]
    rfl

theorem replicate_zero_sorted {R : Type} [Zero R] (n : Nat) :
    (List.replicate n (Candidate.zero : Candidate R)).Pairwise votesGE := by
  rw [List.pairwise_replicate]
  exact Or.inr (le_refl _)

/-- The list built by the insertion policy from `topK` placeholders: the first
`topK` entries of the stable sort of the placeholders followed by the results. -/
theorem topKOfSeq_eq_take_insertionSort {R : Type} [Zero R] (topK : Nat) (hK : 1 ≤ topK)
    (seq : List (Candidate R)) :
    topKOfSeq topK seq
      = ((List.replicate topK Candidate.zero ++ seq).insertionSort votesGE).take topK := by
  have h := foldl_topKInsert_take_insertionSort topK hK seq
    (List.replicate topK (Candidate.zero : Candidate R)) (by simp)
  rw [List.Sorted.insertionSort_eq (replicate_zero_sorted topK),
    List.take_of_length_le (by simp)] at h
  exact h

/-- Stable sort of placeholders followed by results: the positive-vote
results, then the placeholders, then the results without a positive vote. -/
theorem insertionSort_replicate_zero_append {R : Type} [Zero R] (n : Nat)
    (seq : List (Candidate R)) :
    (List.replicate n Candidate.zero ++ seq).insertionSort votesGE
      = (seq.filter (fun c => 0 < c.votes)).insertionSort votesGE
        ++ (List.replicate n Candidate.zero
          ++ (seq.filter (fun c => ¬ 0 < c.votes)).insertionSort votesGE) := by
  induction seq using List.reverseRecOn with
  | nil =>
    simp only [List.append_nil, List.filter_nil, List.insertionSort, List.nil_append]
    exact List.Sorted.insertionSort_eq (replicate_zero_sorted n)
  | append_singleton seq c ih =>
    rw [← List.append_assoc, insertionSort_append_singleton, ih, List.filter_append,
      List.filter_append]
    by_cases h : 0 < c.votes
    · have h₁ : List.filter (fun c : Candidate R => decide (0 < c.votes)) [c] = [c] := by
        simp [h]
      have h₂ : List.filter (fun c : Candidate R => decide (¬ 0 < c.votes)) [c] = [] := by
        simp [h]
      rw [h₁, h₂, List.append_nil, insertionSort_append_singleton]
      refine insertAfterGE_append_lt c _ _ ?_
      intro x hx
      rcases List.mem_append.mp hx with hx | hx
      · rw [List.eq_of_mem_replicate hx]; exact h
      · have hx' := (List.mem_filter.mp ((List.mem_insertionSort votesGE).mp hx)).2
        simp only [decide_eq_true_eq] at hx'
        omega
    · have h₁ : List.filter (fun c : Candidate R => decide (0 < c.votes)) [c] = [] := by
        simp [h]
      have h₂ : List.filter (fun c : Candidate R => decide (¬ 0 < c.votes)) [c] = [c] := by
        rw [List.filter_cons_of_pos (by simp only [decide_eq_true_eq]; exact h)]
        rfl
      rw [h₁, h₂, List.append_nil, insertionSort_append_singleton, ← List.append_assoc,
        ← List.append_assoc]
      refine insertAfterGE_append_ge c _ _ ?_
      intro x hx
      rcases List.mem_append.mp hx with hx | hx
      · have hx' := (List.mem_filter.mp ((List.mem_insertionSort votesGE).mp hx)).2
        simp only [decide_eq_true_eq] at hx'
        omega
      · rw [List.eq_of_mem_replicate hx]
        show c.votes ≤ 0
        omega

/-- The insertion policy computes the specification of the top-K list. -/
theorem topKOfSeq_eq_topKStable {R : Type} [Zero R] (topK : Nat) (hK : 1 ≤ topK)
    (seq : List (Candidate R)) : topKOfSeq topK seq = topKStable topK seq := by
  rw [topKOfSeq_eq_take_insertionSort topK hK seq, insertionSort_replicate_zero_append,
    List.take_append_eq_append_take, List.length_insertionSort,
    List.take_append_of_le_length (by rw [List.length_replicate]; omega),
    List.take_replicate]
  unfold topKStable
  congr 2
  omega

/-! ### Claim on the insertion policy -/

/-- C5: for `topK ≥ 1` and every sequence of per-angle results inserted one
after another into `topK` placeholders, the final list is the positive-vote
results stably sorted by votes descending, truncated to `topK` entries and
padded with placeholders; and it is sorted by votes descending. -/
theorem topK_insertion_eq_stable_sort {R : Type} [Zero R] (topK : Nat) (hK : 1 ≤ topK)
    (seq : List (Candidate R)) :
    topKOfSeq topK seq = topKStable topK seq ∧ (topKOfSeq topK seq).Pairwise votesGE := by
  refine ⟨topKOfSeq_eq_topKStable topK hK seq, ?_⟩
  rw [topKOfSeq_eq_take_insertionSort topK hK seq]
  exact (sorted_insertionSort_votesGE _).sublist (List.take_sublist _ _)

/-- Witness for C5: five results with votes 5, 0, 7, 5, 7 inserted into two
slots leave the two 7-vote results, the earlier one first. -/
theorem topK_insertion_eq_stable_sort_witness :
    topKOfSeq 2 [(⟨1, 0, 0, 5⟩ : Candidate Int), ⟨2, 0, 0, 0⟩, ⟨3, 0, 0, 7⟩, ⟨4, 0, 0, 5⟩,
        ⟨5, 0, 0, 7⟩]
      = topKStable 2 [(⟨1, 0, 0, 5⟩ : Candidate Int), ⟨2, 0, 0, 0⟩, ⟨3, 0, 0, 7⟩, ⟨4, 0, 0, 5⟩,
        ⟨5, 0, 0, 7⟩] ∧
    topKStable 2 [(⟨1, 0, 0, 5⟩ : Candidate Int), ⟨2, 0, 0, 0⟩, ⟨3, 0, 0, 7⟩, ⟨4, 0, 0, 5⟩,
        ⟨5, 0, 0, 7⟩]
      = [⟨3, 0, 0, 7⟩, ⟨5, 0, 0, 7⟩] :=
  ⟨(topK_insertion_eq_stable_sort 2 (by decide) _).1, by decide⟩

/-! ### Claim on the final selection -/

theorem votesAt_eq {R : Type} (a : List (Candidate R)) (i : Nat) (hi : i < a.length) :
    votesAt a i = a[i].votes := by
  unfold votesAt
  rw [List.getElem?_eq_getElem hi]

/-- The index found by the scan: in range, of maximal votes, and the lowest
such index. -/
theorem fineBestIdx_spec {R : Type} (fine : List (Candidate R)) (hf : fine ≠ []) :
    fineBestIdx fine < fine.length ∧
    (∀ j, j < fine.length → votesAt fine j ≤ votesAt fine (fineBestIdx fine)) ∧
    (∀ j, j < fineBestIdx fine → votesAt fine j < votesAt fine (fineBestIdx fine)) := by
  have hlen : 0 < fine.length := List.length_pos.mpr hf
  have hscan : fineBestIdx fine
      = scanBest (votesAt fine) (votesAt fine) id 0 (List.range' 1 (fine.length - 1)) := rfl
  have hmem : ∀ j, j ∈ List.range' 1 (fine.length - 1) ↔ 1 ≤ j ∧ j < fine.length := by
    intro j
    rw [List.mem_range'_1]
    omega
  have hpw : (List.range' 1 (fine.length - 1)).Pairwise (· < ·) :=
    List.pairwise_lt_range' 1 (fine.length - 1)
  rcases scanBest_cases (votesAt fine) (votesAt fine) id (fun _ => rfl)
      (List.range' 1 (fine.length - 1)) 0
    with ⟨hr, hall⟩ | ⟨l₁, c, l₂, hcs, hr, hlt, h₁, h₂⟩
  · rw [hscan, hr]
    refine ⟨hlen, ?_, ?_⟩
    · intro j hj
      rcases Nat.eq_zero_or_pos j with h0 | h0
      · rw [h0]
      · exact hall j ((hmem j).mpr ⟨h0, hj⟩)
    · intro j hj
      exact absurd hj (Nat.not_lt_zero j)
  · rw [hscan, hr]
    simp only [id_eq]
    have hc : c ∈ List.range' 1 (fine.length - 1) := by rw [hcs]; simp
    have hc' := (hmem c).mp hc
    rw [hcs] at hpw
    have hl₁ : ∀ x ∈ l₁, x < c := fun x hx =>
      (List.pairwise_append.mp hpw).2.2 x hx c (List.mem_cons_self _ _)
    have hl₂ : ∀ x ∈ l₂, c < x := fun x hx =>
      List.rel_of_pairwise_cons (List.pairwise_append.mp hpw).2.1 hx
    refine ⟨hc'.2, ?_, ?_⟩
    · intro j hj
      rcases Nat.eq_zero_or_pos j with h0 | h0
      · rw [h0]; exact le_of_lt hlt
      · have hjm : j ∈ l₁ ++ c :: l₂ := by rw [← hcs]; exact (hmem j).mpr ⟨h0, hj⟩
        rcases List.mem_append.mp hjm with hm | hm
        · exact le_of_lt (h₁ j hm)
        · rcases List.mem_cons.mp hm with hm | hm
          · rw [hm]
          · exact h₂ j hm
    · intro j hj
      rcases Nat.eq_zero_or_pos j with h0 | h0
      · rw [h0]; exact hlt
      · have hjm : j ∈ l₁ ++ c :: l₂ := by
          rw [← hcs]; exact (hmem j).mpr ⟨h0, lt_trans hj hc'.2⟩
        rcases List.mem_append.mp hjm with hm | hm
        · exact h₁ j hm
        · rcases List.mem_cons.mp hm with hm | hm
          · exact absurd hj (by rw [hm]; exact lt_irrefl _)
          · exact absurd (hl₂ j hm) (by omega)

/-- C6: for a non-empty fine-results array and a non-empty coarse candidate
list there is an index `i` of the fine array that carries the maximum votes
and is the lowest index doing so; the outputs are the fields of `fine[i]` when
that maximum is positive and the fields of coarse candidate 0 otherwise. -/
theorem hough_select_argmax_or_fallback {R : Type} (fine candidates : List (Candidate R))
    (hf : fine ≠ []) (hc : candidates ≠ []) :
    ∃ i, ∃ hi : i < fine.length, ∃ h0 : 0 < candidates.length,
      (∀ j, ∀ hj : j < fine.length, fine[j].votes ≤ fine[i].votes) ∧
      (∀ j, ∀ hj : j < i, fine[j].votes < fine[i].votes) ∧
      houghSelect fine candidates
        = some (if 0 < fine[i].votes then fine[i] else candidates[0]) := by
  obtain ⟨hi, hmax, hfirst⟩ := fineBestIdx_spec fine hf
  have h0 : 0 < candidates.length := List.length_pos.mpr hc
  refine ⟨fineBestIdx fine, hi, h0, ?_, ?_, ?_⟩
  · intro j hj
    have := hmax j hj
    rwa [votesAt_eq fine j hj, votesAt_eq fine _ hi] at this
  · intro j hj
    have := hfirst j hj
    rwa [votesAt_eq fine j (lt_trans hj hi), votesAt_eq fine _ hi] at this
  · unfold houghSelect
    rw [List.getElem?_eq_getElem hi]
    by_cases hpos : 0 < fine[fineBestIdx fine].votes
    · simp only [gt_iff_lt, if_pos hpos]
    · simp only [gt_iff_lt, if_neg hpos]
      exact List.getElem?_eq_getElem h0

/-- Witness for C6: the fine array has votes 2, 5, 5 and the first 5 wins; the
coarse list is not consulted. -/
theorem hough_select_argmax_or_fallback_witness :
    houghSelect [(⟨10, 1, 1, 2⟩ : Candidate Int), ⟨11, 2, 2, 5⟩, ⟨12, 3, 3, 5⟩] [⟨9, 9, 9, 4⟩]
      = some ⟨11, 2, 2, 5⟩ ∧
    ∃ i, ∃ hi : i < [(⟨10, 1, 1, 2⟩ : Candidate Int), ⟨11, 2, 2, 5⟩, ⟨12, 3, 3, 5⟩].length,
      ∃ h0 : 0 < [(⟨9, 9, 9, 4⟩ : Candidate Int)].length,
      (∀ j, ∀ hj : j < [(⟨10, 1, 1, 2⟩ : Candidate Int), ⟨11, 2, 2, 5⟩, ⟨12, 3, 3, 5⟩].length,
        [(⟨10, 1, 1, 2⟩ : Candidate Int), ⟨11, 2, 2, 5⟩, ⟨12, 3, 3, 5⟩][j].votes
          ≤ [(⟨10, 1, 1, 2⟩ : Candidate Int), ⟨11, 2, 2, 5⟩, ⟨12, 3, 3, 5⟩][i].votes) ∧
      (∀ j, ∀ hj : j < i,
        [(⟨10, 1, 1, 2⟩ : Candidate Int), ⟨11, 2, 2, 5⟩, ⟨12, 3, 3, 5⟩][j].votes
          < [(⟨10, 1, 1, 2⟩ : Candidate Int), ⟨11, 2, 2, 5⟩, ⟨12, 3, 3, 5⟩][i].votes) ∧
      houghSelect [(⟨10, 1, 1, 2⟩ : Candidate Int), ⟨11, 2, 2, 5⟩, ⟨12, 3, 3, 5⟩] [⟨9, 9, 9, 4⟩]
        = some (if 0 < [(⟨10, 1, 1, 2⟩ : Candidate Int), ⟨11, 2, 2, 5⟩, ⟨12, 3, 3, 5⟩][i].votes
            then [(⟨10, 1, 1, 2⟩ : Candidate Int), ⟨11, 2, 2, 5⟩, ⟨12, 3, 3, 5⟩][i]
            else [(⟨9, 9, 9, 4⟩ : Candidate Int)][0]) :=
  ⟨by decide,
   hough_select_argmax_or_fallback
     [(⟨10, 1, 1, 2⟩ : Candidate Int), ⟨11, 2, 2, 5⟩, ⟨12, 3, 3, 5⟩] [⟨9, 9, 9, 4⟩]
     (by decide) (by decide)⟩

/-! ### Gradient engine: the stores of `ComputeGradientNative` -/

/-- The block loop and the scalar loop compute the same store for a pixel. -/
theorem blockLane_eq_scalarPixel {R : Type} (gray : Nat → Fin 256) (sqrtf : Int → R)
    (W S y x l : Nat) (hx : 1 ≤ x) :
    blockLane gray sqrtf W S y x l = scalarPixel gray sqrtf W S y (x + l) := by
  have e₁ : ∀ r : Nat, r + x - 1 + l = r + (x + l - 1) := fun r => by omega
  have e₂ : ∀ r : Nat, r + x + l = r + (x + l) := fun r => by omega
  have e₃ : ∀ r : Nat, r + x + 1 + l = r + (x + l + 1) := fun r => by omega
  have e₄ : y * W + x + l = y * W + (x + l) := by omega
  simp only [blockLane, scalarPixel, e₁, e₂, e₃, e₄, Store.mk.injEq, true_and]
  refine ⟨by ring, by ring, ?_⟩
  congr 1
  ring

theorem blockLoop_spec {R : Type} (gray : Nat → Fin 256) (sqrtf : Int → R) (W S y : Nat)
    (fuel x : Nat) (hx : 1 ≤ x) (hxW : x ≤ W - 1) :
    x ≤ (blockLoop gray sqrtf W S y fuel x).2 ∧
    (blockLoop gray sqrtf W S y fuel x).2 ≤ W - 1 ∧
    (W ≤ x + 8 * fuel → ¬ ((blockLoop gray sqrtf W S y fuel x).2 + 8 < W - 1)) ∧
    (blockLoop gray sqrtf W S y fuel x).1
      = (List.range' x ((blockLoop gray sqrtf W S y fuel x).2 - x)).map
          (scalarPixel gray sqrtf W S y) := by
  induction fuel generalizing x with
  | zero =>
    simp only [blockLoop]
    refine ⟨le_refl _, hxW, fun h => by omega, by simp⟩
  | succ fuel ih =>
    by_cases hc : x + 8 < W - 1
    · obtain ⟨h₁, h₂, h₃, h₄⟩ := ih (x + 8) (by omega) (by omega)
      simp only [blockLoop, if_pos hc]
      refine ⟨by omega, h₂, fun h => h₃ (by omega), ?_⟩
      rw [h₄]
      have hsplit : (blockLoop gray sqrtf W S y fuel (x + 8)).2 - x
          = ((blockLoop gray sqrtf W S y fuel (x + 8)).2 - (x + 8)) + 8 := by omega
      rw [hsplit, ← List.range'_append_1 x 8 _, List.map_append]
      congr 1
      rw [List.range'_eq_map_range, List.map_map]
      apply List.map_congr_left
      intro l _
      exact blockLane_eq_scalarPixel gray sqrtf W S y x l hx
    · simp only [blockLoop, if_neg hc]
      refine ⟨le_refl _, hxW, fun _ => hc, by simp⟩

/-- The bound `width` on the iterations of the block loop is never reached:
the loop stops because its condition fails. -/
theorem blockLoop_exits {R : Type} (gray : Nat → Fin 256) (sqrtf : Int → R) (W S y : Nat)
    (hW : 2 ≤ W) : ¬ ((blockLoop gray sqrtf W S y W 1).2 + 8 < W - 1) :=
  (blockLoop_spec gray sqrtf W S y W 1 (le_refl _) (by omega)).2.2.1 (by omega)

theorem range'_split (a b c : Nat) (hab : a ≤ b) (hbc : b ≤ c) :
    List.range' a (b - a) ++ List.range' b (c - b) = List.range' a (c - a) := by
  obtain ⟨k, rfl⟩ := Nat.exists_eq_add_of_le hab
  rw [Nat.add_sub_cancel_left, List.range'_append_1]
  congr 1
  omega

/-- Block loop and scalar loop together visit the columns `1 .. width - 2` once
each, in ascending order. -/
theorem rowStores_eq {R : Type} [NatCast R] (gray : Nat → Fin 256) (sqrtf : Int → R)
    (W S y : Nat) (hW : 2 ≤ W) :
    rowStores gray sqrtf W S y
      = [zeroStore (y * W + 0), zeroStore (y * W + (W - 1))]
        ++ (List.range' 1 (W - 2)).map (scalarPixel gray sqrtf W S y) := by
  obtain ⟨h₁, h₂, -, h₄⟩ := blockLoop_spec gray sqrtf W S y W 1 (le_refl _) (by omega)
  unfold rowStores
  rw [h₄, List.append_assoc, ← List.map_append, range'_split 1 _ (W - 1) h₁ h₂]
  rfl

/-! ### Gradient engine: every output cell is written once -/

theorem memsetRow_idx {R : Type} [NatCast R] (off width : Nat) :
    (memsetRow off width : List (Store R)).map Store.idx = List.range' off width := by
  unfold memsetRow
  rw [List.map_map]
  exact List.map_id _

theorem rowStores_idx {R : Type} [NatCast R] (gray : Nat → Fin 256) (sqrtf : Int → R)
    (W S y : Nat) (hW : 2 ≤ W) :
    (rowStores gray sqrtf W S y).map Store.idx
      = (y * W + 0) :: (y * W + (W - 1)) :: (List.range' 1 (W - 2)).map (fun x => y * W + x) := by
  rw [rowStores_eq gray sqrtf W S y hW, List.map_append, List.map_map]
  rfl

theorem rowStores_idx_range {R : Type} [NatCast R] (gray : Nat → Fin 256) (sqrtf : Int → R)
    (W S y : Nat) (hW : 2 ≤ W) (i : Nat)
    (hi : i ∈ (rowStores gray sqrtf W S y).map Store.idx) :
    y * W ≤ i ∧ i < y * W + W := by
  rw [rowStores_idx gray sqrtf W S y hW] at hi
  rcases List.mem_cons.mp hi with rfl | hi
  · omega
  rcases List.mem_cons.mp hi with rfl | hi
  · omega
  obtain ⟨x, hx, rfl⟩ := List.mem_map.mp hi
  rw [List.mem_range'_1] at hx
  omega

theorem rowStores_idx_nodup {R : Type} [NatCast R] (gray : Nat → Fin 256) (sqrtf : Int → R)
    (W S y : Nat) (hW : 2 ≤ W) :
    ((rowStores gray sqrtf W S y).map Store.idx).Nodup := by
  rw [rowStores_idx gray sqrtf W S y hW]
  refine List.nodup_cons.mpr ⟨?_, List.nodup_cons.mpr ⟨?_, ?_⟩⟩
  · intro h
    rcases List.mem_cons.mp h with h | h
    · omega
    · obtain ⟨x, hx, hxe⟩ := List.mem_map.mp h
      rw [List.mem_range'_1] at hx
      omega
  · intro h
    obtain ⟨x, hx, hxe⟩ := List.mem_map.mp h
    rw [List.mem_range'_1] at hx
    omega
  · exact (List.nodup_range' 1 (W - 2)).map (fun a b hab => by simpa using hab)

/-- No output cell is written twice. -/
theorem gradientStores_idx_nodup {R : Type} [NatCast R] (gray : Nat → Fin 256)
    (sqrtf : Int → R) (W H S : Nat) (hW : 2 ≤ W) (hH : 2 ≤ H) :
    ((gradientStores gray sqrtf W H S).map Store.idx).Nodup := by
  have hlast : W ≤ (H - 1) * W := Nat.le_mul_of_pos_left W (by omega)
  have hrow : ∀ y, y ∈ List.range' 1 (H - 2) → ∀ i,
      i ∈ (rowStores gray sqrtf W S y).map Store.idx → W ≤ i ∧ i < (H - 1) * W := by
    intro y hy i hi
    rw [List.mem_range'_1] at hy
    have hr := rowStores_idx_range gray sqrtf W S y hW i hi
    have h₁ : 1 * W ≤ y * W := Nat.mul_le_mul_right W hy.1
    have h₂ : (y + 1) * W ≤ (H - 1) * W := Nat.mul_le_mul_right W (by omega)
    rw [Nat.add_mul] at h₂
    omega
  unfold gradientStores
  rw [List.map_append, List.map_append, memsetRow_idx, memsetRow_idx, List.map_flatMap]
  refine List.nodup_append.mpr ⟨List.nodup_append.mpr ⟨List.nodup_range' _ _,
    List.nodup_range' _ _, ?_⟩, List.nodup_flatMap.mpr ⟨?_, ?_⟩, ?_⟩
  · intro i h₁ h₂
    rw [List.mem_range'_1] at h₁ h₂
    omega
  · intro y _
    exact rowStores_idx_nodup gray sqrtf W S y hW
  · refine List.Pairwise.imp_of_mem ?_ (List.pairwise_lt_range' 1 (H - 2))
    intro y y' _ _ hlt i h₁ h₂
    have hr := rowStores_idx_range gray sqrtf W S y hW i h₁
    have hr' := rowStores_idx_range gray sqrtf W S y' hW i h₂
    have h₃ : (y + 1) * W ≤ y' * W := Nat.mul_le_mul_right W hlt
    rw [Nat.add_mul] at h₃
    omega
  · intro i h₁ h₂
    obtain ⟨y, hy, hi⟩ := List.mem_flatMap.mp h₂
    have := hrow y hy i hi
    rcases List.mem_append.mp h₁ with h | h
    · rw [List.mem_range'_1] at h
      omega
    · rw [List.mem_range'_1] at h
      omega

/-! ### Gradient engine: the rasters after the call -/

theorem foldl_write_of_not_mem {R : Type} (tr : List (Store R)) (b : GradBuffers R) (i : Nat)
    (hi : i ∉ tr.map Store.idx) :
    (tr.foldl GradBuffers.write b).Dx i = b.Dx i ∧
    (tr.foldl GradBuffers.write b).Dy i = b.Dy i ∧
    (tr.foldl GradBuffers.write b).Mag i = b.Mag i := by
  induction tr generalizing b with
  | nil => exact ⟨rfl, rfl, rfl⟩
  | cons t tr ih =>
    rw [List.map_cons, List.mem_cons, not_or] at hi
    obtain ⟨h₁, h₂, h₃⟩ := ih (b.write t) hi.2
    rw [List.foldl_cons, h₁, h₂, h₃]
    simp only [GradBuffers.write]
    exact ⟨Function.update_noteq hi.1 _ _, Function.update_noteq hi.1 _ _,
      Function.update_noteq hi.1 _ _⟩

/-- When no cell is written twice, a cell holds what the store to it wrote. -/
theorem foldl_write_of_mem {R : Type} (tr : List (Store R)) (b : GradBuffers R)
    (hnd : (tr.map Store.idx).Nodup) (s : Store R) (hs : s ∈ tr) :
    (tr.foldl GradBuffers.write b).Dx s.idx = s.gx ∧
    (tr.foldl GradBuffers.write b).Dy s.idx = s.gy ∧
    (tr.foldl GradBuffers.write b).Mag s.idx = s.mag := by
  induction tr generalizing b with
  | nil => exact absurd hs (List.not_mem_nil _)
  | cons t tr ih =>
    rw [List.map_cons, List.nodup_cons] at hnd
    rw [List.foldl_cons]
    rcases List.mem_cons.mp hs with rfl | hs
    · obtain ⟨h₁, h₂, h₃⟩ := foldl_write_of_not_mem tr (b.write s) s.idx hnd.1
      rw [h₁, h₂, h₃]
      simp only [GradBuffers.write, Function.update_same, and_self]
    · exact ih (b.write t) hnd.2 hs

theorem scalarPixel_mem_gradientStores {R : Type} [NatCast R] (gray : Nat → Fin 256)
    (sqrtf : Int → R) (W H S x y : Nat) (hW : 2 ≤ W)
    (hx₁ : 1 ≤ x) (hx₂ : x ≤ W - 2) (hy₁ : 1 ≤ y) (hy₂ : y ≤ H - 2) :
    scalarPixel gray sqrtf W S y x ∈ gradientStores gray sqrtf W H S := by
  unfold gradientStores
  refine List.mem_append_right _ (List.mem_flatMap.mpr ⟨y, ?_, ?_⟩)
  · rw [List.mem_range'_1]; omega
  · rw [rowStores_eq gray sqrtf W S y hW]
    refine List.mem_append_right _ (List.mem_map.mpr ⟨x, ?_, rfl⟩)
    rw [List.mem_range'_1]; omega

theorem zeroStore_mem_gradientStores {R : Type} [NatCast R] (gray : Nat → Fin 256)
    (sqrtf : Int → R) (W H S x y : Nat) (hW : 2 ≤ W) (hH : 2 ≤ H) (hx : x < W) (hy : y < H)
    (hb : y = 0 ∨ y = H - 1 ∨ x = 0 ∨ x = W - 1) :
    (zeroStore (y * W + x) : Store R) ∈ gradientStores gray sqrtf W H S := by
  unfold gradientStores
  by_cases h0 : y = 0
  · refine List.mem_append_left _ (List.mem_append_left _ (List.mem_map.mpr ⟨y * W + x, ?_, rfl⟩))
    rw [List.mem_range'_1, h0]; omega
  by_cases h1 : y = H - 1
  · refine List.mem_append_left _ (List.mem_append_right _ (List.mem_map.mpr ⟨y * W + x, ?_, rfl⟩))
    rw [List.mem_range'_1, h1]; omega
  refine List.mem_append_right _ (List.mem_flatMap.mpr ⟨y, ?_, ?_⟩)
  · rw [List.mem_range'_1]; omega
  · rw [rowStores_eq gray sqrtf W S y hW]
    refine List.mem_append_left _ ?_
    rcases hb with hb | hb | hb | hb
    · exact absurd hb h0
    · exact absurd hb h1
    · rw [hb]; exact List.mem_cons_self _ _
    · rw [hb]; exact List.mem_cons_of_mem _ (List.mem_cons_self _ _)

/-- The three rasters at an interior pixel. -/
theorem gradient_interior_value {R : Type} [NatCast R] (gray : Nat → Fin 256)
    (sqrtf : Int → R) (W H S : Nat) (init : GradBuffers R) (x y : Nat) (hW : 2 ≤ W) (hH : 2 ≤ H)
    (hx₁ : 1 ≤ x) (hx₂ : x ≤ W - 2) (hy₁ : 1 ≤ y) (hy₂ : y ≤ H - 2) :
    (ComputeGradientNative gray sqrtf W H S init).Dx (y * W + x) = sobelX gray S x y ∧
    (ComputeGradientNative gray sqrtf W H S init).Dy (y * W + x) = sobelY gray S x y ∧
    (ComputeGradientNative gray sqrtf W H S init).Mag (y * W + x)
      = sqrtf (sobelX gray S x y * sobelX gray S x y + sobelY gray S x y * sobelY gray S x y) := by
  have h := foldl_write_of_mem (gradientStores gray sqrtf W H S) init
    (gradientStores_idx_nodup gray sqrtf W H S hW hH) (scalarPixel gray sqrtf W S y x)
    (scalarPixel_mem_gradientStores gray sqrtf W H S x y hW hx₁ hx₂ hy₁ hy₂)
  have hgx : (scalarPixel gray sqrtf W S y x).gx = sobelX gray S x y := by
    simp only [scalarPixel, sobelX, srcAt]; ring
  have hgy : (scalarPixel gray sqrtf W S y x).gy = sobelY gray S x y := by
    simp only [scalarPixel, sobelY, srcAt]; ring
  have hmag : (scalarPixel gray sqrtf W S y x).mag
      = sqrtf ((scalarPixel gray sqrtf W S y x).gx * (scalarPixel gray sqrtf W S y x).gx
          + (scalarPixel gray sqrtf W S y x).gy * (scalarPixel gray sqrtf W S y x).gy) := rfl
  rw [hmag, hgx, hgy] at h
  exact h

/-- The three rasters at a border pixel. -/
theorem gradient_border_value {R : Type} [NatCast R] (gray : Nat → Fin 256)
    (sqrtf : Int → R) (W H S : Nat) (init : GradBuffers R) (x y : Nat) (hW : 2 ≤ W) (hH : 2 ≤ H)
    (hx : x < W) (hy : y < H) (hb : y = 0 ∨ y = H - 1 ∨ x = 0 ∨ x = W - 1) :
    (ComputeGradientNative gray sqrtf W H S init).Dx (y * W + x) = 0 ∧
    (ComputeGradientNative gray sqrtf W H S init).Dy (y * W + x) = 0 ∧
    (ComputeGradientNative gray sqrtf W H S init).Mag (y * W + x) = ((0 : Nat) : R) :=
  foldl_write_of_mem (gradientStores gray sqrtf W H S) init
    (gradientStores_idx_nodup gray sqrtf W H S hW hH) (zeroStore (y * W + x))
    (zeroStore_mem_gradientStores gray sqrtf W H S x y hW hH hx hy hb)

/-! ### Claims on `ComputeGradientNative` -/

/-- C7: for `W, H ≥ 3`, every stride `S` (in particular `S ≥ W`), every 8-bit
source and an interior pixel `(x, y)`, `Dx[y*W+x]` and
`Dy[y*W+x]` are the Sobel sums of the specification as exact integers; exactly
one store of the whole call goes to index `y*W+x`; and a lane of an 8-wide
block that covers column `x` computes the same store as the scalar loop. -/
theorem compute_gradient_interior_sobel {R : Type} [NatCast R] (gray : Nat → Fin 256)
    (sqrtf : Int → R) (W H S : Nat) (init : GradBuffers R) (x y : Nat)
    (hW : 3 ≤ W) (hH : 3 ≤ H)
    (hx₁ : 1 ≤ x) (hx₂ : x ≤ W - 2) (hy₁ : 1 ≤ y) (hy₂ : y ≤ H - 2) :
    (ComputeGradientNative gray sqrtf W H S init).Dx (y * W + x)
      = (srcAt gray S (x + 1) (y - 1) - srcAt gray S (x - 1) (y - 1))
        + 2 * (srcAt gray S (x + 1) y - srcAt gray S (x - 1) y)
        + (srcAt gray S (x + 1) (y + 1) - srcAt gray S (x - 1) (y + 1)) ∧
    (ComputeGradientNative gray sqrtf W H S init).Dy (y * W + x)
      = (srcAt gray S (x - 1) (y + 1) - srcAt gray S (x - 1) (y - 1))
        + 2 * (srcAt gray S x (y + 1) - srcAt gray S x (y - 1))
        + (srcAt gray S (x + 1) (y + 1) - srcAt gray S (x + 1) (y - 1)) ∧
    ((gradientStores gray sqrtf W H S).map Store.idx).count (y * W + x) = 1 ∧
    ∀ x₀ l, 1 ≤ x₀ → x₀ + l = x →
      blockLane gray sqrtf W S y x₀ l = scalarPixel gray sqrtf W S y x := by
  obtain ⟨h₁, h₂, -⟩ := gradient_interior_value gray sqrtf W H S init x y (by omega) (by omega)
    hx₁ hx₂ hy₁ hy₂
  refine ⟨h₁, h₂, ?_, ?_⟩
  · refine List.count_eq_one_of_mem
      (gradientStores_idx_nodup gray sqrtf W H S (by omega) (by omega)) ?_
    exact List.mem_map.mpr ⟨scalarPixel gray sqrtf W S y x,
      scalarPixel_mem_gradientStores gray sqrtf W H S x y (by omega) hx₁ hx₂ hy₁ hy₂, rfl⟩
  · intro x₀ l hx₀ hl
    rw [← hl]
    exact blockLane_eq_scalarPixel gray sqrtf W S y x₀ l hx₀

/-- C8: for `W, H ≥ 3`, every stride `S` (in particular `S ≥ W`) and every
source image, each of `Dx`, `Dy`, `Mag` is zero at every
index `y*W+x` of the first row, the last row, the first column and the last
column. -/
theorem compute_gradient_border_zero {R : Type} [NatCast R] (gray : Nat → Fin 256)
    (sqrtf : Int → R) (W H S : Nat) (init : GradBuffers R) (x y : Nat)
    (hW : 3 ≤ W) (hH : 3 ≤ H) (hx : x < W) (hy : y < H)
    (hb : y = 0 ∨ y = H - 1 ∨ x = 0 ∨ x = W - 1) :
    (ComputeGradientNative gray sqrtf W H S init).Dx (y * W + x) = 0 ∧
    (ComputeGradientNative gray sqrtf W H S init).Dy (y * W + x) = 0 ∧
    (ComputeGradientNative gray sqrtf W H S init).Mag (y * W + x) = ((0 : Nat) : R) :=
  gradient_border_value gray sqrtf W H S init x y (by omega) (by omega) hx hy hb
/-- Witness for C7: pixel `(3, 1)` of a 12×3 ramp image lies in the 8-wide
block that starts at column 1. -/
theorem compute_gradient_interior_sobel_witness :
    (blockLoop imageRamp natSqrt 12 12 1 12 1).2 = 9 ∧
    (ComputeGradientNative imageRamp natSqrt 12 3 12 zeroBuffers).Dx (1 * 12 + 3) = 8 ∧
    (ComputeGradientNative imageRamp natSqrt 12 3 12 zeroBuffers).Dx (1 * 12 + 3)
      = (srcAt imageRamp 12 (3 + 1) (1 - 1) - srcAt imageRamp 12 (3 - 1) (1 - 1))
        + 2 * (srcAt imageRamp 12 (3 + 1) 1 - srcAt imageRamp 12 (3 - 1) 1)
        + (srcAt imageRamp 12 (3 + 1) (1 + 1) - srcAt imageRamp 12 (3 - 1) (1 + 1)) ∧
    ((gradientStores imageRamp natSqrt 12 3 12).map Store.idx).count (1 * 12 + 3) = 1 :=
  ⟨by decide, by decide,
   (compute_gradient_interior_sobel imageRamp natSqrt 12 3 12 zeroBuffers 3 1
      (by decide) (by decide) (by decide) (by decide) (by decide) (by decide)).1,
   (compute_gradient_interior_sobel imageRamp natSqrt 12 3 12 zeroBuffers 3 1
      (by decide) (by decide) (by decide) (by decide) (by decide) (by decide)).2.2.1⟩

/-- Witness for C8: the first column of row 1 of the 12×3 ramp image. -/
theorem compute_gradient_border_zero_witness :
    (ComputeGradientNative imageRamp natSqrt 12 3 12 zeroBuffers).Dx (1 * 12 + 0) = 0 ∧
    (ComputeGradientNative imageRamp natSqrt 12 3 12 zeroBuffers).Dy (1 * 12 + 0) = 0 ∧
    (ComputeGradientNative imageRamp natSqrt 12 3 12 zeroBuffers).Mag (1 * 12 + 0)
      = ((0 : Nat) : Nat) :=
  compute_gradient_border_zero imageRamp natSqrt 12 3 12 zeroBuffers 0 1
    (by decide) (by decide) (by decide) (by decide) (Or.inr (Or.inr (Or.inl rfl)))

/-- C9, as stated, fails: on the image of scenario G1 the code gives
`Dx(1,2) = +510`, `Dx(3,2) = -510`, `Dy(2,1) = +510` and `Dy(2,3) = -510`, the
opposite signs of the scenario's expectations. -/
theorem compute_gradient_scenario_G1_counterexample :
    (ComputeGradientNative imageG1 natSqrt 5 5 5 zeroBuffers).Dx (2 * 5 + 1) = 510 ∧
    (ComputeGradientNative imageG1 natSqrt 5 5 5 zeroBuffers).Dx (2 * 5 + 3) = -510 ∧
    (ComputeGradientNative imageG1 natSqrt 5 5 5 zeroBuffers).Dy (1 * 5 + 2) = 510 ∧
    (ComputeGradientNative imageG1 natSqrt 5 5 5 zeroBuffers).Dy (3 * 5 + 2) = -510 ∧
    ¬ ((ComputeGradientNative imageG1 natSqrt 5 5 5 zeroBuffers).Dx (1 * 5 + 2) = 0 ∧
       (ComputeGradientNative imageG1 natSqrt 5 5 5 zeroBuffers).Dx (2 * 5 + 1) = -510 ∧
       (ComputeGradientNative imageG1 natSqrt 5 5 5 zeroBuffers).Dx (2 * 5 + 3) = 510 ∧
       (ComputeGradientNative imageG1 natSqrt 5 5 5 zeroBuffers).Dy (1 * 5 + 2) = -510 ∧
       (ComputeGradientNative imageG1 natSqrt 5 5 5 zeroBuffers).Dy (3 * 5 + 2) = 510 ∧
       (ComputeGradientNative imageG1 natSqrt 5 5 5 zeroBuffers).Mag (2 * 5 + 1) = 510) := by
  decide

/-- C9 (amended): on the image of scenario G1, `Dx(2,1) = 0`, `Dx(1,2) = +510`,
`Dx(3,2) = -510`, `Dy(2,1) = +510`, `Dy(2,3) = -510`, `Mag(1,2) = 510` (for a
`sqrtf` that is exact on `510²`), and the three rasters are zero on all border
cells; `F(x,y)` is `F[y*5+x]`. -/
theorem compute_gradient_scenario_G1 {R : Type} [NatCast R] (sqrtf : Int → R)
    (init : GradBuffers R) (hsqrt : sqrtf (510 * 510) = ((510 : Nat) : R)) :
    (ComputeGradientNative imageG1 sqrtf 5 5 5 init).Dx (1 * 5 + 2) = 0 ∧
    (ComputeGradientNative imageG1 sqrtf 5 5 5 init).Dx (2 * 5 + 1) = 510 ∧
    (ComputeGradientNative imageG1 sqrtf 5 5 5 init).Dx (2 * 5 + 3) = -510 ∧
    (ComputeGradientNative imageG1 sqrtf 5 5 5 init).Dy (1 * 5 + 2) = 510 ∧
    (ComputeGradientNative imageG1 sqrtf 5 5 5 init).Dy (3 * 5 + 2) = -510 ∧
    (ComputeGradientNative imageG1 sqrtf 5 5 5 init).Mag (2 * 5 + 1) = ((510 : Nat) : R) ∧
    ∀ x y, x < 5 → y < 5 → (y = 0 ∨ y = 4 ∨ x = 0 ∨ x = 4) →
      (ComputeGradientNative imageG1 sqrtf 5 5 5 init).Dx (y * 5 + x) = 0 ∧
      (ComputeGradientNative imageG1 sqrtf 5 5 5 init).Dy (y * 5 + x) = 0 ∧
      (ComputeGradientNative imageG1 sqrtf 5 5 5 init).Mag (y * 5 + x) = ((0 : Nat) : R) := by
  have h21 := gradient_interior_value imageG1 sqrtf 5 5 5 init 2 1
    (by decide) (by decide) (by decide) (by decide) (by decide) (by decide)
  have h12 := gradient_interior_value imageG1 sqrtf 5 5 5 init 1 2
    (by decide) (by decide) (by decide) (by decide) (by decide) (by decide)
  have h32 := gradient_interior_value imageG1 sqrtf 5 5 5 init 3 2
    (by decide) (by decide) (by decide) (by decide) (by decide) (by decide)
  have h23 := gradient_interior_value imageG1 sqrtf 5 5 5 init 2 3
    (by decide) (by decide) (by decide) (by decide) (by decide) (by decide)
  have e₁ : sobelX imageG1 5 2 1 = 0 := by decide
  have e₂ : sobelX imageG1 5 1 2 = 510 := by decide
  have e₃ : sobelX imageG1 5 3 2 = -510 := by decide
  have e₄ : sobelY imageG1 5 2 1 = 510 := by decide
  have e₅ : sobelY imageG1 5 2 3 = -510 := by decide
  have e₆ : sobelX imageG1 5 1 2 * sobelX imageG1 5 1 2
      + sobelY imageG1 5 1 2 * sobelY imageG1 5 1 2 = 510 * 510 := by decide
  refine ⟨h21.1.trans e₁, h12.1.trans e₂, h32.1.trans e₃, h21.2.1.trans e₄, h23.2.1.trans e₅,
    ?_, ?_⟩
  · rw [h12.2.2, e₆, hsqrt]
  · intro x y hx hy hb
    exact gradient_border_value imageG1 sqrtf 5 5 5 init x y (by decide) (by decide) hx hy hb

/-- Witness for C9 (amended): the natural-number square root is exact on `510²`. -/
theorem compute_gradient_scenario_G1_witness :
    natSqrt (510 * 510) = ((510 : Nat) : Nat) ∧
    (ComputeGradientNative imageG1 natSqrt 5 5 5 zeroBuffers).Dx (2 * 5 + 1) = 510 ∧
    (ComputeGradientNative imageG1 natSqrt 5 5 5 zeroBuffers).Mag (2 * 5 + 1)
      = ((510 : Nat) : Nat) :=
  ⟨Nat.sqrt_eq 510,
   (compute_gradient_scenario_G1 natSqrt zeroBuffers (Nat.sqrt_eq 510)).2.1,
   (compute_gradient_scenario_G1 natSqrt zeroBuffers (Nat.sqrt_eq 510)).2.2.2.2.2.1⟩

/-- C10, as stated, fails: for the 3×3 image whose only non-zero pixel is
`(2, 1)` with value 1, the centre of `Dx` is `2`, not `0`. -/
theorem compute_gradient_3x3_counterexample :
    (ComputeGradientNative imageDot3 natSqrt 3 3 3 zeroBuffers).Dx (1 * 3 + 1) = 2 ∧
    (ComputeGradientNative imageDot3 natSqrt 3 3 3 zeroBuffers).Dx (1 * 3 + 1) ≠ 0 := by
  decide

/-- C10 (amended): for every 3×3 source image and every stride, `Dx`, `Dy` and
`Mag` are zero at the eight border positions, and the centre holds the Sobel
response of the eight surrounding pixels: `Dx(1,1)`, `Dy(1,1)` are the Sobel
sums and `Mag(1,1) = sqrtf(Dx(1,1)² + Dy(1,1)²)`. -/
theorem compute_gradient_3x3 {R : Type} [NatCast R] (gray : Nat → Fin 256) (sqrtf : Int → R)
    (S : Nat) (init : GradBuffers R) :
    (∀ x y, x < 3 → y < 3 → ¬ (x = 1 ∧ y = 1) →
      (ComputeGradientNative gray sqrtf 3 3 S init).Dx (y * 3 + x) = 0 ∧
      (ComputeGradientNative gray sqrtf 3 3 S init).Dy (y * 3 + x) = 0 ∧
      (ComputeGradientNative gray sqrtf 3 3 S init).Mag (y * 3 + x) = ((0 : Nat) : R)) ∧
    (ComputeGradientNative gray sqrtf 3 3 S init).Dx (1 * 3 + 1)
      = (srcAt gray S 2 0 - srcAt gray S 0 0) + 2 * (srcAt gray S 2 1 - srcAt gray S 0 1)
        + (srcAt gray S 2 2 - srcAt gray S 0 2) ∧
    (ComputeGradientNative gray sqrtf 3 3 S init).Dy (1 * 3 + 1)
      = (srcAt gray S 0 2 - srcAt gray S 0 0) + 2 * (srcAt gray S 1 2 - srcAt gray S 1 0)
        + (srcAt gray S 2 2 - srcAt gray S 2 0) ∧
    (ComputeGradientNative gray sqrtf 3 3 S init).Mag (1 * 3 + 1)
      = sqrtf ((ComputeGradientNative gray sqrtf 3 3 S init).Dx (1 * 3 + 1)
                * (ComputeGradientNative gray sqrtf 3 3 S init).Dx (1 * 3 + 1)
              + (ComputeGradientNative gray sqrtf 3 3 S init).Dy (1 * 3 + 1)
                * (ComputeGradientNative gray sqrtf 3 3 S init).Dy (1 * 3 + 1)) := by
  obtain ⟨h₁, h₂, h₃⟩ := gradient_interior_value gray sqrtf 3 3 S init 1 1
    (by decide) (by decide) (by decide) (by decide) (by decide) (by decide)
  refine ⟨?_, h₁, h₂, ?_⟩
  · intro x y hx hy hne
    exact gradient_border_value gray sqrtf 3 3 S init x y (by decide) (by decide) hx hy
      (by omega)
  · rw [h₃, h₁, h₂]

/-! ### Merging top-K lists -/

theorem insertAll_nil {R : Type} (S : List (Candidate R)) : insertAll S [] = S := rfl

theorem insertAll_cons {R : Type} (S : List (Candidate R)) (c : Candidate R)
    (B : List (Candidate R)) : insertAll S (c :: B) = insertAll (insertAfterGE c S) B := rfl

theorem insertAll_append {R : Type} (S B C : List (Candidate R)) :
    insertAll S (B ++ C) = insertAll (insertAll S B) C := by
  simp [insertAll, List.foldl_append]

/-- Stable sort of `A ++ B`: sort `A`, then insert the entries of `B` in order. -/
theorem insertionSort_append {R : Type} (A B : List (Candidate R)) :
    (A ++ B).insertionSort votesGE = insertAll (A.insertionSort votesGE) B := by
  induction B using List.reverseRecOn with
  | nil => rw [List.append_nil]; rfl
  | append_singleton B c ih =>
    rw [← List.append_assoc, insertionSort_append_singleton, ih, insertAll_append]
    rfl

/-- Two insertions commute when the votes differ. -/
theorem insertAfterGE_comm {R : Type} (c d : Candidate R) (h : d.votes < c.votes)
    (l : List (Candidate R)) :
    insertAfterGE d (insertAfterGE c l) = insertAfterGE c (insertAfterGE d l) := by
  induction l with
  | nil =>
    simp only [insertAfterGE_nil, insertAfterGE_cons]
    rw [if_pos (le_of_lt h), if_neg (not_le.mpr h)]
  | cons b l ih =>
    simp only [insertAfterGE_cons]
    by_cases h₁ : c.votes ≤ b.votes
    · have h₂ : d.votes ≤ b.votes := by omega
      simp only [if_pos h₁, if_pos h₂, insertAfterGE_cons, ih]
    · by_cases h₂ : d.votes ≤ b.votes
      · simp only [if_neg h₁, if_pos h₂, insertAfterGE_cons, if_pos (le_of_lt h)]
      · simp only [if_neg h₁, if_neg h₂, insertAfterGE_cons, if_pos (le_of_lt h),
          if_neg (not_le.mpr h), if_true, if_false]

theorem insertAll_insertAfterGE_of_lt {R : Type} (c : Candidate R) (D : List (Candidate R))
    (hD : ∀ d ∈ D, d.votes < c.votes) (S : List (Candidate R)) :
    insertAll (insertAfterGE c S) D = insertAfterGE c (insertAll S D) := by
  induction D generalizing S with
  | nil => rfl
  | cons d D ih =>
    rw [insertAll_cons, insertAll_cons,
      insertAfterGE_comm c d (hD d (List.mem_cons_self _ _)),
      ih (fun x hx => hD x (List.mem_cons_of_mem _ hx))]

/-- Inserting a sorted list with one more entry put in its place. -/
theorem insertAll_insertAfterGE {R : Type} (c : Candidate R) (Y : List (Candidate R))
    (hY : Y.Pairwise votesGE) (S : List (Candidate R)) :
    insertAll S (insertAfterGE c Y) = insertAfterGE c (insertAll S Y) := by
  induction Y generalizing S with
  | nil => rfl
  | cons b Y ih =>
    obtain ⟨hb, hY'⟩ := List.pairwise_cons.mp hY
    rw [insertAfterGE_cons]
    by_cases h : c.votes ≤ b.votes
    · rw [if_pos h, insertAll_cons, insertAll_cons, ih hY']
    · rw [if_neg h, insertAll_cons]
      refine insertAll_insertAfterGE_of_lt c (b :: Y) ?_ S
      intro d hd
      rcases List.mem_cons.mp hd with rfl | hd
      · omega
      · have : d.votes ≤ b.votes := hb d hd
        omega

/-- Sorting a part first does not change the stable sort of the whole. -/
theorem insertionSort_append_insertionSort {R : Type} (A B : List (Candidate R)) :
    (A ++ B.insertionSort votesGE).insertionSort votesGE = (A ++ B).insertionSort votesGE := by
  induction B using List.reverseRecOn with
  | nil => rfl
  | append_singleton B c ih =>
    rw [insertionSort_append_singleton, ← List.append_assoc, insertionSort_append_singleton,
      ← ih, insertionSort_append, insertionSort_append,
      insertAll_insertAfterGE c _ (sorted_insertionSort_votesGE B)]

theorem insertAll_perm {R : Type} (S B : List (Candidate R)) : (insertAll S B).Perm (S ++ B) := by
  induction B generalizing S with
  | nil => rw [List.append_nil]; exact List.Perm.refl _
  | cons c B ih =>
    rw [insertAll_cons]
    refine (ih (insertAfterGE c S)).trans ?_
    refine ((insertAfterGE_perm c S).append_right B).trans ?_
    exact (List.perm_middle).symm

theorem insertAll_length {R : Type} (S B : List (Candidate R)) :
    (insertAll S B).length = S.length + B.length := by
  rw [(insertAll_perm S B).length_eq, List.length_append]

/-- In a list sorted by votes descending that has at least `k` entries with
`m` votes or more, the first `k` entries have `m` votes or more. -/
theorem take_votes_ge_of_countP {R : Type} (m : Int) (S : List (Candidate R))
    (hS : S.Pairwise votesGE) (k : Nat)
    (hk : k ≤ S.countP (fun x => decide (m ≤ x.votes))) :
    ∀ x ∈ S.take k, m ≤ x.votes := by
  induction S generalizing k with
  | nil => intro x hx; simp at hx
  | cons b S ih =>
    obtain ⟨hb, hS'⟩ := List.pairwise_cons.mp hS
    cases k with
    | zero => intro x hx; simp at hx
    | succ k =>
      by_cases hm : m ≤ b.votes
      · rw [List.countP_cons_of_pos _ S (by simpa using hm)] at hk
        intro x hx
        rw [List.take_succ_cons] at hx
        rcases List.mem_cons.mp hx with rfl | hx
        · exact hm
        · exact ih hS' k (by omega) x hx
      · have hz : S.countP (fun x => decide (m ≤ x.votes)) = 0 := by
          rw [List.countP_eq_zero]
          intro a ha
          have : a.votes ≤ b.votes := hb a ha
          simp only [decide_eq_true_eq]
          omega
        rw [List.countP_cons_of_neg _ S (by simpa using hm), hz] at hk
        omega

/-- An entry with no more votes than the first `k` entries does not change them. -/
theorem take_insertAfterGE_of_le {R : Type} (c : Candidate R) (S : List (Candidate R))
    (k : Nat) (hlen : k ≤ S.length) (h : ∀ x ∈ S.take k, c.votes ≤ x.votes) :
    (insertAfterGE c S).take k = S.take k := by
  induction S generalizing k with
  | nil =>
    have : k = 0 := by simpa using hlen
    rw [this]; rfl
  | cons b S ih =>
    cases k with
    | zero => rfl
    | succ k =>
      rw [List.take_succ_cons] at h
      rw [insertAfterGE_cons, if_pos (h b (List.mem_cons_self _ _)), List.take_succ_cons,
        List.take_succ_cons,
        ih k (by simpa using hlen) (fun x hx => h x (List.mem_cons_of_mem _ hx))]

theorem take_insertAll_of_le {R : Type} (D S : List (Candidate R)) (k : Nat)
    (hlen : k ≤ S.length) (h : ∀ d ∈ D, ∀ x ∈ S.take k, d.votes ≤ x.votes) :
    (insertAll S D).take k = S.take k := by
  induction D generalizing S with
  | nil => rfl
  | cons d D ih =>
    have hd := take_insertAfterGE_of_le d S k hlen (h d (List.mem_cons_self _ _))
    rw [insertAll_cons, ih (insertAfterGE d S) (by rw [insertAfterGE_length]; omega) ?_, hd]
    intro d' hd' x hx
    rw [hd] at hx
    exact h d' (List.mem_cons_of_mem _ hd') x hx

/-- The first `k` entries after a series of insertions depend only on the
first `k` entries before it. -/
theorem take_insertAll_congr {R : Type} (B S₁ S₂ : List (Candidate R)) (k : Nat)
    (h : S₁.take k = S₂.take k) : (insertAll S₁ B).take k = (insertAll S₂ B).take k := by
  induction B generalizing S₁ S₂ with
  | nil => exact h
  | cons c B ih =>
    rw [insertAll_cons, insertAll_cons]
    apply ih
    rw [← take_insertAfterGE_take c k S₁, ← take_insertAfterGE_take c k S₂, h]

/-- Only the first `k` entries of a sorted list matter for the first `k`
entries of the stable sort of `A` followed by that list. -/
theorem take_insertionSort_append_take {R : Type} (A Y : List (Candidate R))
    (hY : Y.Pairwise votesGE) (k : Nat) :
    ((A ++ Y.take k).insertionSort votesGE).take k
      = ((A ++ Y).insertionSort votesGE).take k := by
  by_cases hlen : Y.length ≤ k
  · rw [List.take_of_length_le hlen]
  · have hk : (Y.take k).length = k := by rw [List.length_take]; omega
    conv_rhs => rw [← List.take_append_drop k Y, ← List.append_assoc, insertionSort_append]
    symm
    apply take_insertAll_of_le
    · rw [List.length_insertionSort, List.length_append]; omega
    · intro d hd
      apply take_votes_ge_of_countP d.votes _ (sorted_insertionSort_votesGE _)
      rw [(List.perm_insertionSort votesGE (A ++ Y.take k)).countP_eq, List.countP_append]
      have : (Y.take k).countP (fun x => decide (d.votes ≤ x.votes)) = (Y.take k).length := by
        rw [List.countP_eq_length]
        intro a ha
        have : votesGE a d := List.Sorted.rel_of_mem_take_of_mem_drop hY ha hd
        simpa using this
      omega

/-- Offering a thread-local list to the global list has the effect of
offering the per-angle results that thread has seen. -/
theorem take_insertionSort_append_topK {R : Type} [Zero R] (topK : Nat)
    (X s : List (Candidate R)) :
    (((List.replicate topK Candidate.zero ++ X)
        ++ ((List.replicate topK Candidate.zero ++ s).insertionSort votesGE).take topK).insertionSort
          votesGE).take topK
      = ((List.replicate topK Candidate.zero ++ (X ++ s)).insertionSort votesGE).take topK := by
  rw [take_insertionSort_append_take _ _ (sorted_insertionSort_votesGE _),
    insertionSort_append_insertionSort, ← List.append_assoc, insertionSort_append,
    ← List.append_assoc, insertionSort_append _ s]
  apply take_insertAll_congr
  rw [insertionSort_append]
  apply take_insertAll_of_le
  · rw [List.length_insertionSort, List.length_append, List.length_replicate]; omega
  · intro d hd
    rw [List.eq_of_mem_replicate hd]
    apply take_votes_ge_of_countP _ _ (sorted_insertionSort_votesGE _)
    rw [(List.perm_insertionSort votesGE _).countP_eq, List.countP_append]
    have : (List.replicate topK (Candidate.zero : Candidate R)).countP
        (fun x => decide ((Candidate.zero : Candidate R).votes ≤ x.votes)) = topK := by
      have h := (List.countP_eq_length (l := List.replicate topK (Candidate.zero : Candidate R))
        (p := fun x => decide ((Candidate.zero : Candidate R).votes ≤ x.votes))).mpr
        (fun a ha => by rw [List.eq_of_mem_replicate ha]; simp)
      rw [h, List.length_replicate]
    omega

theorem houghWorker_eq_topKOfSeq {R : Type} [Zero R] (peak : Nat → Candidate R) (topK : Nat)
    (angles : List Nat) : houghWorker peak topK angles = topKOfSeq topK (angles.map peak) := by
  unfold houghWorker topKOfSeq
  rw [List.foldl_map]

theorem foldl_topKInsert_topKOfSeq {R : Type} [Zero R] (topK : Nat) (hK : 1 ≤ topK)
    (seqs : List (List (Candidate R))) (X : List (Candidate R)) :
    ((seqs.map (topKOfSeq topK)).flatten).foldl (topKInsert topK)
        (((List.replicate topK Candidate.zero ++ X).insertionSort votesGE).take topK)
      = ((List.replicate topK Candidate.zero ++ (X ++ seqs.flatten)).insertionSort
          votesGE).take topK := by
  induction seqs generalizing X with
  | nil => simp
  | cons s rest ih =>
    rw [List.map_cons, List.flatten_cons, List.foldl_append,
      foldl_topKInsert_take_insertionSort topK hK _ _ (by simp),
      topKOfSeq_eq_take_insertionSort topK hK s, take_insertionSort_append_topK, ih,
      List.flatten_cons, List.append_assoc]

/-- The merged list is the list a single worker builds from the per-angle
results taken thread by thread. -/
theorem houghCoarse_eq_topKOfSeq {R : Type} [Zero R] (peak : Nat → Candidate R) (topK : Nat)
    (hK : 1 ≤ topK) (sched : List (List Nat)) :
    houghCoarse peak topK sched = topKOfSeq topK (sched.flatten.map peak) := by
  have hw : houghWorker peak topK = fun w => topKOfSeq topK (w.map peak) := by
    funext w; exact houghWorker_eq_topKOfSeq peak topK w
  have hz : (List.replicate topK (Candidate.zero : Candidate R))
      = ((List.replicate topK Candidate.zero ++ []).insertionSort votesGE).take topK := by
    rw [List.append_nil, List.Sorted.insertionSort_eq (replicate_zero_sorted topK),
      List.take_of_length_le (by simp)]
  unfold houghCoarse houghMerge
  rw [← List.foldl_flatten, hw]
  have hmap : List.map (fun w => topKOfSeq topK (List.map peak w)) sched
      = (sched.map (List.map peak)).map (topKOfSeq topK) := by
    rw [List.map_map]; rfl
  rw [hmap, hz, foldl_topKInsert_topKOfSeq topK hK, List.nil_append,
    topKOfSeq_eq_take_insertionSort topK hK, List.map_flatten]

/-- When results with a positive vote have pairwise different votes, the
specified top-K list does not depend on the order of the results. -/
theorem topKStable_perm {R : Type} [Zero R] (topK : Nat) (X X' : List (Candidate R))
    (hperm : X.Perm X')
    (hd : ∀ a ∈ X, ∀ b ∈ X, 0 < a.votes → a.votes = b.votes → a = b) :
    topKStable topK X = topKStable topK X' := by
  have hp : (X.filter (fun c => 0 < c.votes)).Perm (X'.filter (fun c => 0 < c.votes)) :=
    hperm.filter _
  have hsorted : ∀ Y : List (Candidate R), Y.Perm X →
      ((Y.filter (fun c => 0 < c.votes)).insertionSort votesGE).Sorted votesGTOrEq := by
    intro Y hY
    refine List.Pairwise.imp_of_mem ?_ (sorted_insertionSort_votesGE _)
    intro a b ha hb hab
    have ha' := List.mem_filter.mp ((List.mem_insertionSort votesGE).mp ha)
    have hb' := List.mem_filter.mp ((List.mem_insertionSort votesGE).mp hb)
    have hapos : 0 < a.votes := by simpa using ha'.2
    by_cases he : a.votes = b.votes
    · exact Or.inr (hd a (hY.mem_iff.mp ha'.1) b (hY.mem_iff.mp hb'.1) hapos he)
    · left
      have : b.votes ≤ a.votes := hab
      omega
  have hsort : (X.filter (fun c => 0 < c.votes)).insertionSort votesGE
      = (X'.filter (fun c => 0 < c.votes)).insertionSort votesGE := by
    refine List.eq_of_perm_of_sorted ?_ (hsorted X (List.Perm.refl _)) (hsorted X' hperm.symm)
    exact ((List.perm_insertionSort votesGE _).trans hp).trans
      (List.perm_insertionSort votesGE _).symm
  unfold topKStable
  rw [hsort, hp.length_eq]

theorem houghCoarse_single {R : Type} [Zero R] (peak : Nat → Candidate R) (topK : Nat)
    (hK : 1 ≤ topK) (angles : List Nat) :
    houghCoarse peak topK [angles] = topKOfSeq topK (angles.map peak) := by
  rw [houghCoarse_eq_topKOfSeq peak topK hK]
  simp

/-! ### Claim on the coarse-pass merge -/

/-- C4, as stated, fails: with `topK = 1` and two angles of 5 votes each, the
schedule that gives angle index 1 to thread 0 and angle index 0 to thread 1
keeps angle 1, while a single worker sweeping in ascending order keeps angle 0. -/
theorem hough_coarse_merge_tie_counterexample :
    IsSchedule 2 [[1], [0]] ∧
    houghCoarse (peakOfVotes (fun _ => 5)) 1 [[1], [0]] = [⟨1, 0, 0, 5⟩] ∧
    houghCoarse (peakOfVotes (fun _ => 5)) 1 [List.range 2] = [⟨0, 0, 0, 5⟩] ∧
    houghCoarse (peakOfVotes (fun _ => 5)) 1 [[1], [0]]
      ≠ houghCoarse (peakOfVotes (fun _ => 5)) 1 [List.range 2] :=
  ⟨⟨List.Perm.swap 0 1 [], by decide⟩, by decide, by decide, by decide⟩

/-- C4 (amended): for `topK ≥ 1` and every schedule of the coarse angle indices
(every thread ascending), merging the thread-local lists in thread-id order
yields the list of a single worker that takes the angle indices thread by
thread (thread 0's indices, then thread 1's, and so on); and when no two angle
indices with a positive vote have equal votes, it yields the list of a single
worker sweeping all angle indices in ascending order. -/
theorem hough_coarse_merge_eq_single_worker {R : Type} [Zero R] (peak : Nat → Candidate R)
    (topK : Nat) (hK : 1 ≤ topK) (n : Nat) (sched : List (List Nat))
    (hs : IsSchedule n sched) :
    houghCoarse peak topK sched = houghCoarse peak topK [sched.flatten] ∧
    ((∀ i j, i < n → j < n → 0 < (peak i).votes → (peak i).votes = (peak j).votes → i = j) →
      houghCoarse peak topK sched = houghCoarse peak topK [List.range n]) := by
  refine ⟨?_, ?_⟩
  · rw [houghCoarse_eq_topKOfSeq peak topK hK, houghCoarse_single peak topK hK]
  · intro hd
    rw [houghCoarse_eq_topKOfSeq peak topK hK, houghCoarse_single peak topK hK,
      topKOfSeq_eq_topKStable topK hK, topKOfSeq_eq_topKStable topK hK]
    refine topKStable_perm topK _ _ (hs.1.map peak) ?_
    intro a ha b hb hapos hab
    obtain ⟨i, hi, rfl⟩ := List.mem_map.mp ha
    obtain ⟨j, hj, rfl⟩ := List.mem_map.mp hb
    have hin : i < n := List.mem_range.mp (hs.1.mem_iff.mp hi)
    have hjn : j < n := List.mem_range.mp (hs.1.mem_iff.mp hj)
    rw [hd i j hin hjn hapos hab]

/-- Witness for C4 (amended): three angles with 5, 7 and 5 votes, `topK = 2`,
thread 0 takes angle indices 1 and 2, thread 1 takes angle index 0. The merged
list is the thread-by-thread list, in which the tie between angle 0 and angle
2 goes to angle 2. -/
theorem hough_coarse_merge_eq_single_worker_witness :
    houghCoarse (peakOfVotes (fun i => if i = 1 then 7 else 5)) 2 [[1, 2], [0]]
      = houghCoarse (peakOfVotes (fun i => if i = 1 then 7 else 5)) 2 [[[1, 2], [0]].flatten] ∧
    houghCoarse (peakOfVotes (fun i => if i = 1 then 7 else 5)) 2 [[1, 2], [0]]
      = [⟨1, 0, 0, 7⟩, ⟨2, 0, 0, 5⟩] :=
  ⟨(hough_coarse_merge_eq_single_worker (peakOfVotes (fun i => if i = 1 then 7 else 5)) 2
      (by decide) 3 [[1, 2], [0]] ⟨by decide, by decide⟩).1,
   by decide⟩

/-! ### More claims on `EvaluateBatchNative` and `EvaluateAllPosesNative` -/

/-- A scan seen through a projection of its state. -/
theorem scanBest_proj {σ τ γ α : Type} [LinearOrder α] (key : σ → α) (key' : τ → α)
    (val : γ → α) (mk : γ → σ) (mk' : γ → τ) (f : σ → τ)
    (hkey : ∀ s, key' (f s) = key s) (hmk : ∀ c, f (mk c) = mk' c) (cs : List γ) (init : σ) :
    f (scanBest key val mk init cs) = scanBest key' val mk' (f init) cs := by
  induction cs generalizing init with
  | nil => rfl
  | cons c cs ih =>
    rw [scanBest_cons, scanBest_cons, ih, hkey]
    by_cases h : val c > key init
    · rw [if_pos h, if_pos h, hmk]
    · rw [if_neg h, if_neg h]

/-- The search of one pose alone, started from the zero state, projected to
score and offset, is `EvaluateBatchNative` on that pose's scores and margin. -/
theorem posesBody_zero_eq_batch {α : Type} [LinearOrder α] [Zero α]
    (score : Nat → Int → Int → α) (margins : Nat → Int)
    (baseCx baseCy refRadius imgW imgH : Int) (pi : Nat) :
    (⟨(posesBody score margins baseCx baseCy refRadius imgW imgH ⟨0, 0, 0, 0⟩ pi).bestScore,
      (posesBody score margins baseCx baseCy refRadius imgW imgH ⟨0, 0, 0, 0⟩ pi).bestDx,
      (posesBody score margins baseCx baseCy refRadius imgW imgH ⟨0, 0, 0, 0⟩ pi).bestDy⟩ :
        BatchResult α)
      = EvaluateBatchNative (score pi) baseCx baseCy refRadius imgW imgH (margins pi) := by
  rw [posesBody_eq_scan, EvaluateBatchNative_eq_scan]
  exact scanBest_proj PoseResult.bestScore BatchResult.bestScore
    (fun c : Int × Int => score pi (baseCx + c.1) (baseCy + c.2))
    (fun c => ⟨score pi (baseCx + c.1) (baseCy + c.2), c.1, c.2, pi⟩)
    (fun c => ⟨score pi (baseCx + c.1) (baseCy + c.2), c.1, c.2⟩)
    (fun r => ⟨r.bestScore, r.bestDx, r.bestDy⟩) (fun _ => rfl) (fun _ => rfl) _ ⟨0, 0, 0, 0⟩

/-- The search of one pose alone either finds nothing and stays at the zero
state, or ends with a positive score and that pose's index. -/
theorem posesBody_zero_state {α : Type} [LinearOrder α] [Zero α]
    (score : Nat → Int → Int → α) (margins : Nat → Int)
    (baseCx baseCy refRadius imgW imgH : Int) (pi : Nat) :
    posesBody score margins baseCx baseCy refRadius imgW imgH ⟨0, 0, 0, 0⟩ pi = ⟨0, 0, 0, 0⟩ ∨
    (0 < (posesBody score margins baseCx baseCy refRadius imgW imgH ⟨0, 0, 0, 0⟩ pi).bestScore ∧
     (posesBody score margins baseCx baseCy refRadius imgW imgH ⟨0, 0, 0, 0⟩ pi).bestPose = pi) := by
  rw [posesBody_eq_scan]
  rcases scanBest_cases PoseResult.bestScore
      (fun c : Int × Int => score pi (baseCx + c.1) (baseCy + c.2))
      (fun c => ⟨score pi (baseCx + c.1) (baseCy + c.2), c.1, c.2, pi⟩) (fun _ => rfl)
      (gridCands baseCx baseCy refRadius imgW imgH (margins pi)) ⟨0, 0, 0, 0⟩
    with ⟨hr, -⟩ | ⟨l₁, c, l₂, -, hr, hlt, -, -⟩
  · left; exact hr
  · right; rw [hr]; exact ⟨hlt, rfl⟩

/-- C14: with `poseCount = 1`, under every schedule (any number of worker
threads, one of which executes pose 0), `EvaluateAllPosesNative` returns the
`bestScore`, `bestDx` and `bestDy` of `EvaluateBatchNative` called with the
scores of pose 0 and `margin = margins[0]`, and `bestPoseIdx = 0`. -/
theorem evaluate_all_poses_single_pose {α : Type} [LinearOrder α] [Zero α]
    (score : Nat → Int → Int → α) (margins : Nat → Int)
    (baseCx baseCy refRadius imgW imgH : Int) (sched : List (List Nat))
    (hs : IsSchedule 1 sched) :
    (EvaluateAllPosesNative score margins baseCx baseCy refRadius imgW imgH sched).bestScore
      = (EvaluateBatchNative (score 0) baseCx baseCy refRadius imgW imgH (margins 0)).bestScore ∧
    (EvaluateAllPosesNative score margins baseCx baseCy refRadius imgW imgH sched).bestDx
      = (EvaluateBatchNative (score 0) baseCx baseCy refRadius imgW imgH (margins 0)).bestDx ∧
    (EvaluateAllPosesNative score margins baseCx baseCy refRadius imgW imgH sched).bestDy
      = (EvaluateBatchNative (score 0) baseCx baseCy refRadius imgW imgH (margins 0)).bestDy ∧
    (EvaluateAllPosesNative score margins baseCx baseCy refRadius imgW imgH sched).bestPose
      = 0 := by
  have hflat : sched.flatten = [0] := List.perm_singleton.mp hs.1
  have hb := posesBody_zero_eq_batch score margins baseCx baseCy refRadius imgW imgH 0
  have hall : EvaluateAllPosesNative score margins baseCx baseCy refRadius imgW imgH sched
      = posesBody score margins baseCx baseCy refRadius imgW imgH ⟨0, 0, 0, 0⟩ 0 := by
    rw [EvaluateAllPosesNative_eq_scan, hflat, List.map_cons, List.map_nil, scanBest_cons,
      scanBest_nil]
    rcases posesBody_zero_state score margins baseCx baseCy refRadius imgW imgH 0
      with h0 | ⟨hpos, -⟩
    · rw [h0]; simp
    · rw [if_pos hpos]; rfl
  rw [hall, ← hb]
  refine ⟨rfl, rfl, rfl, ?_⟩
  rcases posesBody_zero_state score margins baseCx baseCy refRadius imgW imgH 0
    with h0 | ⟨-, hp⟩
  · rw [h0]
  · exact hp

/-- Witness for C14: one pose scoring `3` at its only in-bounds lattice point,
three worker threads of which the second executes the pose. -/
theorem evaluate_all_poses_single_pose_witness :
    EvaluateAllPosesNative (fun _ _ _ => (3 : Int)) (fun _ => 0) 0 0 0 1 1 [[], [0], []]
      = ⟨3, 0, 0, 0⟩ ∧
    (EvaluateAllPosesNative (fun _ _ _ => (3 : Int)) (fun _ => 0) 0 0 0 1 1
        [[], [0], []]).bestScore
      = (EvaluateBatchNative ((fun _ _ _ => (3 : Int)) 0) 0 0 0 1 1
          ((fun _ => (0 : Int)) 0)).bestScore :=
  ⟨by decide,
   (evaluate_all_poses_single_pose (fun _ _ _ => (3 : Int)) (fun _ => 0) 0 0 0 1 1
      [[], [0], []] ⟨List.Perm.refl _, by decide⟩).1⟩

/-- C16: when no lattice point of `[-refRadius, refRadius]²` gives an
in-bounds centre (in particular when `refRadius < 0`), the list of candidates
that `EvaluateBatchNative` scores is empty and it returns score `0` with
`(bestDx, bestDy) = (0, 0)`, whatever the score function. -/
theorem evaluate_batch_no_candidate {α : Type} [LinearOrder α] [Zero α]
    (score : Int → Int → α) (baseCx baseCy refRadius imgW imgH margin : Int)
    (hnone : ∀ dx dy, ¬ IsCandidate baseCx baseCy refRadius imgW imgH margin dx dy) :
    gridCands baseCx baseCy refRadius imgW imgH margin = [] ∧
    EvaluateBatchNative score baseCx baseCy refRadius imgW imgH margin = ⟨0, 0, 0⟩ := by
  have hnil : gridCands baseCx baseCy refRadius imgW imgH margin = [] := by
    rw [List.eq_nil_iff_forall_not_mem]
    intro c hc
    exact hnone c.1 c.2 ((mem_gridCands _ _ _ _ _ _ c).mp hc)
  refine ⟨hnil, ?_⟩
  rw [EvaluateBatchNative_eq_scan, hnil, scanBest_nil]

/-- Witness for C16: a negative `refRadius` on a 10×10 image. -/
theorem evaluate_batch_no_candidate_witness :
    gridCands 5 5 (-1) 10 10 0 = [] ∧
    EvaluateBatchNative (fun _ _ => (7 : Int)) 5 5 (-1) 10 10 0 = ⟨0, 0, 0⟩ :=
  evaluate_batch_no_candidate (fun _ _ => (7 : Int)) 5 5 (-1) 10 10 0
    (fun dx dy h => by unfold IsCandidate at h; omega)

/-! ### Claims on the orientation bin and on the peak scan -/

theorem neg_lt_tmod (a : Int) {b : Int} (hb : 0 < b) : -b < Int.tmod a b := by
  obtain ⟨n, rfl⟩ := Int.eq_ofNat_of_zero_le (le_of_lt hb)
  cases a with
  | ofNat m =>
    have := Int.tmod_nonneg (↑n) (Int.ofNat_nonneg m)
    have h : (Int.ofNat m) = (m : Int) := rfl
    rw [h]
    omega
  | negSucc m =>
    have h : Int.tmod (Int.negSucc m) (n : Int) = -(((m + 1) % n : Nat) : Int) := rfl
    rw [h]
    have hn : 0 < n := by omega
    have := Nat.mod_lt (m + 1) hn
    omega

/-- The two-step remainder is the mathematical modulus. -/
theorem modelBin_eq_emod (sb binShift db numGradBins : Int) (hn : 1 ≤ numGradBins) :
    modelBin sb binShift db numGradBins = (sb - binShift + db) % numGradBins := by
  unfold modelBin
  have h₁ := neg_lt_tmod (sb - binShift + db) (show 0 < numGradBins by omega)
  rw [Int.tmod_eq_emod (by omega) (by omega), Int.tmod_def, Int.add_emod_self,
    Int.sub_eq_add_neg, ← Int.mul_neg, Int.add_mul_emod_self_left]

/-- C19: for `numGradBins ≥ 1` and all `sb`, `binShift` and `db` (in particular
`db ∈ {-1, 0, 1}`), `modelBin` lies in `[0, numGradBins)` and is congruent to `sb - binShift + db`
modulo `numGradBins` (it is the mathematical modulus), so `modelBin` and
`modelBin + 1` index the `numGradBins + 1` entries of `binOffsets`. -/
theorem modelBin_in_range (sb binShift db numGradBins : Int) (hn : 1 ≤ numGradBins) :
    0 ≤ modelBin sb binShift db numGradBins ∧
    modelBin sb binShift db numGradBins < numGradBins ∧
    modelBin sb binShift db numGradBins = (sb - binShift + db) % numGradBins ∧
    numGradBins ∣ modelBin sb binShift db numGradBins - (sb - binShift + db) ∧
    modelBin sb binShift db numGradBins + 1 < numGradBins + 1 := by
  have h := modelBin_eq_emod sb binShift db numGradBins hn
  have h₀ := Int.emod_nonneg (sb - binShift + db) (show numGradBins ≠ 0 by omega)
  have h₁ := Int.emod_lt_of_pos (sb - binShift + db) (show 0 < numGradBins by omega)
  refine ⟨by omega, by omega, h, ?_, by omega⟩
  rw [h]
  refine ⟨-((sb - binShift + db) / numGradBins), ?_⟩
  have := Int.emod_add_ediv (sb - binShift + db) numGradBins
  linarith

/-- Witness for C19: search bin 0, bin shift 1, `db = -1`, 16 bins: the C
remainder `-2` is brought to bin 14. -/
theorem modelBin_in_range_witness :
    modelBin 0 1 (-1) 16 = 14 ∧
    0 ≤ modelBin 0 1 (-1) 16 ∧ modelBin 0 1 (-1) 16 < 16 :=
  ⟨by decide,
   (modelBin_in_range 0 1 (-1) 16 (by decide)).1,
   (modelBin_in_range 0 1 (-1) 16 (by decide)).2.1⟩

theorem peakScan_eq_scan (acc : Nat → Nat) (accLen : Nat) :
    peakScan acc accLen
      = scanBest Peak.maxVote acc (fun i => ⟨acc i, i⟩) ⟨0, 0⟩ (List.range accLen) := rfl

/-- The peak found by the scan: a cell of maximal value, and the first one. -/
theorem peakScan_spec (acc : Nat → Nat) (accLen : Nat) (hlen : 1 ≤ accLen) :
    (peakScan acc accLen).maxIdx < accLen ∧
    acc (peakScan acc accLen).maxIdx = (peakScan acc accLen).maxVote ∧
    (∀ i, i < accLen → acc i ≤ (peakScan acc accLen).maxVote) ∧
    (∀ i, i < (peakScan acc accLen).maxIdx → acc i < (peakScan acc accLen).maxVote) := by
  rw [peakScan_eq_scan]
  rcases scanBest_cases Peak.maxVote acc (fun i => ⟨acc i, i⟩) (fun _ => rfl)
      (List.range accLen) ⟨0, 0⟩
    with ⟨hr, hall⟩ | ⟨l₁, c, l₂, hcs, hr, hlt, h₁, h₂⟩
  · rw [hr]
    have h0 : ∀ i, i < accLen → acc i = 0 := fun i hi =>
      Nat.le_zero.mp (hall i (List.mem_range.mpr hi))
    refine ⟨show 0 < accLen by omega, h0 0 (by omega),
      fun i hi => hall i (List.mem_range.mpr hi), ?_⟩
    intro i hi
    exact absurd hi (Nat.not_lt_zero i)
  · rw [hr]
    have hpw : (List.range accLen).Pairwise (· < ·) := List.pairwise_lt_range accLen
    have hc : c ∈ List.range accLen := by rw [hcs]; simp
    rw [hcs] at hpw
    have hl₂ : ∀ x ∈ l₂, c < x := fun x hx =>
      List.rel_of_pairwise_cons (List.pairwise_append.mp hpw).2.1 hx
    refine ⟨List.mem_range.mp hc, rfl, ?_, ?_⟩
    · intro i hi
      have him : i ∈ l₁ ++ c :: l₂ := by rw [← hcs]; exact List.mem_range.mpr hi
      rcases List.mem_append.mp him with hm | hm
      · exact le_of_lt (h₁ i hm)
      · rcases List.mem_cons.mp hm with hm | hm
        · rw [hm]
        · exact h₂ i hm
    · intro i hi
      have hi' : i < c := hi
      have him : i ∈ l₁ ++ c :: l₂ := by
        rw [← hcs]; exact List.mem_range.mpr (lt_trans hi' (List.mem_range.mp hc))
      rcases List.mem_append.mp him with hm | hm
      · exact h₁ i hm
      · rcases List.mem_cons.mp hm with hm | hm
        · omega
        · have := hl₂ i hm
          omega

/-- C20: for an accumulator of length `accLen ≥ 1`, the peak scan returns
`maxVote` equal to the maximum cell value (it is the value of cell `maxIdx`
and no cell exceeds it) and `maxIdx` equal to the smallest index holding that
maximum; when every cell is zero, `maxVote = 0` and `maxIdx = 0`. -/
theorem peak_scan_first_max (acc : Nat → Nat) (accLen : Nat) (hlen : 1 ≤ accLen) :
    (peakScan acc accLen).maxIdx < accLen ∧
    acc (peakScan acc accLen).maxIdx = (peakScan acc accLen).maxVote ∧
    (∀ i, i < accLen → acc i ≤ (peakScan acc accLen).maxVote) ∧
    (∀ i, i < accLen → acc i = (peakScan acc accLen).maxVote →
      (peakScan acc accLen).maxIdx ≤ i) ∧
    ((∀ i, i < accLen → acc i = 0) → peakScan acc accLen = ⟨0, 0⟩) := by
  obtain ⟨h₁, h₂, h₃, h₄⟩ := peakScan_spec acc accLen hlen
  refine ⟨h₁, h₂, h₃, ?_, ?_⟩
  · intro i _ hi
    by_contra hlt
    have := h₄ i (by omega)
    omega
  · intro hz
    have hv : (peakScan acc accLen).maxVote = 0 := by rw [← h₂]; exact hz _ h₁
    have hi : (peakScan acc accLen).maxIdx = 0 := by
      by_contra hne
      have := h₄ 0 (by omega)
      omega
    cases hp : peakScan acc accLen with
    | mk v i =>
      rw [hp] at hv hi
      simp only at hv hi
      rw [hv, hi]

/-- Witness for C20: the cells 1, 4, 0, 4 have their peak 4 first at index 1. -/
theorem peak_scan_first_max_witness :
    peakScan (fun i => [1, 4, 0, 4].getD i 0) 4 = ⟨4, 1⟩ ∧
    (peakScan (fun i => [1, 4, 0, 4].getD i 0) 4).maxIdx < 4 :=
  ⟨by decide, (peak_scan_first_max (fun i => [1, 4, 0, 4].getD i 0) 4 (by decide)).1⟩

/-! ### Claim on the rounding of rotated model coordinates -/

theorem cTrunc_of_nonneg {α : Type} [LinearOrderedField α] [FloorRing α] (x : α) (h : 0 ≤ x) :
    cTrunc x = ⌊x⌋ := if_pos h

theorem cTrunc_of_neg {α : Type} [LinearOrderedField α] [FloorRing α] (x : α) (h : x < 0) :
    cTrunc x = ⌈x⌉ := if_neg (not_le.mpr h)

/-- For `v ≥ 0` the code's `(int)(v + 0.5)` is rounding half away from zero. -/
theorem cTrunc_add_half_of_nonneg {α : Type} [LinearOrderedField α] [FloorRing α] (v : α)
    (h : 0 ≤ v) : cTrunc (v + 1 / 2) = roundHalfAway v := by
  unfold roundHalfAway
  rw [if_pos h]

/-- For `v ≤ -1/2` the code's `(int)(v + 0.5)` is one more than rounding half
away from zero. -/
theorem cTrunc_add_half_of_le {α : Type} [LinearOrderedField α] [FloorRing α] (v : α)
    (h : v ≤ -(1 / 2)) : cTrunc (v + 1 / 2) = roundHalfAway v + 1 := by
  have hv : ¬ 0 ≤ v := by
    intro h0
    linarith
  have hneg : v + -(1 / 2) < 0 := by linarith
  unfold roundHalfAway
  rw [if_neg hv, cTrunc_of_neg _ hneg]
  rcases lt_or_eq_of_le h with hlt | heq
  · rw [cTrunc_of_neg _ (by linarith), ← Int.ceil_add_one]
    congr 1
    ring
  · rw [heq]
    have h₁ : (-(1 / 2) + 1 / 2 : α) = 0 := by ring
    have h₂ : (-(1 / 2) + -(1 / 2) : α) = ((-1 : Int) : α) := by norm_num
    rw [h₁, cTrunc_of_nonneg _ (le_refl _), h₂, Int.floor_zero, Int.ceil_intCast]
    rfl

/-- C18 fails on the code: for the model point `(-1, 0)` at angle 0 (`cosA = 1`,
`sinA = 0`) and `invScale = 1` the rotated x coordinate is `v = -1`; the code
stores `(int)(-1 + 0.5) = 0`, while rounding half away from zero gives `-1`.
The same holds for the y coordinate of the model point `(0, -1)`. The bin
shift of the same function, which adds `-0.5` for a negative angle, rounds
`-1` to `-1`. -/
theorem rotated_coordinate_rounding_negative :
    rotXCoord (-1 : ℚ) 0 1 0 1 = 0 ∧
    roundHalfAway (((-1 : ℚ) * 1 - 0 * 0) * 1) = -1 ∧
    rotYCoord (0 : ℚ) (-1) 1 0 1 = 0 ∧
    roundHalfAway (((0 : ℚ) * 0 + (-1) * 1) * 1) = -1 ∧
    binShiftOf (-1 : ℚ) 1 = -1 := by
  have hx : (((-1 : ℚ) * 1 - 0 * 0) * 1) = -1 := by norm_num
  have hy : (((0 : ℚ) * 0 + (-1) * 1) * 1) = -1 := by norm_num
  have hr : roundHalfAway (-1 : ℚ) = -1 := by
    have := cTrunc_add_half_of_le (-1 : ℚ) (by norm_num)
    have h0 : cTrunc ((-1 : ℚ) + 1 / 2) = 0 := by
      rw [cTrunc_of_neg _ (by norm_num), Int.ceil_eq_iff]
      constructor <;> norm_num
    omega
  have hc : cTrunc ((-1 : ℚ) + 1 / 2) = 0 := by
    rw [cTrunc_of_neg _ (by norm_num), Int.ceil_eq_iff]
    constructor <;> norm_num
  refine ⟨?_, ?_, ?_, ?_, ?_⟩
  · unfold rotXCoord; rw [hx]; exact hc
  · rw [hx]; exact hr
  · unfold rotYCoord; rw [hy]; exact hc
  · rw [hy]; exact hr
  · unfold binShiftOf roundHalfAway at *
    have h1 : ((-1 : ℚ) / 1) = -1 := by norm_num
    rw [h1]
    exact hr

/-! ### `EvaluateNativeInternal`: early-out or full mean -/

theorem laneVal_eq_contribution {α : Type} [LinearOrderedField α] (offsets : Nat → Int)
    (rdx rdy : Nat → α) (dxImg dyImg magImg : Int → α) (base : Int) (ci : Bool) (i : Nat) :
    laneVal offsets rdx rdy dxImg dyImg magImg base ci i
      = contribution offsets rdx rdy dxImg dyImg magImg base ci i := by
  unfold laneVal contribution
  rw [Int.add_comm (offsets i) base]
  by_cases hm : magImg (base + offsets i) > magEps
  · simp only [if_pos hm, mul_one_div]
  · simp only [if_neg hm, mul_zero, abs_zero, ite_self]

theorem scalarStep_eq {α : Type} [LinearOrderedField α] (offsets : Nat → Int)
    (rdx rdy : Nat → α) (dxImg dyImg magImg : Int → α) (base : Int) (ci : Bool)
    (sum : α) (i : Nat) :
    scalarStep offsets rdx rdy dxImg dyImg magImg base ci sum i
      = sum + contribution offsets rdx rdy dxImg dyImg magImg base ci i := by
  unfold scalarStep contribution
  by_cases hm : magImg (base + offsets i) > magEps
  · simp only [if_pos hm]
  · simp only [if_neg hm, add_zero]

theorem partialSum_add_eight {α : Type} [LinearOrderedField α] (c : Nat → α) (i : Nat) :
    partialSum c (i + 8)
      = partialSum c i + (((c (i + 0) + c (i + 4)) + (c (i + 2) + c (i + 6)))
          + ((c (i + 1) + c (i + 5)) + (c (i + 3) + c (i + 7)))) := by
  simp only [partialSum, Nat.add_zero]
  ring

theorem foldl_scalarStep {α : Type} [LinearOrderedField α] (offsets : Nat → Int)
    (rdx rdy : Nat → α) (dxImg dyImg magImg : Int → α) (base : Int) (ci : Bool)
    (n a : Nat) :
    (List.range' a n).foldl (scalarStep offsets rdx rdy dxImg dyImg magImg base ci)
        (partialSum (contribution offsets rdx rdy dxImg dyImg magImg base ci) a)
      = partialSum (contribution offsets rdx rdy dxImg dyImg magImg base ci) (a + n) := by
  induction n generalizing a with
  | zero => rfl
  | succ n ih =>
    rw [List.range'_succ, List.foldl_cons, scalarStep_eq]
    have h := ih (a + 1)
    rw [partialSum] at h
    rw [h]
    congr 1
    omega

/-- One SIMD block: the early return fires exactly when `earlyOutAt` holds,
and otherwise the lanes then sum to the partial sum up to the block's end. -/
theorem vecBlock_spec {α : Type} [LinearOrderedField α] (offsets : Nat → Int)
    (rdx rdy : Nat → α) (dxImg dyImg magImg : Int → α) (base : Int) (ci : Bool)
    (N : Nat) (eT : α) (v : Fin 8 → α) (k : Nat)
    (hv : hsum v = partialSum (contribution offsets rdx rdy dxImg dyImg magImg base ci) (8 * k)) :
    (earlyOutAt (contribution offsets rdx rdy dxImg dyImg magImg base ci) N eT k →
      vecBlock offsets rdx rdy dxImg dyImg magImg base ci (N / 5) (N / 8 * 8) eT v (8 * k)
        = none) ∧
    (¬ earlyOutAt (contribution offsets rdx rdy dxImg dyImg magImg base ci) N eT k →
      ∃ v', vecBlock offsets rdx rdy dxImg dyImg magImg base ci (N / 5) (N / 8 * 8) eT v (8 * k)
          = some v' ∧
        hsum v' = partialSum (contribution offsets rdx rdy dxImg dyImg magImg base ci)
          (8 * k + 8)) := by
  have hs : hsum (fun l : Fin 8 =>
      v l + laneVal offsets rdx rdy dxImg dyImg magImg base ci (8 * k + l.val))
      = partialSum (contribution offsets rdx rdy dxImg dyImg magImg base ci) (8 * k + 8) := by
    rw [partialSum_add_eight, ← hv]
    simp only [hsum, laneVal_eq_contribution]
    have e0 : ((0 : Fin 8) : Nat) = 0 := rfl
    have e1 : ((1 : Fin 8) : Nat) = 1 := rfl
    have e2 : ((2 : Fin 8) : Nat) = 2 := rfl
    have e3 : ((3 : Fin 8) : Nat) = 3 := rfl
    have e4 : ((4 : Fin 8) : Nat) = 4 := rfl
    have e5 : ((5 : Fin 8) : Nat) = 5 := rfl
    have e6 : ((6 : Fin 8) : Nat) = 6 := rfl
    have e7 : ((7 : Fin 8) : Nat) = 7 := rfl
    rw [e0, e1, e2, e3, e4, e5, e6, e7]
    ring
  constructor
  · rintro ⟨h₁, h₂, h₃⟩
    unfold vecBlock
    simp only [hs]
    rw [if_pos ⟨h₁, h₂⟩, if_pos h₃]
  · intro hne
    unfold vecBlock
    simp only [hs]
    by_cases hb : 8 * k + 8 ≥ N / 5 ∧ 8 * k + 8 < N / 8 * 8
    · have hlt : ¬ (partialSum (contribution offsets rdx rdy dxImg dyImg magImg base ci)
          (8 * k + 8) / ((8 * k + 8 : Nat) : α) < eT) := fun h => hne ⟨hb.1, hb.2, h⟩
      rw [if_pos hb, if_neg hlt]
      exact ⟨_, rfl, hs⟩
    · rw [if_neg hb]
      exact ⟨_, rfl, hs⟩

theorem vecLoop_spec {α : Type} [LinearOrderedField α] (offsets : Nat → Int)
    (rdx rdy : Nat → α) (dxImg dyImg magImg : Int → α) (base : Int) (ci : Bool)
    (N : Nat) (eT : α) (n k : Nat) (v : Fin 8 → α)
    (hv : hsum v = partialSum (contribution offsets rdx rdy dxImg dyImg magImg base ci) (8 * k)) :
    ((∃ j, k ≤ j ∧ j < k + n ∧
        earlyOutAt (contribution offsets rdx rdy dxImg dyImg magImg base ci) N eT j) →
      vecLoop offsets rdx rdy dxImg dyImg magImg base ci (N / 5) (N / 8 * 8) eT
        ((List.range' k n).map (fun j => 8 * j)) v = none) ∧
    ((∀ j, k ≤ j → j < k + n →
        ¬ earlyOutAt (contribution offsets rdx rdy dxImg dyImg magImg base ci) N eT j) →
      ∃ v', vecLoop offsets rdx rdy dxImg dyImg magImg base ci (N / 5) (N / 8 * 8) eT
          ((List.range' k n).map (fun j => 8 * j)) v = some v' ∧
        hsum v' = partialSum (contribution offsets rdx rdy dxImg dyImg magImg base ci)
          (8 * (k + n))) := by
  induction n generalizing k v with
  | zero =>
    constructor
    · rintro ⟨j, h₁, h₂, -⟩
      omega
    · intro _
      exact ⟨v, rfl, hv⟩
  | succ n ih =>
    obtain ⟨hb₁, hb₂⟩ := vecBlock_spec offsets rdx rdy dxImg dyImg magImg base ci N eT v k hv
    rw [List.range'_succ, List.map_cons]
    by_cases he : earlyOutAt (contribution offsets rdx rdy dxImg dyImg magImg base ci) N eT k
    · constructor
      · intro _
        simp only [vecLoop, hb₁ he]
      · intro hall
        exact absurd he (hall k (le_refl _) (by omega))
    · obtain ⟨v', hv', hs'⟩ := hb₂ he
      have hs'' : hsum v' = partialSum
          (contribution offsets rdx rdy dxImg dyImg magImg base ci) (8 * (k + 1)) := by
        rw [hs']; congr 1
      obtain ⟨ih₁, ih₂⟩ := ih (k + 1) v' hs''
      constructor
      · rintro ⟨j, h₁, h₂, h₃⟩
        simp only [vecLoop, hv']
        apply ih₁
        refine ⟨j, ?_, by omega, h₃⟩
        rcases Nat.eq_or_lt_of_le h₁ with h | h
        · rw [← h] at h₃; exact absurd h₃ he
        · omega
      · intro hall
        simp only [vecLoop, hv']
        obtain ⟨w, hw, hws⟩ := ih₂ (fun j h₁ h₂ => hall j (by omega) (by omega))
        refine ⟨w, hw, ?_⟩
        rw [hws]; congr 1; omega

/-- `EvaluateNativeInternal` returns `0` as soon as the early-out fires at the
end of some SIMD block, and the full mean of the contributions otherwise. -/
theorem EvaluateNativeInternal_spec {α : Type} [LinearOrderedField α] (px py : Int)
    (offsets : Nat → Int) (rdx rdy : Nat → α) (dxImg dyImg magImg : Int → α)
    (imgW : Int) (N : Nat) (thresh greedy : α) (ci : Bool) :
    ((∃ k, earlyOutAt (contribution offsets rdx rdy dxImg dyImg magImg (py * imgW + px) ci)
          N (thresh * (1 - greedy)) k) →
      EvaluateNativeInternal px py offsets rdx rdy dxImg dyImg magImg imgW N thresh greedy ci
        = 0) ∧
    ((∀ k, ¬ earlyOutAt (contribution offsets rdx rdy dxImg dyImg magImg (py * imgW + px) ci)
          N (thresh * (1 - greedy)) k) →
      EvaluateNativeInternal px py offsets rdx rdy dxImg dyImg magImg imgW N thresh greedy ci
        = partialSum (contribution offsets rdx rdy dxImg dyImg magImg (py * imgW + px) ci) N
          / (N : α)) := by
  obtain ⟨h₁, h₂⟩ := vecLoop_spec offsets rdx rdy dxImg dyImg magImg (py * imgW + px) ci N
    (thresh * (1 - greedy)) (N / 8) 0 (fun _ => 0) (by simp [hsum, partialSum])
  rw [← List.range_eq_range'] at h₁ h₂
  constructor
  · rintro ⟨k, hk⟩
    have hlt : k < 0 + N / 8 := by
      have := hk.2.1
      omega
    unfold EvaluateNativeInternal
    simp only [h₁ ⟨k, Nat.zero_le _, hlt, hk⟩]
  · intro hall
    obtain ⟨v', hv', hs'⟩ := h₂ (fun j _ _ => hall j)
    unfold EvaluateNativeInternal
    simp only [hv']
    rw [hs', Nat.zero_add, Nat.mul_comm 8 (N / 8), foldl_scalarStep]
    congr 2
    have := Nat.div_mul_le_self N 8
    omega

/-! ### Claims on `EvaluateNativeInternal` -/

theorem magEps_pos {α : Type} [LinearOrderedField α] : (0 : α) < magEps := by
  unfold magEps; norm_num

/-- Under the unit-norm and magnitude hypotheses a normalized dot product has
absolute value at most `1` (Cauchy-Schwarz). -/
theorem abs_dot_div_le_one {α : Type} [LinearOrderedField α] (a b x y m : α)
    (hunit : a ^ 2 + b ^ 2 = 1) (hmag : m ^ 2 = x ^ 2 + y ^ 2) (hm : 0 < m) :
    |(a * x + b * y) / m| ≤ 1 := by
  have hcs : (a * x + b * y) ^ 2 ≤ m ^ 2 := by
    have h := sq_nonneg (a * y - b * x)
    have e : (a * x + b * y) ^ 2 + (a * y - b * x) ^ 2 = (a ^ 2 + b ^ 2) * (x ^ 2 + y ^ 2) := by
      ring
    rw [hunit, one_mul, ← hmag] at e
    linarith
  have habs : |a * x + b * y| ≤ m := abs_le_of_sq_le_sq hcs (le_of_lt hm)
  rw [abs_div, abs_of_pos hm]
  exact (div_le_one hm).mpr habs

theorem contribution_bounds {α : Type} [LinearOrderedField α] (offsets : Nat → Int)
    (rdx rdy : Nat → α) (dxImg dyImg magImg : Int → α) (base : Int) (ci : Bool) (i : Nat)
    (hunit : rdx i ^ 2 + rdy i ^ 2 = 1)
    (hmag : magImg (base + offsets i) ^ 2
      = dxImg (base + offsets i) ^ 2 + dyImg (base + offsets i) ^ 2) :
    (if ci then 0 else -1) ≤ contribution offsets rdx rdy dxImg dyImg magImg base ci i ∧
    contribution offsets rdx rdy dxImg dyImg magImg base ci i ≤ 1 := by
  unfold contribution
  by_cases hm : magImg (base + offsets i) > magEps
  · have hpos : 0 < magImg (base + offsets i) := lt_trans magEps_pos hm
    have h := abs_dot_div_le_one (rdx i) (rdy i) (dxImg (base + offsets i))
      (dyImg (base + offsets i)) (magImg (base + offsets i)) hunit hmag hpos
    rw [if_pos hm]
    cases ci with
    | true => simp only [if_true]; exact ⟨abs_nonneg _, h⟩
    | false =>
      simp only [Bool.false_eq_true, if_false]
      exact abs_le.mp h
  · rw [if_neg hm]
    cases ci with
    | true => simp
    | false => simp

theorem partialSum_bounds {α : Type} [LinearOrderedField α] (c : Nat → α) (lo hi : α) (n : Nat)
    (h : ∀ i, i < n → lo ≤ c i ∧ c i ≤ hi) :
    (n : α) * lo ≤ partialSum c n ∧ partialSum c n ≤ (n : α) * hi := by
  induction n with
  | zero => simp [partialSum]
  | succ n ih =>
    obtain ⟨h₁, h₂⟩ := ih (fun i hi => h i (Nat.lt_succ_of_lt hi))
    obtain ⟨h₃, h₄⟩ := h n (Nat.lt_succ_self n)
    rw [partialSum, Nat.cast_succ]
    constructor <;> linarith

/-- C11: for `N ≥ 1`, unit-norm model directions and `Mag² = Dx² + Dy²` at
every accessed cell, `EvaluateNativeInternal` in exact arithmetic returns a
value in `[-1, 1]` in signed mode and in `[0, 1]` in contrast-invariant mode,
whether it leaves by the early-out or with the full sum. -/
theorem evaluate_value_range {α : Type} [LinearOrderedField α] (px py : Int)
    (offsets : Nat → Int) (rdx rdy : Nat → α) (dxImg dyImg magImg : Int → α)
    (imgW : Int) (N : Nat) (thresh greedy : α) (ci : Bool) (hN : 1 ≤ N)
    (hunit : ∀ i, i < N → rdx i ^ 2 + rdy i ^ 2 = 1)
    (hmag : ∀ i, i < N → magImg (py * imgW + px + offsets i) ^ 2
      = dxImg (py * imgW + px + offsets i) ^ 2 + dyImg (py * imgW + px + offsets i) ^ 2) :
    (ci = false →
      -1 ≤ EvaluateNativeInternal px py offsets rdx rdy dxImg dyImg magImg imgW N thresh
              greedy ci ∧
      EvaluateNativeInternal px py offsets rdx rdy dxImg dyImg magImg imgW N thresh greedy ci
        ≤ 1) ∧
    (ci = true →
      0 ≤ EvaluateNativeInternal px py offsets rdx rdy dxImg dyImg magImg imgW N thresh
              greedy ci ∧
      EvaluateNativeInternal px py offsets rdx rdy dxImg dyImg magImg imgW N thresh greedy ci
        ≤ 1) := by
  obtain ⟨h₁, h₂⟩ := EvaluateNativeInternal_spec px py offsets rdx rdy dxImg dyImg magImg
    imgW N thresh greedy ci
  by_cases he : ∃ k, earlyOutAt
      (contribution offsets rdx rdy dxImg dyImg magImg (py * imgW + px) ci) N
      (thresh * (1 - greedy)) k
  · rw [h₁ he]
    exact ⟨fun _ => ⟨by norm_num, by norm_num⟩, fun _ => ⟨le_refl _, by norm_num⟩⟩
  · rw [h₂ (fun k hk => he ⟨k, hk⟩)]
    have hNpos : (0 : α) < (N : α) := by exact_mod_cast hN
    obtain ⟨hlo, hhi⟩ := partialSum_bounds
      (contribution offsets rdx rdy dxImg dyImg magImg (py * imgW + px) ci)
      (if ci then 0 else -1) 1 N
      (fun i hi => contribution_bounds offsets rdx rdy dxImg dyImg magImg (py * imgW + px) ci i
        (hunit i hi) (hmag i hi))
    have hup : partialSum (contribution offsets rdx rdy dxImg dyImg magImg (py * imgW + px) ci) N
        / (N : α) ≤ 1 := by
      rw [div_le_one hNpos]; linarith
    constructor
    · intro hci
      rw [hci] at hlo ⊢
      simp only [Bool.false_eq_true, if_false] at hlo
      refine ⟨?_, by rw [hci] at hup; exact hup⟩
      rw [le_div_iff₀ hNpos]; linarith
    · intro hci
      rw [hci] at hlo ⊢
      simp only [if_true] at hlo
      refine ⟨?_, by rw [hci] at hup; exact hup⟩
      rw [le_div_iff₀ hNpos]; linarith

/-- Witness for C11: one model point with direction `(1, 0)` on a gradient
`(3, 4)` of magnitude `5`. -/
theorem evaluate_value_range_witness :
    (false = false →
      -1 ≤ EvaluateNativeInternal 0 0 (fun _ => 0) (fun _ => (1 : ℚ)) (fun _ => 0)
              (fun _ => 3) (fun _ => 4) (fun _ => 5) 1 1 (1 / 2) (1 / 2) false ∧
      EvaluateNativeInternal 0 0 (fun _ => 0) (fun _ => (1 : ℚ)) (fun _ => 0)
              (fun _ => 3) (fun _ => 4) (fun _ => 5) 1 1 (1 / 2) (1 / 2) false ≤ 1) ∧
    (false = true →
      0 ≤ EvaluateNativeInternal 0 0 (fun _ => 0) (fun _ => (1 : ℚ)) (fun _ => 0)
              (fun _ => 3) (fun _ => 4) (fun _ => 5) 1 1 (1 / 2) (1 / 2) false ∧
      EvaluateNativeInternal 0 0 (fun _ => 0) (fun _ => (1 : ℚ)) (fun _ => 0)
              (fun _ => 3) (fun _ => 4) (fun _ => 5) 1 1 (1 / 2) (1 / 2) false ≤ 1) :=
  evaluate_value_range 0 0 (fun _ => 0) (fun _ => (1 : ℚ)) (fun _ => 0)
    (fun _ => 3) (fun _ => 4) (fun _ => 5) 1 1 (1 / 2) (1 / 2) false (by decide)
    (fun _ _ => by norm_num) (fun _ _ => by norm_num)

/-- C12, as stated, fails: with `N = 5` the first `floor(N/5) = 1` contribution
is `-1`, below `thresh * (1 - greedy) = 1/2`, yet `EvaluateNativeInternal`
returns the full mean `3/5`: there is no SIMD block for `N < 8`, hence no
early-out check. -/
theorem evaluate_early_out_counterexample :
    partialSum (contribution exampleOffsets (fun _ => (1 : ℚ)) (fun _ => 0) dipImage
        (fun _ => 0) (fun _ => 1) (0 * 8 + 0) false) (5 / 5) / ((5 / 5 : Nat) : ℚ)
      < 1 / 2 * (1 - 0) ∧
    EvaluateNativeInternal 0 0 exampleOffsets (fun _ => (1 : ℚ)) (fun _ => 0) dipImage
        (fun _ => 0) (fun _ => 1) 8 5 (1 / 2) 0 false = 3 / 5 ∧
    EvaluateNativeInternal 0 0 exampleOffsets (fun _ => (1 : ℚ)) (fun _ => 0) dipImage
        (fun _ => 0) (fun _ => 1) 8 5 (1 / 2) 0 false ≠ 0 := by
  have hv : EvaluateNativeInternal 0 0 exampleOffsets (fun _ => (1 : ℚ)) (fun _ => 0) dipImage
      (fun _ => 0) (fun _ => 1) 8 5 (1 / 2) 0 false = 3 / 5 := by
    rw [(EvaluateNativeInternal_spec 0 0 exampleOffsets (fun _ => (1 : ℚ)) (fun _ => 0) dipImage
      (fun _ => 0) (fun _ => 1) 8 5 (1 / 2) 0 false).2
      (fun k hk => absurd hk.2.1 (by omega))]
    simp only [partialSum, contribution, magEps, exampleOffsets, dipImage]
    norm_num
  refine ⟨?_, hv, by rw [hv]; norm_num⟩
  simp only [partialSum, contribution, magEps, exampleOffsets, dipImage]
  norm_num

/-- C12 (amended): for `N ≥ 5`, if at the end of a SIMD block, at a boundary
`b = 8k + 8` with `floor(N/5) ≤ b < 8 floor(N/8)`, the sum of the first `b`
contributions divided by `b` is below `thresh * (1 - greedy)`, then
`EvaluateNativeInternal` returns `0`; for `N < 16` there is no such boundary
and it returns the full mean. -/
theorem evaluate_early_out_at_block_boundary {α : Type} [LinearOrderedField α] (px py : Int)
    (offsets : Nat → Int) (rdx rdy : Nat → α) (dxImg dyImg magImg : Int → α)
    (imgW : Int) (N : Nat) (thresh greedy : α) (ci : Bool) (hN : 5 ≤ N) :
    (∀ k, N / 5 ≤ 8 * k + 8 → 8 * k + 8 < N / 8 * 8 →
      partialSum (contribution offsets rdx rdy dxImg dyImg magImg (py * imgW + px) ci)
          (8 * k + 8) / ((8 * k + 8 : Nat) : α) < thresh * (1 - greedy) →
      EvaluateNativeInternal px py offsets rdx rdy dxImg dyImg magImg imgW N thresh greedy ci
        = 0) ∧
    (N < 16 →
      EvaluateNativeInternal px py offsets rdx rdy dxImg dyImg magImg imgW N thresh greedy ci
        = partialSum (contribution offsets rdx rdy dxImg dyImg magImg (py * imgW + px) ci) N
          / (N : α)) := by
  obtain ⟨h₁, h₂⟩ := EvaluateNativeInternal_spec px py offsets rdx rdy dxImg dyImg magImg
    imgW N thresh greedy ci
  have _ := hN
  constructor
  · intro k hk₁ hk₂ hk₃
    exact h₁ ⟨k, hk₁, hk₂, hk₃⟩
  · intro hlt
    apply h₂
    intro k hk
    have := hk.2.1
    omega

/-- Witness for C12 (amended): `N = 5` has no block boundary, the full mean is
returned. -/
theorem evaluate_early_out_at_block_boundary_witness :
    EvaluateNativeInternal 0 0 exampleOffsets (fun _ => (1 : ℚ)) (fun _ => 0) dipImage
        (fun _ => 0) (fun _ => 1) 8 5 (1 / 2) 0 false
      = partialSum (contribution exampleOffsets (fun _ => (1 : ℚ)) (fun _ => 0) dipImage
          (fun _ => 0) (fun _ => 1) (0 * 8 + 0) false) 5 / ((5 : Nat) : ℚ) :=
  (evaluate_early_out_at_block_boundary 0 0 exampleOffsets (fun _ => (1 : ℚ)) (fun _ => 0)
    dipImage (fun _ => 0) (fun _ => 1) 8 5 (1 / 2) 0 false (by decide)).2 (by decide)

/-- C13, as stated, fails: with `greedy = 0`, `thresh = 1/2`, `N = 16` and
every contribution equal to `1/4`, the check after the first block finds
`2 / 8 < 1/2` and `EvaluateNativeInternal` returns `0`, while the full mean
is `1/4`. -/
theorem evaluate_greedy_zero_counterexample :
    EvaluateNativeInternal 0 0 exampleOffsets (fun _ => (1 : ℚ)) (fun _ => 0)
        (fun _ => 1 / 4) (fun _ => 0) (fun _ => 1) 8 16 (1 / 2) 0 false = 0 ∧
    partialSum (contribution exampleOffsets (fun _ => (1 : ℚ)) (fun _ => 0)
        (fun _ => 1 / 4) (fun _ => 0) (fun _ => 1) (0 * 8 + 0) false) 16 / ((16 : Nat) : ℚ)
      = 1 / 4 := by
  constructor
  · apply (EvaluateNativeInternal_spec 0 0 exampleOffsets (fun _ => (1 : ℚ)) (fun _ => 0)
      (fun _ => 1 / 4) (fun _ => 0) (fun _ => 1) 8 16 (1 / 2) 0 false).1
    refine ⟨0, by decide, by decide, ?_⟩
    simp only [partialSum, contribution, magEps, exampleOffsets]
    norm_num
  · simp only [partialSum, contribution, magEps, exampleOffsets]
    norm_num

/-- C13 (amended): with `greedy = 0` the early-out threshold is `thresh`
itself. For `N ≥ 1`, `EvaluateNativeInternal` returns the full mean of the
contributions when at every block boundary `b = 8k + 8` with
`floor(N/5) ≤ b < 8 floor(N/8)` the sum of the first `b` contributions divided
by `b` is at least `thresh`, and returns `0` when it is below `thresh` at one
such boundary. -/
theorem evaluate_greedy_zero {α : Type} [LinearOrderedField α] (px py : Int)
    (offsets : Nat → Int) (rdx rdy : Nat → α) (dxImg dyImg magImg : Int → α)
    (imgW : Int) (N : Nat) (thresh : α) (ci : Bool) (hN : 1 ≤ N) :
    ((∀ k, N / 5 ≤ 8 * k + 8 → 8 * k + 8 < N / 8 * 8 →
        thresh ≤ partialSum (contribution offsets rdx rdy dxImg dyImg magImg (py * imgW + px) ci)
          (8 * k + 8) / ((8 * k + 8 : Nat) : α)) →
      EvaluateNativeInternal px py offsets rdx rdy dxImg dyImg magImg imgW N thresh 0 ci
        = partialSum (contribution offsets rdx rdy dxImg dyImg magImg (py * imgW + px) ci) N
          / (N : α)) ∧
    ((∃ k, N / 5 ≤ 8 * k + 8 ∧ 8 * k + 8 < N / 8 * 8 ∧
        partialSum (contribution offsets rdx rdy dxImg dyImg magImg (py * imgW + px) ci)
          (8 * k + 8) / ((8 * k + 8 : Nat) : α) < thresh) →
      EvaluateNativeInternal px py offsets rdx rdy dxImg dyImg magImg imgW N thresh 0 ci
        = 0) := by
  obtain ⟨h₁, h₂⟩ := EvaluateNativeInternal_spec px py offsets rdx rdy dxImg dyImg magImg
    imgW N thresh 0 ci
  have _ := hN
  rw [sub_zero, mul_one] at h₁ h₂
  constructor
  · intro hall
    apply h₂
    rintro k ⟨hk₁, hk₂, hk₃⟩
    exact absurd hk₃ (not_lt.mpr (hall k hk₁ hk₂))
  · rintro ⟨k, hk₁, hk₂, hk₃⟩
    exact h₁ ⟨k, hk₁, hk₂, hk₃⟩

/-- Witness for C13 (amended): `N = 16`, every contribution `1/4`, and
`thresh = 1/8`: the check after the first block passes and the full mean is
returned. -/
theorem evaluate_greedy_zero_witness :
    EvaluateNativeInternal 0 0 exampleOffsets (fun _ => (1 : ℚ)) (fun _ => 0)
        (fun _ => 1 / 4) (fun _ => 0) (fun _ => 1) 8 16 (1 / 8) 0 false
      = partialSum (contribution exampleOffsets (fun _ => (1 : ℚ)) (fun _ => 0)
          (fun _ => 1 / 4) (fun _ => 0) (fun _ => 1) (0 * 8 + 0) false) 16 / ((16 : Nat) : ℚ) :=
  (evaluate_greedy_zero 0 0 exampleOffsets (fun _ => (1 : ℚ)) (fun _ => 0)
    (fun _ => 1 / 4) (fun _ => 0) (fun _ => 1) 8 16 (1 / 8) false (by decide)).1
    (fun k _ hk₂ => by
      have hk : k = 0 := by omega
      rw [hk]
      simp only [partialSum, contribution, magEps, exampleOffsets]
      norm_num)

/-! ### The voting loop counts votes -/

theorem castVote_apply (rotX rotY : Nat → Int) (shift : Nat) (bW bH ex ey : Int)
    (acc : Nat → Nat) (j c : Nat) :
    castVote rotX rotY shift bW bH ex ey acc j c
      = acc c + (if votesCell rotX rotY shift bW bH ex ey j c then 1 else 0) := by
  unfold castVote votesCell
  by_cases hc : toUnsigned ((ex - rotX j) >>> shift) < toUnsigned bW ∧
      toUnsigned ((ey - rotY j) >>> shift) < toUnsigned bH
  · rw [if_pos hc, decide_eq_true hc, Bool.true_and]
    by_cases hi : (((ey - rotY j) >>> shift) * bW + ((ex - rotX j) >>> shift)).toNat = c
    · rw [decide_eq_true hi, if_pos rfl, ← hi, Function.update_same]
    · rw [decide_eq_false hi, if_neg Bool.false_ne_true, Function.update_noteq (Ne.symm hi),
        Nat.add_zero]
  · rw [if_neg hc, decide_eq_false hc, Bool.false_and, if_neg Bool.false_ne_true, Nat.add_zero]

theorem foldl_castVote_apply (binIndices : Nat → Nat) (rotX rotY : Nat → Int) (shift : Nat)
    (bW bH ex ey : Int) (l : List Nat) (acc : Nat → Nat) (c : Nat) :
    l.foldl (fun acc bi => castVote rotX rotY shift bW bH ex ey acc (binIndices bi)) acc c
      = acc c + l.countP (fun bi => votesCell rotX rotY shift bW bH ex ey (binIndices bi) c) := by
  induction l generalizing acc with
  | nil => rfl
  | cons bi l ih =>
    rw [List.foldl_cons, ih, castVote_apply, List.countP_cons]
    omega

theorem voteBin_apply (binOffsets binIndices : Nat → Nat) (numGradBins : Int)
    (rotX rotY : Nat → Int) (shift : Nat) (bW bH binShift : Int) (e : Int × Int × Int)
    (acc : Nat → Nat) (db : Int) (c : Nat) :
    voteBin binOffsets binIndices numGradBins rotX rotY shift bW bH binShift e.1 e.2.1 e.2.2
        acc db c
      = acc c + binVotes binOffsets binIndices numGradBins rotX rotY shift bW bH binShift e c
          db := by
  unfold voteBin binVotes
  exact foldl_castVote_apply binIndices rotX rotY shift bW bH e.1 e.2.1 _ acc c

theorem foldl_voteBin_apply (binOffsets binIndices : Nat → Nat) (numGradBins : Int)
    (rotX rotY : Nat → Int) (shift : Nat) (bW bH binShift : Int) (e : Int × Int × Int)
    (dbs : List Int) (acc : Nat → Nat) (c : Nat) :
    dbs.foldl (voteBin binOffsets binIndices numGradBins rotX rotY shift bW bH binShift
        e.1 e.2.1 e.2.2) acc c
      = acc c + (dbs.map (binVotes binOffsets binIndices numGradBins rotX rotY shift bW bH
          binShift e c)).sum := by
  induction dbs generalizing acc with
  | nil => rfl
  | cons db dbs ih =>
    rw [List.foldl_cons, ih, voteBin_apply, List.map_cons, List.sum_cons]
    omega

theorem voteEdge_apply (binOffsets binIndices : Nat → Nat) (numGradBins : Int)
    (rotX rotY : Nat → Int) (shift : Nat) (bW bH binShift : Int) (acc : Nat → Nat)
    (e : Int × Int × Int) (c : Nat) :
    voteEdge binOffsets binIndices numGradBins rotX rotY shift bW bH binShift acc e c
      = acc c + edgeVotes binOffsets binIndices numGradBins rotX rotY shift bW bH binShift
          e c :=
  foldl_voteBin_apply binOffsets binIndices numGradBins rotX rotY shift bW bH binShift e _ acc c

theorem foldl_voteEdge_apply (binOffsets binIndices : Nat → Nat) (numGradBins : Int)
    (rotX rotY : Nat → Int) (shift : Nat) (bW bH binShift : Int)
    (edges : List (Int × Int × Int)) (acc : Nat → Nat) (c : Nat) :
    edges.foldl (voteEdge binOffsets binIndices numGradBins rotX rotY shift bW bH binShift)
        acc c
      = acc c + (edges.map (fun e => edgeVotes binOffsets binIndices numGradBins rotX rotY
          shift bW bH binShift e c)).sum := by
  induction edges generalizing acc with
  | nil => rfl
  | cons e edges ih =>
    rw [List.foldl_cons, ih, voteEdge_apply, List.map_cons, List.sum_cons]
    omega

/-- Every accumulator cell holds the number of votes cast for it: one for each
triple (search edge, `db`, position `bi` of the bin `modelBin`) whose cell it is. -/
theorem voteAcc_apply (binOffsets binIndices : Nat → Nat) (numGradBins : Int)
    (rotX rotY : Nat → Int) (shift : Nat) (bW bH binShift : Int)
    (edges : List (Int × Int × Int)) (c : Nat) :
    voteAcc binOffsets binIndices numGradBins rotX rotY shift bW bH binShift edges c
      = (edges.map (fun e => edgeVotes binOffsets binIndices numGradBins rotX rotY
          shift bW bH binShift e c)).sum := by
  unfold voteAcc
  rw [foldl_voteEdge_apply, Nat.zero_add]

/-- The accumulator does not depend on the order of the search edges. -/
theorem voteAcc_perm (binOffsets binIndices : Nat → Nat) (numGradBins : Int)
    (rotX rotY : Nat → Int) (shift : Nat) (bW bH binShift : Int)
    (edges edges' : List (Int × Int × Int)) (h : edges.Perm edges') :
    voteAcc binOffsets binIndices numGradBins rotX rotY shift bW bH binShift edges
      = voteAcc binOffsets binIndices numGradBins rotX rotY shift bW bH binShift edges' := by
  funext c
  rw [voteAcc_apply, voteAcc_apply]
  exact (h.map _).sum_eq

/-! ### Claim on the order of the search edges -/

theorem anglePeak_perm {R : Type} (F : HoughFloat R) (binOffsets binIndices : Nat → Nat)
    (numGradBins : Int) (shift : Nat) (bW bH : Int) (edges edges' : List (Int × Int × Int))
    (h : edges.Perm edges') :
    anglePeak F binOffsets binIndices numGradBins shift bW bH edges
      = anglePeak F binOffsets binIndices numGradBins shift bW bH edges' := by
  funext angle
  unfold anglePeak
  rw [voteAcc_perm binOffsets binIndices numGradBins (F.rotXOf angle) (F.rotYOf angle) shift
    bW bH (F.binShiftAt angle) edges edges' h]

/-- C15: when the search edges (the triples read from `searchX`, `searchY`,
`searchBin`) are permuted, for every angle (every rotated model and bin shift)
the accumulator after the voting loop is the same, hence so are the peak
`(maxVote, maxIdx)` and the output of `HoughVotingNative`. -/
theorem hough_vote_edge_order_invariant (edges edges' : List (Int × Int × Int))
    (h : edges.Perm edges') :
    (∀ (binOffsets binIndices : Nat → Nat) (numGradBins : Int) (rotX rotY : Nat → Int)
        (shift : Nat) (bW bH binShift : Int),
      voteAcc binOffsets binIndices numGradBins rotX rotY shift bW bH binShift edges
        = voteAcc binOffsets binIndices numGradBins rotX rotY shift bW bH binShift edges') ∧
    (∀ (binOffsets binIndices : Nat → Nat) (numGradBins : Int) (rotX rotY : Nat → Int)
        (shift : Nat) (bW bH binShift : Int) (accLen : Nat),
      peakScan (voteAcc binOffsets binIndices numGradBins rotX rotY shift bW bH binShift edges)
          accLen
        = peakScan
            (voteAcc binOffsets binIndices numGradBins rotX rotY shift bW bH binShift edges')
            accLen) ∧
    (∀ (R : Type) [Zero R] (F : HoughFloat R) (binOffsets binIndices : Nat → Nat)
        (numGradBins voteWidth voteHeight : Int) (topK shift : Nat) (junk : Candidate R)
        (sched : List (List Nat)),
      HoughVotingNative F binOffsets binIndices numGradBins edges voteWidth voteHeight topK
          shift junk sched
        = HoughVotingNative F binOffsets binIndices numGradBins edges' voteWidth voteHeight
            topK shift junk sched) := by
  refine ⟨?_, ?_, ?_⟩
  · intro binOffsets binIndices numGradBins rotX rotY shift bW bH binShift
    exact voteAcc_perm binOffsets binIndices numGradBins rotX rotY shift bW bH binShift
      edges edges' h
  · intro binOffsets binIndices numGradBins rotX rotY shift bW bH binShift accLen
    rw [voteAcc_perm binOffsets binIndices numGradBins rotX rotY shift bW bH binShift
      edges edges' h]
  · intro R _ F binOffsets binIndices numGradBins voteWidth voteHeight topK shift junk sched
    simp only [HoughVotingNative]
    rw [anglePeak_perm F binOffsets binIndices numGradBins shift (voteWidth >>> shift + 1)
      (voteHeight >>> shift + 1) edges edges' h]

/-! ### Claim on what the accumulator counts -/

/-- For 32-bit values the unsigned comparison is the two-sided range check. -/
theorem toUnsigned_lt_iff (x b : Int) (hx₁ : -2 ^ 31 ≤ x) (hx₂ : x < 2 ^ 31)
    (hb₁ : 0 ≤ b) (hb₂ : b < 2 ^ 31) :
    toUnsigned x < toUnsigned b ↔ 0 ≤ x ∧ x < b := by
  unfold toUnsigned
  omega

/-- An arithmetic right shift keeps a 32-bit value in the 32-bit range. -/
theorem shiftRight_range (x : Int) (s : Nat) (hx₁ : -2 ^ 31 ≤ x) (hx₂ : x < 2 ^ 31) :
    -2 ^ 31 ≤ x >>> s ∧ x >>> s < 2 ^ 31 := by
  rw [Int.shiftRight_eq_div_pow]
  have hd : (0 : Int) < ((2 ^ s : Nat) : Int) := by positivity
  have hd1 : (1 : Int) ≤ ((2 ^ s : Nat) : Int) := hd
  constructor
  · rw [Int.le_ediv_iff_mul_le hd]
    nlinarith
  · rw [Int.ediv_lt_iff_lt_mul hd]
    nlinarith

theorem votesCell_eq_inCell (rotX rotY : Nat → Int) (shift : Nat) (bW bH ex ey : Int)
    (j c : Nat) (hbW₁ : 0 ≤ bW) (hbW₂ : bW < 2 ^ 31) (hbH₁ : 0 ≤ bH) (hbH₂ : bH < 2 ^ 31)
    (hx₁ : -2 ^ 31 ≤ ex - rotX j) (hx₂ : ex - rotX j < 2 ^ 31)
    (hy₁ : -2 ^ 31 ≤ ey - rotY j) (hy₂ : ey - rotY j < 2 ^ 31) :
    votesCell rotX rotY shift bW bH ex ey j c = inCell rotX rotY shift bW bH ex ey j c := by
  obtain ⟨hcx₁, hcx₂⟩ := shiftRight_range (ex - rotX j) shift hx₁ hx₂
  obtain ⟨hcy₁, hcy₂⟩ := shiftRight_range (ey - rotY j) shift hy₁ hy₂
  have hx := toUnsigned_lt_iff _ bW hcx₁ hcx₂ hbW₁ hbW₂
  have hy := toUnsigned_lt_iff _ bH hcy₁ hcy₂ hbH₁ hbH₂
  unfold votesCell inCell
  rw [Bool.eq_iff_iff]
  simp only [Bool.and_eq_true, decide_eq_true_eq, hx, hy]
  constructor
  · rintro ⟨⟨⟨h₁, h₂⟩, h₃, h₄⟩, h₅⟩
    refine ⟨h₁, h₂, h₃, h₄, ?_⟩
    have hnn : 0 ≤ ((ey - rotY j) >>> shift) * bW + ((ex - rotX j) >>> shift) :=
      add_nonneg (mul_nonneg h₃ hbW₁) h₁
    rw [← h₅, Int.toNat_of_nonneg hnn]
  · rintro ⟨h₁, h₂, h₃, h₄, h₅⟩
    refine ⟨⟨⟨h₁, h₂⟩, h₃, h₄⟩, ?_⟩
    rw [h₅]
    exact Int.toNat_natCast c

theorem countP_range'_eq_range (V : Nat → Bool) (s t N : Nat) (hst : s ≤ t) (htN : t ≤ N) :
    (List.range' s (t - s)).countP V
      = (List.range N).countP (fun bi => decide (s ≤ bi ∧ bi < t) && V bi) := by
  have h₁ : List.range N = List.range' 0 (s - 0) ++ (List.range' s (t - s) ++ List.range' t (N - t)) := by
    rw [range'_split s t N hst htN, range'_split 0 s N (Nat.zero_le s) (hst.trans htN),
      Nat.sub_zero, List.range_eq_range']
  rw [h₁, List.countP_append, List.countP_append]
  have e₁ : (List.range' 0 (s - 0)).countP (fun bi => decide (s ≤ bi ∧ bi < t) && V bi) = 0 := by
    rw [List.countP_eq_zero]
    intro bi hbi
    rw [List.mem_range'_1] at hbi
    have : ¬ (s ≤ bi ∧ bi < t) := by omega
    simp [this]
  have e₂ : (List.range' t (N - t)).countP (fun bi => decide (s ≤ bi ∧ bi < t) && V bi) = 0 := by
    rw [List.countP_eq_zero]
    intro bi hbi
    rw [List.mem_range'_1] at hbi
    have : ¬ (s ≤ bi ∧ bi < t) := by omega
    simp [this]
  have e₃ : (List.range' s (t - s)).countP (fun bi => decide (s ≤ bi ∧ bi < t) && V bi)
      = (List.range' s (t - s)).countP V := by
    apply List.countP_congr
    intro bi hbi
    rw [List.mem_range'_1] at hbi
    have : s ≤ bi ∧ bi < t := by omega
    simp [this]
  rw [e₁, e₂, e₃]
  omega

theorem countP_or_of_disjoint {β : Type} (p q v : β → Bool) (l : List β)
    (h : ∀ x ∈ l, ¬ (p x = true ∧ q x = true)) :
    l.countP (fun x => (p x || q x) && v x)
      = l.countP (fun x => p x && v x) + l.countP (fun x => q x && v x) := by
  induction l with
  | nil => rfl
  | cons x l ih =>
    have hx := h x (List.mem_cons_self x l)
    rw [List.countP_cons, List.countP_cons, List.countP_cons,
      ih (fun y hy => h y (List.mem_cons_of_mem x hy))]
    cases hp : p x <;> cases hq : q x <;> cases hv : v x <;> simp_all <;> omega

/-- Two integers that differ by one or two have different residues modulo
`n ≥ 3`. -/
theorem emod_ne_of_near (n a b : Int) (hn : 3 ≤ n) (hab : a ≠ b) (h₁ : a - b ≤ 2)
    (h₂ : b - a ≤ 2) : a % n ≠ b % n := by
  intro h
  have hd : n ∣ a - b := Int.dvd_of_emod_eq_zero (Int.emod_eq_emod_iff_emod_sub_eq_zero.1 h)
  rcases lt_trichotomy (a - b) 0 with hlt | heq | hgt
  · have hd' : n ∣ b - a := by
      have := (Int.dvd_neg).2 hd
      rwa [neg_sub] at this
    have := Int.le_of_dvd (by omega) hd'
    omega
  · exact hab (by omega)
  · have := Int.le_of_dvd hgt hd
    omega

/-- Monotone offsets: the offset of a lower bin is at most that of a higher one. -/
theorem binOffsets_mono (binOffsets : Nat → Nat) (n : Nat)
    (hmono : ∀ b, b < n → binOffsets b ≤ binOffsets (b + 1)) (a b : Nat) (hab : a ≤ b)
    (hb : b ≤ n) : binOffsets a ≤ binOffsets b := by
  induction b with
  | zero =>
    have : a = 0 := by omega
    rw [this]
  | succ b ih =>
    rcases Nat.eq_or_lt_of_le hab with heq | hlt
    · rw [heq]
    · exact (ih (by omega) (by omega)).trans (hmono b (by omega))

theorem inBinOf_disjoint (binOffsets : Nat → Nat) (n : Nat) (hn : 3 ≤ n)
    (hmono : ∀ b, b < n → binOffsets b ≤ binOffsets (b + 1)) (binShift sb : Int) (bi : Nat)
    (db db' : Int) (hne : db ≠ db') (h₁ : db - db' ≤ 2) (h₂ : db' - db ≤ 2) :
    ¬ (inBinOf binOffsets n binShift sb bi db = true
        ∧ inBinOf binOffsets n binShift sb bi db' = true) := by
  unfold inBinOf
  rw [decide_eq_true_eq, decide_eq_true_eq]
  rintro ⟨⟨ha₁, ha₂⟩, hb₁, hb₂⟩
  have hn0 : (n : Int) ≠ 0 := by omega
  have hnpos : (0 : Int) < n := by omega
  have hr := emod_ne_of_near n (sb - binShift + db) (sb - binShift + db') (by omega)
    (by omega) (by omega) (by omega)
  have hr₁ := Int.emod_nonneg (sb - binShift + db) hn0
  have hr₂ := Int.emod_lt_of_pos (sb - binShift + db) hnpos
  have hr₃ := Int.emod_nonneg (sb - binShift + db') hn0
  have hr₄ := Int.emod_lt_of_pos (sb - binShift + db') hnpos
  rcases Nat.lt_or_gt_of_ne (show ((sb - binShift + db) % (n : Int)).toNat
      ≠ ((sb - binShift + db') % (n : Int)).toNat by omega) with hlt | hgt
  · have := binOffsets_mono binOffsets n hmono
      (((sb - binShift + db) % (n : Int)).toNat + 1) ((sb - binShift + db') % (n : Int)).toNat
      (by omega) (by omega)
    omega
  · have := binOffsets_mono binOffsets n hmono
      (((sb - binShift + db') % (n : Int)).toNat + 1) ((sb - binShift + db) % (n : Int)).toNat
      (by omega) (by omega)
    omega

theorem binVotes_eq_countP (binOffsets binIndices : Nat → Nat) (n : Nat) (hn : 1 ≤ n)
    (hmono : ∀ b, b < n → binOffsets b ≤ binOffsets (b + 1)) (rotX rotY : Nat → Int)
    (shift : Nat) (bW bH binShift : Int) (e : Int × Int × Int) (c : Nat) (db : Int)
    (hbW₁ : 0 ≤ bW) (hbW₂ : bW < 2 ^ 31) (hbH₁ : 0 ≤ bH) (hbH₂ : bH < 2 ^ 31)
    (hrange : ∀ bi, bi < binOffsets n →
      -2 ^ 31 ≤ e.1 - rotX (binIndices bi) ∧ e.1 - rotX (binIndices bi) < 2 ^ 31 ∧
      -2 ^ 31 ≤ e.2.1 - rotY (binIndices bi) ∧ e.2.1 - rotY (binIndices bi) < 2 ^ 31) :
    binVotes binOffsets binIndices n rotX rotY shift bW bH binShift e c db
      = (List.range (binOffsets n)).countP (fun bi =>
          inBinOf binOffsets n binShift e.2.2 bi db
            && inCell rotX rotY shift bW bH e.1 e.2.1 (binIndices bi) c) := by
  have hn0 : (n : Int) ≠ 0 := by omega
  have hnpos : (0 : Int) < n := by omega
  have hr₁ := Int.emod_nonneg (e.2.2 - binShift + db) hn0
  have hr₂ := Int.emod_lt_of_pos (e.2.2 - binShift + db) hnpos
  have hsucc : ((e.2.2 - binShift + db) % (n : Int) + 1).toNat
      = ((e.2.2 - binShift + db) % (n : Int)).toNat + 1 := by omega
  unfold binVotes
  rw [modelBin_eq_emod _ _ _ _ (by omega : (1 : Int) ≤ (n : Int)), hsucc,
    countP_range'_eq_range _ _ _ (binOffsets n)
      (hmono _ (by omega))
      (binOffsets_mono binOffsets n hmono _ _ (by omega) (by omega))]
  apply List.countP_congr
  intro bi hbi
  obtain ⟨hx₁, hx₂, hy₁, hy₂⟩ := hrange bi (List.mem_range.1 hbi)
  rw [votesCell_eq_inCell rotX rotY shift bW bH e.1 e.2.1 (binIndices bi) c hbW₁ hbW₂
    hbH₁ hbH₂ hx₁ hx₂ hy₁ hy₂]
  rfl

theorem edgeVotes_eq_countP (binOffsets binIndices : Nat → Nat) (n : Nat) (hn : 3 ≤ n)
    (hmono : ∀ b, b < n → binOffsets b ≤ binOffsets (b + 1)) (rotX rotY : Nat → Int)
    (shift : Nat) (bW bH binShift : Int) (e : Int × Int × Int) (c : Nat)
    (hbW₁ : 0 ≤ bW) (hbW₂ : bW < 2 ^ 31) (hbH₁ : 0 ≤ bH) (hbH₂ : bH < 2 ^ 31)
    (hrange : ∀ bi, bi < binOffsets n →
      -2 ^ 31 ≤ e.1 - rotX (binIndices bi) ∧ e.1 - rotX (binIndices bi) < 2 ^ 31 ∧
      -2 ^ 31 ≤ e.2.1 - rotY (binIndices bi) ∧ e.2.1 - rotY (binIndices bi) < 2 ^ 31) :
    edgeVotes binOffsets binIndices n rotX rotY shift bW bH binShift e c
      = (List.range (binOffsets n)).countP (fun bi =>
          nearBin binOffsets n binShift e.2.2 bi
            && inCell rotX rotY shift bW bH e.1 e.2.1 (binIndices bi) c) := by
  have hl : loopRange (-1) 1 = [-1, 0, 1] := by decide
  have hB := fun db => binVotes_eq_countP binOffsets binIndices n (by omega) hmono rotX rotY
    shift bW bH binShift e c db hbW₁ hbW₂ hbH₁ hbH₂ hrange
  unfold edgeVotes nearBin
  rw [hl, List.map_cons, List.map_cons, List.map_cons, List.map_nil, List.sum_cons,
    List.sum_cons, List.sum_cons, List.sum_nil, hB, hB, hB,
    countP_or_of_disjoint (fun bi => inBinOf binOffsets n binShift e.2.2 bi (-1))
      (fun bi => inBinOf binOffsets n binShift e.2.2 bi 0
        || inBinOf binOffsets n binShift e.2.2 bi 1)
      (fun bi => inCell rotX rotY shift bW bH e.1 e.2.1 (binIndices bi) c),
    countP_or_of_disjoint (fun bi => inBinOf binOffsets n binShift e.2.2 bi 0)
      (fun bi => inBinOf binOffsets n binShift e.2.2 bi 1)
      (fun bi => inCell rotX rotY shift bW bH e.1 e.2.1 (binIndices bi) c)]
  · omega
  · intro bi _
    exact inBinOf_disjoint binOffsets n hn hmono binShift e.2.2 bi 0 1 (by decide) (by decide)
      (by decide)
  · intro bi _
    rw [Bool.or_eq_true]
    rintro ⟨h₁, h₂ | h₂⟩
    · exact inBinOf_disjoint binOffsets n hn hmono binShift e.2.2 bi (-1) 0 (by decide)
        (by decide) (by decide) ⟨h₁, h₂⟩
    · exact inBinOf_disjoint binOffsets n hn hmono binShift e.2.2 bi (-1) 1 (by decide)
        (by decide) (by decide) ⟨h₁, h₂⟩

theorem voteAcc_eq_tripleCount (binOffsets binIndices : Nat → Nat) (n : Nat) (hn : 1 ≤ n)
    (hmono : ∀ b, b < n → binOffsets b ≤ binOffsets (b + 1)) (rotX rotY : Nat → Int)
    (shift : Nat) (bW bH binShift : Int) (edges : List (Int × Int × Int))
    (hbW₁ : 0 ≤ bW) (hbW₂ : bW < 2 ^ 31) (hbH₁ : 0 ≤ bH) (hbH₂ : bH < 2 ^ 31)
    (hrange : ∀ e ∈ edges, ∀ bi, bi < binOffsets n →
      -2 ^ 31 ≤ e.1 - rotX (binIndices bi) ∧ e.1 - rotX (binIndices bi) < 2 ^ 31 ∧
      -2 ^ 31 ≤ e.2.1 - rotY (binIndices bi) ∧ e.2.1 - rotY (binIndices bi) < 2 ^ 31)
    (c : Nat) :
    voteAcc binOffsets binIndices n rotX rotY shift bW bH binShift edges c
      = tripleCount binOffsets binIndices n rotX rotY shift bW bH binShift edges c := by
  have hl : loopRange (-1) 1 = [-1, 0, 1] := by decide
  rw [voteAcc_apply]
  unfold tripleCount edgeVotes
  rw [Int.toNat_natCast, hl]
  congr 1
  apply List.map_congr_left
  intro e he
  congr 1
  apply List.map_congr_left
  intro db _
  exact binVotes_eq_countP binOffsets binIndices n hn hmono rotX rotY shift bW bH binShift e c
    db hbW₁ hbW₂ hbH₁ hbH₂ (hrange e he)

theorem voteAcc_eq_pairCount (binOffsets binIndices : Nat → Nat) (n : Nat) (hn : 3 ≤ n)
    (hmono : ∀ b, b < n → binOffsets b ≤ binOffsets (b + 1)) (rotX rotY : Nat → Int)
    (shift : Nat) (bW bH binShift : Int) (edges : List (Int × Int × Int))
    (hbW₁ : 0 ≤ bW) (hbW₂ : bW < 2 ^ 31) (hbH₁ : 0 ≤ bH) (hbH₂ : bH < 2 ^ 31)
    (hrange : ∀ e ∈ edges, ∀ bi, bi < binOffsets n →
      -2 ^ 31 ≤ e.1 - rotX (binIndices bi) ∧ e.1 - rotX (binIndices bi) < 2 ^ 31 ∧
      -2 ^ 31 ≤ e.2.1 - rotY (binIndices bi) ∧ e.2.1 - rotY (binIndices bi) < 2 ^ 31)
    (c : Nat) :
    voteAcc binOffsets binIndices n rotX rotY shift bW bH binShift edges c
      = pairCount binOffsets binIndices n rotX rotY shift bW bH binShift edges c := by
  rw [voteAcc_apply]
  unfold pairCount
  rw [Int.toNat_natCast]
  congr 1
  apply List.map_congr_left
  intro e he
  exact edgeVotes_eq_countP binOffsets binIndices n hn hmono rotX rotY shift bW bH binShift e c
    hbW₁ hbW₂ hbH₁ hbH₂ (hrange e he)

/-- C17 (as stated, refuted): with `numGradBins = 1`, the CSR index
`binOffsets = [0, 1]`, `binIndices = [0]`, one model point rotated to `(0, 0)`,
one search edge `(0, 0)` of bin `0`, `shift = 0` and a `1 × 1` accumulator, the
three values of `db` all select bin `0`, so the single (search edge, position)
pair is counted three times: the cell holds `3`, while the number of pairs is `1`. -/
theorem vote_accumulator_pair_count_counterexample :
    voteAcc (fun b => b) (fun bi => bi) 1 (fun _ => 0) (fun _ => 0) 0 1 1 0 [(0, 0, 0)] 0 = 3 ∧
    pairCount (fun b => b) (fun bi => bi) 1 (fun _ => 0) (fun _ => 0) 0 1 1 0 [(0, 0, 0)] 0
      = 1 := by
  decide

/-- C17 (amended): let `numGradBins = n ≥ 1`, the offsets be monotone over the
bins, `0 ≤ bW, bH < 2^31`, and the differences `ex - rotX[j]`, `ey - rotY[j]`
fit in 32 bits for every search edge and every indexed model point
`j = binIndices[bi]`. Then after the voting loop each cell `c` holds the number
of triples (search edge, `db ∈ {-1, 0, 1}`, position `bi`) with `bi` in the bin
`(sb - binShift + db) mod n` and `((ex - rotX[j]) >> shift, (ey - rotY[j]) >> shift)`
equal to cell `c`; and when `n ≥ 3` this is exactly the number of (search edge,
position `bi`) pairs whose bin is within `±1` (cyclically) of `sb - binShift` and
whose cell is `c`, each pair counted once. -/
theorem vote_accumulator_counts_near_pairs (binOffsets binIndices : Nat → Nat) (n : Nat)
    (hn : 1 ≤ n) (hmono : ∀ b, b < n → binOffsets b ≤ binOffsets (b + 1))
    (rotX rotY : Nat → Int) (shift : Nat) (bW bH binShift : Int)
    (edges : List (Int × Int × Int))
    (hbW₁ : 0 ≤ bW) (hbW₂ : bW < 2 ^ 31) (hbH₁ : 0 ≤ bH) (hbH₂ : bH < 2 ^ 31)
    (hrange : ∀ e ∈ edges, ∀ bi, bi < binOffsets n →
      -2 ^ 31 ≤ e.1 - rotX (binIndices bi) ∧ e.1 - rotX (binIndices bi) < 2 ^ 31 ∧
      -2 ^ 31 ≤ e.2.1 - rotY (binIndices bi) ∧ e.2.1 - rotY (binIndices bi) < 2 ^ 31)
    (c : Nat) :
    voteAcc binOffsets binIndices n rotX rotY shift bW bH binShift edges c
        = tripleCount binOffsets binIndices n rotX rotY shift bW bH binShift edges c ∧
    (3 ≤ n →
      voteAcc binOffsets binIndices n rotX rotY shift bW bH binShift edges c
        = pairCount binOffsets binIndices n rotX rotY shift bW bH binShift edges c) :=
  ⟨voteAcc_eq_tripleCount binOffsets binIndices n hn hmono rotX rotY shift bW bH binShift edges
      hbW₁ hbW₂ hbH₁ hbH₂ hrange c,
   fun h3 => voteAcc_eq_pairCount binOffsets binIndices n h3 hmono rotX rotY shift bW bH
      binShift edges hbW₁ hbW₂ hbH₁ hbH₂ hrange c⟩

theorem vote_accumulator_counts_near_pairs_witness :
    (voteAcc (fun b => b) (fun bi => bi) ((4 : Nat) : Int) (fun j => (j : Int)) (fun _ => 0) 0
        4 4 0 [(2, 1, 0), (0, 0, 0), (2, 1, 0)] 6 = 2) ∧
    (voteAcc (fun b => b) (fun bi => bi) ((4 : Nat) : Int) (fun j => (j : Int)) (fun _ => 0) 0
        4 4 0 [(2, 1, 0), (0, 0, 0), (2, 1, 0)] 6
      = tripleCount (fun b => b) (fun bi => bi) ((4 : Nat) : Int) (fun j => (j : Int))
          (fun _ => 0) 0 4 4 0 [(2, 1, 0), (0, 0, 0), (2, 1, 0)] 6) ∧
    (voteAcc (fun b => b) (fun bi => bi) ((4 : Nat) : Int) (fun j => (j : Int)) (fun _ => 0) 0
        4 4 0 [(2, 1, 0), (0, 0, 0), (2, 1, 0)] 6
      = pairCount (fun b => b) (fun bi => bi) ((4 : Nat) : Int) (fun j => (j : Int))
          (fun _ => 0) 0 4 4 0 [(2, 1, 0), (0, 0, 0), (2, 1, 0)] 6) :=
  have h := vote_accumulator_counts_near_pairs (fun b => b) (fun bi => bi) 4 (by decide)
    (fun b _ => Nat.le_succ b) (fun j => (j : Int)) (fun _ => 0) 0 4 4 0
    [(2, 1, 0), (0, 0, 0), (2, 1, 0)] (by decide) (by decide) (by decide) (by decide)
    (by decide) 6
  ⟨by decide, h.1, h.2 (by decide)⟩

theorem hough_vote_edge_order_invariant_witness :
    ([(2, 1, 0), (0, 0, 0), (2, 1, 0)] : List (Int × Int × Int)).Perm
        [(0, 0, 0), (2, 1, 0), (2, 1, 0)] ∧
    voteAcc (fun b => b) (fun bi => bi) 1 (fun _ => 0) (fun _ => 0) 0 4 4 0
        [(2, 1, 0), (0, 0, 0), (2, 1, 0)] 6 = 6 ∧
    voteAcc (fun b => b) (fun bi => bi) 1 (fun _ => 0) (fun _ => 0) 0 4 4 0
        [(2, 1, 0), (0, 0, 0), (2, 1, 0)]
      = voteAcc (fun b => b) (fun bi => bi) 1 (fun _ => 0) (fun _ => 0) 0 4 4 0
        [(0, 0, 0), (2, 1, 0), (2, 1, 0)] ∧
    HoughVotingNative exampleFloat (fun b => b) (fun bi => bi) 1
        [(2, 1, 0), (0, 0, 0), (2, 1, 0)] 3 3 2 0 ⟨0, 0, 0, 0⟩ [[0, 1], [2]]
      = HoughVotingNative exampleFloat (fun b => b) (fun bi => bi) 1
        [(0, 0, 0), (2, 1, 0), (2, 1, 0)] 3 3 2 0 ⟨0, 0, 0, 0⟩ [[0, 1], [2]] :=
  have h := hough_vote_edge_order_invariant [(2, 1, 0), (0, 0, 0), (2, 1, 0)]
    [(0, 0, 0), (2, 1, 0), (2, 1, 0)] (by decide)
  ⟨by decide, by decide, h.1 _ _ _ _ _ _ _ _ _, h.2.2 Int exampleFloat _ _ _ _ _ _ _ _ _⟩

/-! ### Claim on the returned score under every schedule -/

/-- Under a schedule that executes every pose exactly once, the returned
`bestScore` is at least `0`, at least the score of every in-bounds lattice
point of every pose, and it is `0` or one of these scores. -/
theorem allPoses_bestScore_char {α : Type} [LinearOrder α] [Zero α]
    (score : Nat → Int → Int → α) (margins : Nat → Int) (poseCount : Nat)
    (baseCx baseCy refRadius imgW imgH : Int) (sched : List (List Nat))
    (hs : sched.flatten.Perm (List.range poseCount)) :
    0 ≤ (EvaluateAllPosesNative score margins baseCx baseCy refRadius imgW imgH sched).bestScore ∧
    (∀ p dx dy, p < poseCount →
      IsCandidate baseCx baseCy refRadius imgW imgH (margins p) dx dy →
      score p (baseCx + dx) (baseCy + dy)
        ≤ (EvaluateAllPosesNative score margins baseCx baseCy refRadius imgW imgH
            sched).bestScore) ∧
    ((EvaluateAllPosesNative score margins baseCx baseCy refRadius imgW imgH sched).bestScore = 0 ∨
      ∃ p dx dy, p < poseCount ∧
        IsCandidate baseCx baseCy refRadius imgW imgH (margins p) dx dy ∧
        score p (baseCx + dx) (baseCy + dy)
          = (EvaluateAllPosesNative score margins baseCx baseCy refRadius imgW imgH
              sched).bestScore) := by
  rw [EvaluateAllPosesNative_eq_scan]
  have hge := scanBest_key_le PoseResult.bestScore PoseResult.bestScore id (fun _ => rfl)
    (sched.flatten.map
      (posesBody score margins baseCx baseCy refRadius imgW imgH ⟨0, 0, 0, 0⟩))
    (⟨0, 0, 0, 0⟩ : PoseResult α)
  refine ⟨hge, ?_, ?_⟩
  · intro p dx dy hp hc
    refine le_trans
      (posesBody_zero_ge score margins baseCx baseCy refRadius imgW imgH p dx dy hc) ?_
    exact scanBest_val_le PoseResult.bestScore PoseResult.bestScore id (fun _ => rfl) _ _ _
      (List.mem_map.mpr ⟨p, hs.mem_iff.mpr (List.mem_range.mpr hp), rfl⟩)
  · rcases scanBest_cases PoseResult.bestScore PoseResult.bestScore id (fun _ => rfl)
        (sched.flatten.map
          (posesBody score margins baseCx baseCy refRadius imgW imgH ⟨0, 0, 0, 0⟩))
        (⟨0, 0, 0, 0⟩ : PoseResult α)
      with ⟨hr, -⟩ | ⟨l₁, c, l₂, hcs, hr, -, -, -⟩
    · left; rw [hr]
    · have hmem : c ∈ sched.flatten.map
          (posesBody score margins baseCx baseCy refRadius imgW imgH ⟨0, 0, 0, 0⟩) := by
        rw [hcs]; simp
      obtain ⟨p, hp, rfl⟩ := List.mem_map.mp hmem
      have hpn : p < poseCount := List.mem_range.mp (hs.mem_iff.mp hp)
      rw [hr]
      rcases posesBody_zero_cases score margins baseCx baseCy refRadius imgW imgH p
        with h0 | ⟨dx, dy, hc, hsc, -⟩
      · left; exact h0
      · right; exact ⟨p, dx, dy, hpn, hc, hsc.symm⟩

/-- Two schedules that execute every pose exactly once return the same
`bestScore`. -/
theorem allPoses_bestScore_eq {α : Type} [LinearOrder α] [Zero α]
    (score : Nat → Int → Int → α) (margins : Nat → Int) (poseCount : Nat)
    (baseCx baseCy refRadius imgW imgH : Int) (sched sched' : List (List Nat))
    (hs : sched.flatten.Perm (List.range poseCount))
    (hs' : sched'.flatten.Perm (List.range poseCount)) :
    (EvaluateAllPosesNative score margins baseCx baseCy refRadius imgW imgH sched).bestScore
      = (EvaluateAllPosesNative score margins baseCx baseCy refRadius imgW imgH
          sched').bestScore := by
  obtain ⟨h₀, hub, hat⟩ := allPoses_bestScore_char score margins poseCount baseCx baseCy
    refRadius imgW imgH sched hs
  obtain ⟨h₀', hub', hat'⟩ := allPoses_bestScore_char score margins poseCount baseCx baseCy
    refRadius imgW imgH sched' hs'
  apply le_antisymm
  · rcases hat with h | ⟨p, dx, dy, hp, hc, h⟩
    · rw [h]; exact h₀'
    · rw [← h]; exact hub' p dx dy hp hc
  · rcases hat' with h | ⟨p, dx, dy, hp, hc, h⟩
    · rw [h]; exact h₀
    · rw [← h]; exact hub p dx dy hp hc

/-- The serial reference is the result under the schedule with one worker that
executes every pose in ascending order. -/
theorem serialAllPoses_eq_single_worker {α : Type} [LinearOrder α] [Zero α]
    (score : Nat → Int → Int → α) (margins : Nat → Int) (poseCount : Nat)
    (baseCx baseCy refRadius imgW imgH : Int) :
    serialAllPoses score margins poseCount baseCx baseCy refRadius imgW imgH
      = EvaluateAllPosesNative score margins baseCx baseCy refRadius imgW imgH
          [List.range poseCount] := by
  rw [serialAllPoses_eq_scan, EvaluateAllPosesNative_eq_scan, List.flatten_singleton]

/-- C23: for every schedule that gives every pose index to exactly one worker
(any assignment, any order within a worker, any order of the critical
sections), the returned `bestScore` is `max(0, maximum score over all poses and
their in-bounds lattice points)`: it is at least `0`, at least every such score,
and it is `0` or one of these scores. Hence it equals the `bestScore` of the
serial reference and that of every other such schedule. -/
theorem evaluate_all_poses_bestScore_schedule_independent {α : Type} [LinearOrder α] [Zero α]
    (score : Nat → Int → Int → α) (margins : Nat → Int) (poseCount : Nat)
    (baseCx baseCy refRadius imgW imgH : Int) (sched : List (List Nat))
    (hs : sched.flatten.Perm (List.range poseCount)) :
    0 ≤ (EvaluateAllPosesNative score margins baseCx baseCy refRadius imgW imgH sched).bestScore ∧
    (∀ p dx dy, p < poseCount →
      IsCandidate baseCx baseCy refRadius imgW imgH (margins p) dx dy →
      score p (baseCx + dx) (baseCy + dy)
        ≤ (EvaluateAllPosesNative score margins baseCx baseCy refRadius imgW imgH
            sched).bestScore) ∧
    ((EvaluateAllPosesNative score margins baseCx baseCy refRadius imgW imgH sched).bestScore = 0 ∨
      ∃ p dx dy, p < poseCount ∧
        IsCandidate baseCx baseCy refRadius imgW imgH (margins p) dx dy ∧
        score p (baseCx + dx) (baseCy + dy)
          = (EvaluateAllPosesNative score margins baseCx baseCy refRadius imgW imgH
              sched).bestScore) ∧
    (EvaluateAllPosesNative score margins baseCx baseCy refRadius imgW imgH sched).bestScore
      = (serialAllPoses score margins poseCount baseCx baseCy refRadius imgW imgH).bestScore ∧
    (∀ sched' : List (List Nat), sched'.flatten.Perm (List.range poseCount) →
      (EvaluateAllPosesNative score margins baseCx baseCy refRadius imgW imgH sched').bestScore
        = (EvaluateAllPosesNative score margins baseCx baseCy refRadius imgW imgH
            sched).bestScore) := by
  obtain ⟨h₀, hub, hat⟩ := allPoses_bestScore_char score margins poseCount baseCx baseCy
    refRadius imgW imgH sched hs
  refine ⟨h₀, hub, hat, ?_, ?_⟩
  · rw [serialAllPoses_eq_single_worker]
    exact allPoses_bestScore_eq score margins poseCount baseCx baseCy refRadius imgW imgH
      sched [List.range poseCount] hs (by rw [List.flatten_singleton])
  · intro sched' hs'
    exact allPoses_bestScore_eq score margins poseCount baseCx baseCy refRadius imgW imgH
      sched' sched hs' hs

/-- Witness for C23: two poses that both score `1` at their single in-bounds
lattice point. The two schedules return different pose indices but the same
`bestScore = 1`; with scores `-1` everywhere the returned score is `0`. -/
theorem evaluate_all_poses_bestScore_schedule_independent_witness :
    (EvaluateAllPosesNative (fun _ _ _ => (1 : Int)) (fun _ => 0) 0 0 0 1 1 [[0], [1]]).bestScore
      = (EvaluateAllPosesNative (fun _ _ _ => (1 : Int)) (fun _ => 0) 0 0 0 1 1
          [[1], [0]]).bestScore ∧
    (EvaluateAllPosesNative (fun _ _ _ => (1 : Int)) (fun _ => 0) 0 0 0 1 1 [[1], [0]]).bestScore
      = 1 ∧
    (EvaluateAllPosesNative (fun _ _ _ => (1 : Int)) (fun _ => 0) 0 0 0 1 1 [[0], [1]]).bestPose
      ≠ (EvaluateAllPosesNative (fun _ _ _ => (1 : Int)) (fun _ => 0) 0 0 0 1 1
          [[1], [0]]).bestPose ∧
    (EvaluateAllPosesNative (fun _ _ _ => (-1 : Int)) (fun _ => 0) 0 0 0 1 1
        [[1], [0]]).bestScore = 0 :=
  ⟨(evaluate_all_poses_bestScore_schedule_independent (fun _ _ _ => (1 : Int)) (fun _ => 0) 2
      0 0 0 1 1 [[1], [0]] (List.Perm.swap 0 1 [])).2.2.2.2 [[0], [1]] (List.Perm.refl _),
   by decide, by decide, by decide⟩

/-! ### Claim on the bounds check of a vote -/

/-- For a 32-bit value `x` and a bound `0 ≤ b ≤ 2^31` the unsigned comparison
is the two-sided range check. -/
theorem toUnsigned_lt_iff_of_le (x b : Int) (hx₁ : -2 ^ 31 ≤ x) (hx₂ : x < 2 ^ 31)
    (hb₁ : 0 ≤ b) (hb₂ : b ≤ 2 ^ 31) :
    toUnsigned x < toUnsigned b ↔ 0 ≤ x ∧ x < b := by
  unfold toUnsigned
  omega

/-- The accumulator dimension `(v >> shift) + 1` of a non-negative 32-bit `v`
lies between `1` and `2^31`. -/
theorem accDim_range (v : Int) (s : Nat) (hv₁ : 0 ≤ v) (hv₂ : v < 2 ^ 31) :
    1 ≤ v >>> s + 1 ∧ v >>> s + 1 ≤ 2 ^ 31 := by
  rw [Int.shiftRight_eq_div_pow]
  have hd : (0 : Int) < ((2 ^ s : Nat) : Int) := by positivity
  have h₁ : 0 ≤ v / ((2 ^ s : Nat) : Int) := Int.ediv_nonneg hv₁ (le_of_lt hd)
  have h₂ : v / ((2 ^ s : Nat) : Int) ≤ v := Int.ediv_le_self _ hv₁
  constructor <;> omega

/-- A cell `(cx, cy)` of the `bW × bH` grid has its linear index in `[0, bW * bH)`. -/
theorem cell_index_range (cx cy bW bH : Int) (hx₁ : 0 ≤ cx) (hx₂ : cx < bW) (hy₁ : 0 ≤ cy)
    (hy₂ : cy < bH) : 0 ≤ cy * bW + cx ∧ cy * bW + cx < bW * bH := by
  have hbW : 0 ≤ bW := by omega
  constructor
  · exact add_nonneg (mul_nonneg hy₁ hbW) hx₁
  · have h : cy * bW ≤ (bH - 1) * bW := mul_le_mul_of_nonneg_right (by omega) hbW
    have e : (bH - 1) * bW = bW * bH - bW := by ring
    omega

/-- C22: let the differences `ex - rotX[j]`, `ey - rotY[j]` fit in 32 bits and
`voteWidth`, `voteHeight` be non-negative 32-bit values, with
`bW = (voteWidth >> shift) + 1`, `bH = (voteHeight >> shift) + 1`,
`cx = (ex - rotX[j]) >> shift`, `cy = (ey - rotY[j]) >> shift`. Then `>>` is the
floor division by `2^shift`; the unsigned test of the code holds exactly when
`0 ≤ cx < bW` and `0 ≤ cy < bH`; the loop body increments cell `cy * bW + cx`
exactly in that case and leaves the accumulator unchanged otherwise; and the
incremented index lies in `[0, bW * bH)`. -/
theorem vote_cast_iff_in_range (rotX rotY : Nat → Int) (shift : Nat)
    (voteWidth voteHeight ex ey : Int) (acc : Nat → Nat) (j : Nat)
    (hW₁ : 0 ≤ voteWidth) (hW₂ : voteWidth < 2 ^ 31)
    (hH₁ : 0 ≤ voteHeight) (hH₂ : voteHeight < 2 ^ 31)
    (hx₁ : -2 ^ 31 ≤ ex - rotX j) (hx₂ : ex - rotX j < 2 ^ 31)
    (hy₁ : -2 ^ 31 ≤ ey - rotY j) (hy₂ : ey - rotY j < 2 ^ 31) :
    ((ex - rotX j) >>> shift = (ex - rotX j) / 2 ^ shift ∧
      (ey - rotY j) >>> shift = (ey - rotY j) / 2 ^ shift) ∧
    ((toUnsigned ((ex - rotX j) >>> shift) < toUnsigned (voteWidth >>> shift + 1) ∧
        toUnsigned ((ey - rotY j) >>> shift) < toUnsigned (voteHeight >>> shift + 1)) ↔
      (0 ≤ (ex - rotX j) >>> shift ∧ (ex - rotX j) >>> shift < voteWidth >>> shift + 1 ∧
        0 ≤ (ey - rotY j) >>> shift ∧ (ey - rotY j) >>> shift < voteHeight >>> shift + 1)) ∧
    castVote rotX rotY shift (voteWidth >>> shift + 1) (voteHeight >>> shift + 1) ex ey acc j
      = (if 0 ≤ (ex - rotX j) >>> shift ∧ (ex - rotX j) >>> shift < voteWidth >>> shift + 1 ∧
            0 ≤ (ey - rotY j) >>> shift ∧ (ey - rotY j) >>> shift < voteHeight >>> shift + 1
         then Function.update acc
           (((ey - rotY j) >>> shift) * (voteWidth >>> shift + 1)
              + (ex - rotX j) >>> shift).toNat
           (acc (((ey - rotY j) >>> shift) * (voteWidth >>> shift + 1)
              + (ex - rotX j) >>> shift).toNat + 1)
         else acc) ∧
    (0 ≤ (ex - rotX j) >>> shift ∧ (ex - rotX j) >>> shift < voteWidth >>> shift + 1 ∧
        0 ≤ (ey - rotY j) >>> shift ∧ (ey - rotY j) >>> shift < voteHeight >>> shift + 1 →
      0 ≤ ((ey - rotY j) >>> shift) * (voteWidth >>> shift + 1) + (ex - rotX j) >>> shift ∧
      ((ey - rotY j) >>> shift) * (voteWidth >>> shift + 1) + (ex - rotX j) >>> shift
        < (voteWidth >>> shift + 1) * (voteHeight >>> shift + 1) ∧
      (((ey - rotY j) >>> shift) * (voteWidth >>> shift + 1) + (ex - rotX j) >>> shift).toNat
        < ((voteWidth >>> shift + 1) * (voteHeight >>> shift + 1)).toNat) := by
  obtain ⟨hcx₁, hcx₂⟩ := shiftRight_range (ex - rotX j) shift hx₁ hx₂
  obtain ⟨hcy₁, hcy₂⟩ := shiftRight_range (ey - rotY j) shift hy₁ hy₂
  obtain ⟨hbW₁, hbW₂⟩ := accDim_range voteWidth shift hW₁ hW₂
  obtain ⟨hbH₁, hbH₂⟩ := accDim_range voteHeight shift hH₁ hH₂
  have hx := toUnsigned_lt_iff_of_le _ (voteWidth >>> shift + 1) hcx₁ hcx₂ (by omega) hbW₂
  have hy := toUnsigned_lt_iff_of_le _ (voteHeight >>> shift + 1) hcy₁ hcy₂ (by omega) hbH₂
  have hiff : (toUnsigned ((ex - rotX j) >>> shift) < toUnsigned (voteWidth >>> shift + 1) ∧
        toUnsigned ((ey - rotY j) >>> shift) < toUnsigned (voteHeight >>> shift + 1)) ↔
      (0 ≤ (ex - rotX j) >>> shift ∧ (ex - rotX j) >>> shift < voteWidth >>> shift + 1 ∧
        0 ≤ (ey - rotY j) >>> shift ∧ (ey - rotY j) >>> shift < voteHeight >>> shift + 1) := by
    rw [hx, hy]
    tauto
  refine ⟨⟨?_, ?_⟩, hiff, ?_, ?_⟩
  · rw [Int.shiftRight_eq_div_pow]; norm_cast
  · rw [Int.shiftRight_eq_div_pow]; norm_cast
  · unfold castVote
    by_cases hr : 0 ≤ (ex - rotX j) >>> shift ∧ (ex - rotX j) >>> shift < voteWidth >>> shift + 1 ∧
        0 ≤ (ey - rotY j) >>> shift ∧ (ey - rotY j) >>> shift < voteHeight >>> shift + 1
    · rw [if_pos (hiff.2 hr), if_pos hr]
    · rw [if_neg (fun h => hr (hiff.1 h)), if_neg hr]
  · rintro ⟨h₁, h₂, h₃, h₄⟩
    obtain ⟨hi₁, hi₂⟩ := cell_index_range _ _ _ _ h₁ h₂ h₃ h₄
    exact ⟨hi₁, hi₂, (Int.toNat_lt_toNat (lt_of_le_of_lt hi₁ hi₂)).2 hi₂⟩

/-- Witness for C22: `shift = 1`, `voteWidth = voteHeight = 7` (a `4 × 4` grid),
edge `(5, 3)` and a model point rotated to `(0, 0)`: the vote goes to cell
`1 * 4 + 2 = 6`. -/
theorem vote_cast_iff_in_range_witness :
    castVote (fun _ => 0) (fun _ => 0) 1 (7 >>> 1 + 1) (7 >>> 1 + 1) 5 3 (fun _ => 0) 0 6 = 1 ∧
    castVote (fun _ => 0) (fun _ => 0) 1 (7 >>> 1 + 1) (7 >>> 1 + 1) (-1) 3 (fun _ => 0) 0
      = (if 0 ≤ ((-1 : Int) - 0) >>> 1 ∧ ((-1 : Int) - 0) >>> 1 < 7 >>> 1 + 1 ∧
            0 ≤ ((3 : Int) - 0) >>> 1 ∧ ((3 : Int) - 0) >>> 1 < 7 >>> 1 + 1
         then Function.update (fun _ => 0)
           ((((3 : Int) - 0) >>> 1) * (7 >>> 1 + 1) + ((-1 : Int) - 0) >>> 1).toNat
           ((fun _ => 0) ((((3 : Int) - 0) >>> 1) * (7 >>> 1 + 1)
              + ((-1 : Int) - 0) >>> 1).toNat + 1)
         else fun _ => 0) ∧
    ¬ (0 ≤ ((-1 : Int) - 0) >>> 1) :=
  ⟨by decide,
   (vote_cast_iff_in_range (fun _ => 0) (fun _ => 0) 1 7 7 (-1) 3 (fun _ => 0) 0
      (by decide) (by decide) (by decide) (by decide) (by decide) (by decide) (by decide)
      (by decide)).2.2.1,
   by decide⟩

/-! ### The image reads of `EvaluateBatchNative` -/

theorem mem_readsOfBlock (offsets : Nat → Int) (base : Int) (i : Nat) (r : Nat × Int)
    (h : r ∈ readsOfBlock offsets base i) :
    i ≤ r.1 ∧ r.1 < i + 8 ∧ r.2 = offsets r.1 + base := by
  unfold readsOfBlock at h
  obtain ⟨l, hl, rfl⟩ := List.mem_map.mp h
  have := List.mem_range.mp hl
  exact ⟨by omega, by omega, rfl⟩

theorem mem_readsOfVecLoop {α : Type} [LinearOrderedField α] (offsets : Nat → Int)
    (rdx rdy : Nat → α) (dxImg dyImg magImg : Int → α) (base : Int) (contrastInvariant : Bool)
    (earlyN vecN : Nat) (earlyThresh : α) (blocks : List Nat) (vsum : Fin 8 → α)
    (r : Nat × Int)
    (h : r ∈ readsOfVecLoop offsets rdx rdy dxImg dyImg magImg base contrastInvariant
      earlyN vecN earlyThresh blocks vsum) :
    ∃ i ∈ blocks, r ∈ readsOfBlock offsets base i := by
  induction blocks generalizing vsum with
  | nil => exact absurd h (List.not_mem_nil r)
  | cons i rest ih =>
    unfold readsOfVecLoop at h
    rcases List.mem_append.mp h with h | h
    · exact ⟨i, List.mem_cons_self i rest, h⟩
    · cases hb : vecBlock offsets rdx rdy dxImg dyImg magImg base contrastInvariant
          earlyN vecN earlyThresh vsum i with
      | none =>
        rw [hb] at h
        exact absurd h (List.not_mem_nil r)
      | some vsum' =>
        rw [hb] at h
        obtain ⟨k, hk, hr⟩ := ih vsum' h
        exact ⟨k, List.mem_cons_of_mem i hk, hr⟩

/-- Every read of `EvaluateNativeInternal` uses a position `i < N` of `offsets`
and reads the images at `py * imgW + px + offsets[i]`. -/
theorem mem_readsOfInternal {α : Type} [LinearOrderedField α] (px py : Int)
    (offsets : Nat → Int) (rdx rdy : Nat → α) (dxImg dyImg magImg : Int → α)
    (imgW : Int) (N : Nat) (thresh greedy : α) (contrastInvariant : Bool) (r : Nat × Int)
    (h : r ∈ readsOfInternal px py offsets rdx rdy dxImg dyImg magImg imgW N thresh greedy
      contrastInvariant) :
    r.1 < N ∧ r.2 = py * imgW + px + offsets r.1 := by
  unfold readsOfInternal at h
  rcases List.mem_append.mp h with h | h
  · obtain ⟨i, hi, hr⟩ := mem_readsOfVecLoop _ _ _ _ _ _ _ _ _ _ _ _ _ r h
    obtain ⟨k, hk, rfl⟩ := List.mem_map.mp hi
    have hk' := List.mem_range.mp hk
    obtain ⟨h₁, h₂, h₃⟩ := mem_readsOfBlock offsets _ _ r hr
    have := Nat.div_mul_le_self N 8
    refine ⟨by omega, ?_⟩
    rw [h₃]; ring
  · cases hv : vecLoop offsets rdx rdy dxImg dyImg magImg (py * imgW + px) contrastInvariant
        (N / 5) (N / 8 * 8) (thresh * (1 - greedy)) ((List.range (N / 8)).map (fun k => 8 * k))
        (fun _ => 0) with
    | none =>
      rw [hv] at h
      exact absurd h (List.not_mem_nil r)
    | some vsum =>
      rw [hv] at h
      obtain ⟨i, hi, rfl⟩ := List.mem_map.mp h
      rw [List.mem_range'_1] at hi
      have := Nat.div_mul_le_self N 8
      exact ⟨by omega, rfl⟩

/-- Every read of `EvaluateBatchNative` is a read of `EvaluateNativeInternal`
at an in-bounds lattice point. -/
theorem mem_readsOfBatch {α : Type} [LinearOrderedField α] (baseCx baseCy refRadius : Int)
    (rx ry : Nat → Int) (rdx rdy : Nat → α) (dxImg dyImg magImg : Int → α)
    (imgW imgH : Int) (N : Nat) (margin : Int) (thresh greedy : α)
    (contrastInvariant : Bool) (r : Nat × Int)
    (h : r ∈ readsOfBatch baseCx baseCy refRadius rx ry rdx rdy dxImg dyImg magImg imgW imgH N
      margin thresh greedy contrastInvariant) :
    ∃ dx dy, IsCandidate baseCx baseCy refRadius imgW imgH margin dx dy ∧
      r ∈ readsOfInternal (baseCx + dx) (baseCy + dy) (buildOffsets rx ry imgW N) rdx rdy
        dxImg dyImg magImg imgW N thresh greedy contrastInvariant := by
  unfold readsOfBatch at h
  obtain ⟨dy, hdy, h⟩ := List.mem_flatMap.mp h
  by_cases hy : baseCy + dy < margin ∨ baseCy + dy ≥ imgH - margin
  · rw [if_pos hy] at h
    exact absurd h (List.not_mem_nil r)
  · rw [if_neg hy] at h
    obtain ⟨dx, hdx, h⟩ := List.mem_flatMap.mp h
    by_cases hx : baseCx + dx < margin ∨ baseCx + dx ≥ imgW - margin
    · rw [if_pos hx] at h
      exact absurd h (List.not_mem_nil r)
    · rw [if_neg hx] at h
      rw [mem_loopRange] at hdx hdy
      refine ⟨dx, dy, ⟨hdx, hdy, ?_, ?_⟩, h⟩
      · omega
      · omega

/-! ### Claim on the image reads of `EvaluateBatchNative` -/

/-- C21: let every model offset satisfy `|rx[i]| ≤ margin` and
`|ry[i]| ≤ margin` for `i < N` (which forces `margin ≥ 0` as soon as `N ≥ 1`;
a scored centre forces `imgW ≥ 1`). Then every read that `EvaluateBatchNative`
makes from `dxImg`, `dyImg`, `magImg` uses a position `i < N` of `offsets`,
never the zero padding, and its index is `(py + ry[i]) * imgW + (px + rx[i])`
for a scored centre `(px, py) = (baseCx + dx, baseCy + dy)` and lies in
`[0, imgW * imgH)`. Integer arithmetic is exact. -/
theorem evaluate_batch_reads_in_image {α : Type} [LinearOrderedField α]
    (baseCx baseCy refRadius : Int) (rx ry : Nat → Int) (rdx rdy : Nat → α)
    (dxImg dyImg magImg : Int → α) (imgW imgH : Int) (N : Nat) (margin : Int)
    (thresh greedy : α) (contrastInvariant : Bool)
    (hr : ∀ i, i < N → |rx i| ≤ margin ∧ |ry i| ≤ margin) (r : Nat × Int)
    (h : r ∈ readsOfBatch baseCx baseCy refRadius rx ry rdx rdy dxImg dyImg magImg imgW imgH N
      margin thresh greedy contrastInvariant) :
    r.1 < N ∧ 0 ≤ r.2 ∧ r.2 < imgW * imgH ∧
    ∃ dx dy, IsCandidate baseCx baseCy refRadius imgW imgH margin dx dy ∧
      r.2 = (baseCy + dy + ry r.1) * imgW + (baseCx + dx + rx r.1) := by
  obtain ⟨dx, dy, hc, hin⟩ := mem_readsOfBatch baseCx baseCy refRadius rx ry rdx rdy dxImg dyImg
    magImg imgW imgH N margin thresh greedy contrastInvariant r h
  obtain ⟨hlt, hidx⟩ := mem_readsOfInternal _ _ _ _ _ _ _ _ _ _ _ _ _ r hin
  obtain ⟨hrx, hry⟩ := hr r.1 hlt
  rw [abs_le] at hrx hry
  obtain ⟨hdx, hdy, ⟨hx₁, hx₂⟩, hy₁, hy₂⟩ := hc
  have he : r.2 = (baseCy + dy + ry r.1) * imgW + (baseCx + dx + rx r.1) := by
    rw [hidx, buildOffsets, if_pos hlt]; ring
  obtain ⟨hi₁, hi₂⟩ := cell_index_range (baseCx + dx + rx r.1) (baseCy + dy + ry r.1) imgW imgH
    (by omega) (by omega) (by omega) (by omega)
  refine ⟨hlt, ?_, ?_, dx, dy, ⟨hdx, hdy, ⟨hx₁, hx₂⟩, hy₁, hy₂⟩, he⟩
  · rw [he]; exact hi₁
  · rw [he]; exact hi₂

/-- Witness for C21: a `5 × 5` image, `margin = 1`, centres `(1..3, 1..3)`,
`N = 9` model points (one SIMD block and one scalar point) with `rx = ±1`,
`ry = -1`. At the centre `(3, 3)` the scalar point `i = 8` reads index
`(3 - 1) * 5 + (3 + 1) = 14`. -/
theorem evaluate_batch_reads_in_image_witness :
    ((8, 14) : Nat × Int) ∈ readsOfBatch 2 2 1 exampleRx (fun _ => -1) (fun _ => (0 : ℚ))
        (fun _ => 0) (fun _ => 0) (fun _ => 0) (fun _ => 0) 5 5 9 1 0 0 false ∧
    (((8, 14) : Nat × Int).1 < 9 ∧ 0 ≤ ((8, 14) : Nat × Int).2 ∧
      ((8, 14) : Nat × Int).2 < 5 * 5 ∧
      ∃ dx dy, IsCandidate 2 2 1 5 5 1 dx dy ∧
        ((8, 14) : Nat × Int).2
          = (2 + dy + (fun _ => -1) ((8, 14) : Nat × Int).1) * 5
            + (2 + dx + exampleRx ((8, 14) : Nat × Int).1)) :=
  have hmem : ((8, 14) : Nat × Int) ∈ readsOfBatch 2 2 1 exampleRx (fun _ => -1)
      (fun _ => (0 : ℚ)) (fun _ => 0) (fun _ => 0) (fun _ => 0) (fun _ => 0) 5 5 9 1 0 0
      false := by
    decide
  ⟨hmem, evaluate_batch_reads_in_image 2 2 1 exampleRx (fun _ => -1) (fun _ => (0 : ℚ))
    (fun _ => 0) (fun _ => 0) (fun _ => 0) (fun _ => 0) 5 5 9 1 0 0 false (by decide)
    (8, 14) hmem⟩

end NativeVision
